import Mathlib

/-!
# HashGenerator: a verification development

A shallow embedding of `src/js/hash-generator.js`:

* the worker script (`generateHash`, `generateRandomSalt`, `onmessage`),
  in namespace `Worker`;
* the engine class `HashGenerator` (`handleWorkerMessage`, `updateHashRate`,
  `generateHash`, `generateBulkHashes`, `detectHashType`), in namespace
  `HashGenerator`.

JavaScript strings are modelled by Lean strings (sequences of Unicode scalar
values); where the source works on UTF-16 code units (`substr`, `charCodeAt`)
the model converts with `utf16`.  The CryptoJS digests (MD5, SHA-x, MD4, HMAC,
PBKDF2) are library code outside the repository: they are parameters of the
model (`CryptoJS`), of which only the digest length is fixed.  The CryptoJS
encoders (Hex, Base64, Utf8) are modelled concretely.  The library the worker
imports has no `MD4`: `Worker.generateHashCall` and `Worker.reply` model the
exception this causes and the worker's `catch` blocks.  The hash rate is
computed in IEEE 754 binary64 arithmetic (`Binary64`).
-/

namespace HashGenerator

/-! ## JavaScript strings and regular expressions -/

/-- One octet. -/
abbrev Byte := Fin 256

/-- The code points `String.prototype.trim` and `parseInt` strip: the
ECMAScript WhiteSpace and LineTerminator productions. -/
def jsIsWhiteSpace (n : Nat) : Bool :=
  n == 0x09 || n == 0x0A || n == 0x0B || n == 0x0C || n == 0x0D || n == 0x20 ||
  n == 0xA0 || n == 0x1680 || (0x2000 ≤ n && n ≤ 0x200A) || n == 0x2028 ||
  n == 0x2029 || n == 0x202F || n == 0x205F || n == 0x3000 || n == 0xFEFF

/-- The method `String.prototype.trim` on the characters of a string. -/
def jsTrim (s : List Char) : List Char :=
  ((s.dropWhile fun c => jsIsWhiteSpace c.toNat).reverse.dropWhile
    fun c => jsIsWhiteSpace c.toNat).reverse

/-- A character range `a-b` of a character class. -/
def rng (a b : Char) (c : Char) : Bool := a.toNat ≤ c.toNat && c.toNat ≤ b.toNat

/-- A literal character of a pattern or class. -/
def chr (a : Char) (c : Char) : Bool := c == a

/-- The `i` flag (without `u`): a character matches when its canonical form
equals that of a member of the class.  Canonicalisation upper-cases, except
that a non-ASCII character is never mapped to an ASCII one, so for the ASCII
classes of this file a character matches when it or its ASCII case variant
is a member. -/
def ci (p : Char → Bool) (c : Char) : Bool := p c || p c.toLower || p c.toUpper

/-- One pattern element: a class of single characters with a repetition
count `{lo,hi}`; `hi = none` is unbounded (`+` is `{1,}`). -/
structure RxItem where
  cls : Char → Bool
  lo : Nat
  hi : Option Nat

/-- Consume between `lo` and `hi` characters satisfying `p`, then continue
with `k` on the rest (all counts are tried). -/
def rxRep (p : Char → Bool) (k : List Char → Bool) : List Char → Nat → Option Nat → Bool
  | [], lo, _ => lo == 0 && k []
  | c :: cs, lo, hi =>
      (lo == 0 && k (c :: cs)) ||
      (hi != some 0 && p c && rxRep p k cs (lo - 1) (hi.map (· - 1)))

/-- Does the whole string match `^items$`? -/
def rxMatch (items : List RxItem) (s : List Char) : Bool :=
  (items.foldr (fun it k => fun s => rxRep it.cls k s it.lo it.hi) (fun s => s.isEmpty)) s

/-- Exactly `n` characters of the class: `[..]{n}`. -/
def times (p : Char → Bool) (n : Nat) : List RxItem := [⟨p, n, some n⟩]

/-- Between `lo` and `hi` characters of the class: `[..]{lo,hi}`. -/
def between (p : Char → Bool) (lo hi : Nat) : List RxItem := [⟨p, lo, some hi⟩]

/-- One or more characters of the class: `[..]+`. -/
def plus (p : Char → Bool) : List RxItem := [⟨p, 1, none⟩]

/-- An optional character: `x?`. -/
def opt (p : Char → Bool) : List RxItem := [⟨p, 0, some 1⟩]

/-- A literal string under the `i` flag. -/
def lit (s : String) : List RxItem := s.toList.map fun a => ⟨ci (chr a), 1, some 1⟩

/-- The class `[a-f0-9]` under the `i` flag. -/
def hexI : Char → Bool := ci fun c => rng 'a' 'f' c || rng '0' '9' c

/-- The class `[0-9]` under the `i` flag. -/
def digitI : Char → Bool := ci (rng '0' '9')

/-- The class `[a-z0-9./]` under the `i` flag. -/
def cryptI : Char → Bool := ci fun c => rng 'a' 'z' c || rng '0' '9' c || chr '.' c || chr '/' c

/-- The class `[a-z0-9./+]` under the `i` flag. -/
def b64I : Char → Bool :=
  ci fun c => rng 'a' 'z' c || rng '0' '9' c || chr '.' c || chr '/' c || chr '+' c

/-- The class `[a-z0-9=,]` under the `i` flag. -/
def scryptParamI : Char → Bool :=
  ci fun c => rng 'a' 'z' c || rng '0' '9' c || chr '=' c || chr ',' c

/-- The pattern `/^[a-f0-9]{n}$/i`. -/
def rxHex (n : Nat) : List RxItem := times hexI n

/-- The pattern `/^\*[a-f0-9]{40}$/i`. -/
def rxMySQL : List RxItem := lit "*" ++ times hexI 40

/-- The pattern `/^\$1\$[a-z0-9./]{0,8}\$[a-z0-9./]{22}$/i`. -/
def rxMD5Crypt : List RxItem := lit "$1$" ++ between cryptI 0 8 ++ lit "$" ++ times cryptI 22

/-- The pattern `/^\$2[ayb]\$[0-9]{2}\$[a-z0-9./]{53}$/i`. -/
def rxBcrypt : List RxItem :=
  lit "$2" ++ times (ci fun c => chr 'a' c || chr 'y' c || chr 'b' c) 1 ++ lit "$" ++
    times digitI 2 ++ lit "$" ++ times cryptI 53

/-- The pattern `/^\$5\$[a-z0-9./]{0,16}\$[a-z0-9./]{43}$/i`. -/
def rxSHA256Crypt : List RxItem :=
  lit "$5$" ++ between cryptI 0 16 ++ lit "$" ++ times cryptI 43

/-- The pattern `/^\$6\$[a-z0-9./]{0,16}\$[a-z0-9./]{86}$/i`. -/
def rxSHA512Crypt : List RxItem :=
  lit "$6$" ++ between cryptI 0 16 ++ lit "$" ++ times cryptI 86

/-- The tail `\$[0-9]+\$[a-z0-9./+]+={0,2}\$[a-z0-9./+]+={0,2}$` of the
PBKDF2 pattern. -/
def rxPBKDF2Tail : List RxItem :=
  lit "$" ++ plus digitI ++ lit "$" ++ plus b64I ++ between (ci (chr '=')) 0 2 ++
    lit "$" ++ plus b64I ++ between (ci (chr '=')) 0 2

/-- The pattern
`/^\$pbkdf2(\-sha[0-9]+)?\$[0-9]+\$[a-z0-9./+]+={0,2}\$[a-z0-9./+]+={0,2}$/i`:
the optional group is either present or absent. -/
def testPBKDF2 (s : List Char) : Bool :=
  rxMatch (lit "$pbkdf2" ++ (lit "-sha" ++ plus digitI) ++ rxPBKDF2Tail) s ||
  rxMatch (lit "$pbkdf2" ++ rxPBKDF2Tail) s

/-- The pattern
`/^\$argon2id?\$v=[0-9]+\$m=[0-9]+,t=[0-9]+,p=[0-9]+\$[a-z0-9./+]+\$[a-z0-9./+]+$/i`. -/
def rxArgon2 : List RxItem :=
  lit "$argon2i" ++ opt (ci (chr 'd')) ++ lit "$v=" ++ plus digitI ++ lit "$m=" ++
    plus digitI ++ lit ",t=" ++ plus digitI ++ lit ",p=" ++ plus digitI ++ lit "$" ++
    plus b64I ++ lit "$" ++ plus b64I

/-- The pattern `/^\$scrypt\$[a-z0-9=,]+\$[a-z0-9./+]+\$[a-z0-9./+]+$/i`. -/
def rxScrypt : List RxItem :=
  lit "$scrypt$" ++ plus scryptParamI ++ lit "$" ++ plus b64I ++ lit "$" ++ plus b64I

/-- The pattern `/^\$y\$[a-z0-9./+]+\$[a-z0-9./+]+\$[a-z0-9./+]+$/i`. -/
def rxYescrypt : List RxItem :=
  lit "$y$" ++ plus b64I ++ lit "$" ++ plus b64I ++ lit "$" ++ plus b64I

/-- The pattern `/^[a-f0-9]{32}:[a-f0-9]+$/i`. -/
def rxNetNTLMv2 : List RxItem := times hexI 32 ++ lit ":" ++ plus hexI

/-- The pattern `/^[a-f0-9]{32}\*[a-f0-9]{12}\*[a-f0-9]{12}$/i`. -/
def rxWPA : List RxItem := times hexI 32 ++ lit "*" ++ times hexI 12 ++ lit "*" ++ times hexI 12

/-! ## CryptoJS: encoders (concrete) and digests (parameters) -/

/-- The octet with value `n mod 256`. -/
def byte (n : Nat) : Byte := Fin.ofNat n

/-- The UTF-16 code units of a string (what `length`, `substr`, `split('')`
and `charCodeAt` see). -/
def utf16 (s : String) : List Nat :=
  s.toList.flatMap fun c =>
    if c.toNat < 0x10000 then [c.toNat]
    else [0xD800 + (c.toNat - 0x10000) / 0x400, 0xDC00 + (c.toNat - 0x10000) % 0x400]

/-- The UTF-8 octets of one code point. -/
def utf8Char (n : Nat) : List Byte :=
  if n < 0x80 then [byte n]
  else if n < 0x800 then [byte (0xC0 + n / 0x40), byte (0x80 + n % 0x40)]
  else if n < 0x10000 then
    [byte (0xE0 + n / 0x1000), byte (0x80 + n / 0x40 % 0x40), byte (0x80 + n % 0x40)]
  else
    [byte (0xF0 + n / 0x40000), byte (0x80 + n / 0x1000 % 0x40),
     byte (0x80 + n / 0x40 % 0x40), byte (0x80 + n % 0x40)]

/-- A CryptoJS `WordArray`: its significant octets.  `Hex.parse` of a string of
odd length yields `sigBytes = k + 0.5`; the last, partially significant octet
is then `halfByte`. -/
structure WordArray where
  bytes : List Byte
  halfByte : Option Byte := none
deriving DecidableEq

/-- The call `CryptoJS.enc.Utf8.parse(str)`, which is also how CryptoJS reads
a string argument of a hasher. -/
def encUtf8Parse (s : String) : WordArray := ⟨s.toList.flatMap fun c => utf8Char c.toNat, none⟩

/-- The call `CryptoJS.enc.Latin1.parse(str)`: one octet per code unit. -/
def encLatin1Parse (units : List Nat) : WordArray := ⟨units.map byte, none⟩

/-- The digit of `n < 16` as `Number.prototype.toString(16)` writes it. -/
def hexDigit (n : Nat) : Char := "0123456789abcdef".toList.getD n '0'

/-- The call `wordArray.toString(CryptoJS.enc.Hex)` on whole octets. -/
def encHexStringify (bytes : List Byte) : String :=
  ⟨bytes.flatMap fun b => [hexDigit (b.val / 16), hexDigit (b.val % 16)]⟩

/-- The value of a code unit as a digit of the given radix. -/
def digitVal (radix : Nat) (u : Nat) : Option Nat :=
  let v := if 48 ≤ u ∧ u ≤ 57 then some (u - 48)
    else if 97 ≤ u ∧ u ≤ 122 then some (u - 87)
    else if 65 ≤ u ∧ u ≤ 90 then some (u - 55)
    else none
  v.bind fun d => if d < radix then some d else none

/-- The longest prefix of digits of the radix, as their values. -/
def leadingDigits (radix : Nat) : List Nat → List Nat
  | [] => []
  | u :: us =>
    match digitVal radix u with
    | some d => d :: leadingDigits radix us
    | none => []

/-- The function `parseInt(string, radix)` on code units; `radix = none` is the
one-argument call, `none` as a result is `NaN`. -/
def jsParseInt (units : List Nat) (radix : Option Nat) : Option Int :=
  let us := units.dropWhile jsIsWhiteSpace
  let neg := us.head? == some 45
  let us := if us.head? == some 45 || us.head? == some 43 then us.tail else us
  let has0x := us.take 2 == [48, 120] || us.take 2 == [48, 88]
  let r := match radix with
    | some r => r
    | none => if has0x then 16 else 10
  let us := if r == 16 && has0x then us.drop 2 else us
  let ds := leadingDigits r us
  if ds.isEmpty then none
  else
    let v : Int := (ds.foldl (fun acc d => acc * r + d) 0 : Nat)
    some (if neg then -v else v)

/-- The loop of `CryptoJS.enc.Hex.parse`: each pair of code units is read with
`parseInt(.., 16)` and OR-ed into its octet of the 32-bit word (`NaN` shifts to
0; a negative value also sets the earlier octets of the same word). -/
def hexParseLoop : List Nat → List Byte → WordArray
  | [], acc => ⟨acc, none⟩
  | [u], acc => ⟨acc, some (byte ((jsParseInt [u] (some 16)).getD 0).toNat)⟩
  | u₁ :: u₂ :: rest, acc =>
    match jsParseInt [u₁, u₂] (some 16) with
    | none => hexParseLoop rest (acc ++ [byte 0])
    | some v =>
      if 0 ≤ v then hexParseLoop rest (acc ++ [byte v.toNat])
      else hexParseLoop rest
        (acc.take (4 * (acc.length / 4)) ++ List.replicate (acc.length % 4) (byte 255) ++
          [byte (256 + v).toNat])

/-- The call `CryptoJS.enc.Hex.parse(hexStr)`. -/
def encHexParse (hexStr : String) : WordArray := hexParseLoop (utf16 hexStr) []

/-- The Base64 alphabet of CryptoJS, padding character last. -/
def base64Map : String := "ABCDEFGHIJKLMNOPQRSTUVWXYZabcdefghijklmnopqrstuvwxyz0123456789+/="

/-- The character `map.charAt(i)` for a 6-bit value. -/
def b64Char (n : Nat) : Char := base64Map.toList.getD (n % 64) '='

/-- The loop of `CryptoJS.enc.Base64.stringify`: three octets give four
characters; a last group of `sigBytes` 1, 1.5, 2, 2.5 or 0.5 gives the
characters with `i + j * 0.75 < sigBytes`, padded with `=` to a multiple of
four.  `e` is the partially significant octet after `clamp()`. -/
def base64Loop : List Byte → Option Nat → List Char
  | [], none => []
  | [], some e => [b64Char (e / 4), '=', '=', '=']
  | [a], none => [b64Char (a.val / 4), b64Char (a.val % 4 * 16), '=', '=']
  | [a], some e => [b64Char (a.val / 4), b64Char (a.val % 4 * 16 + e / 16), '=', '=']
  | [a, b], none =>
    [b64Char (a.val / 4), b64Char (a.val % 4 * 16 + b.val / 16), b64Char (b.val % 16 * 4), '=']
  | [a, b], some e =>
    [b64Char (a.val / 4), b64Char (a.val % 4 * 16 + b.val / 16),
     b64Char (b.val % 16 * 4 + e / 64), b64Char (e % 64)]
  | a :: b :: c :: rest, e =>
    b64Char (a.val / 4) :: b64Char (a.val % 4 * 16 + b.val / 16) ::
      b64Char (b.val % 16 * 4 + c.val / 64) :: b64Char (c.val % 64) :: base64Loop rest e

/-- The call `CryptoJS.enc.Base64.stringify(wordArray)`; `clamp()` keeps the
high nibble of a partially significant octet. -/
def encBase64Stringify (w : WordArray) : String :=
  ⟨base64Loop w.bytes (w.halfByte.map fun p => p.val / 16 * 16)⟩

/-- The hashers PBKDF2 is configured with in this file. -/
inductive Hasher
  | SHA1
  | SHA256
  | SHA512
deriving DecidableEq

/-- The digest functions of the CryptoJS library, which is not part of the
repository: each gives the octet at a position of its digest; the embedding
reads as many octets as the digest has.  The worker imports crypto-js 4.1.1,
which defines every function listed here except `MD4`: there the call
`CryptoJS.MD4(...)` throws a TypeError (`Worker.generateHashCall`), and the
field `MD4` is the digest the two NTLM branches are written for. -/
structure CryptoJS where
  MD5 : WordArray → Nat → Byte
  SHA1 : WordArray → Nat → Byte
  SHA224 : WordArray → Nat → Byte
  SHA256 : WordArray → Nat → Byte
  SHA384 : WordArray → Nat → Byte
  SHA512 : WordArray → Nat → Byte
  MD4 : WordArray → Nat → Byte
  HmacSHA1 : (message key : WordArray) → Nat → Byte
  PBKDF2 : (password salt : WordArray) → (keySize : Nat) → (iterations : ℚ) → Hasher →
    Nat → Byte

/-- The first `n` octets of a digest, as a `WordArray`. -/
def digest (n : Nat) (f : Nat → Byte) : List Byte := (List.range n).map f

/-- A stand-in library whose digests are all zero octets, for evaluating the
model on concrete inputs. -/
def zeroCrypto : CryptoJS :=
  { MD5 := fun _ _ => 0, SHA1 := fun _ _ => 0, SHA224 := fun _ _ => 0, SHA256 := fun _ _ => 0,
    SHA384 := fun _ _ => 0, SHA512 := fun _ _ => 0, MD4 := fun _ _ => 0,
    HmacSHA1 := fun _ _ _ => 0, PBKDF2 := fun _ _ _ _ _ _ => 0 }


/-! ## The worker script -/

/-- The `options` object of a request; an absent field is `none`. -/
structure HashOptions where
  salt : Option String := none
  iterations : Option Int := none
  costFactor : Option Int := none
  outputFormat : Option String := none
  uppercase : Option Bool := none
deriving DecidableEq

/-- JavaScript `a || b` on an optional string: the empty string is falsy. -/
def orStr (a : Option String) (b : String) : String :=
  match a with
  | some x => if x = "" then b else x
  | none => b

/-- JavaScript `a || b` on an optional number: zero is falsy. -/
def orNum (a : Option Int) (b : Int) : Int :=
  match a with
  | some x => if x = 0 then b else x
  | none => b

/-- The call `Number.prototype.toString()` on an integer (below the magnitude
at which JavaScript switches to exponent notation). -/
def numToString (n : Int) : String := toString n

/-- The call `str.padStart(2, '0')`. -/
def padStart2 (s : String) : String :=
  ⟨List.replicate (2 - (utf16 s).length) '0' ++ s.toList⟩

/-- The call `str.toUpperCase()`, on the ASCII strings the worker formats. -/
def toUpperCase (s : String) : String := ⟨s.toList.map Char.toUpper⟩

/-- The call `str.includes('$')`. -/
def includesDollar (s : String) : Bool := s.toList.contains '$'

/-- The UTF-16LE octets of a string, as the NTLM branches build them with
`split('')`, `charCodeAt(0)` and `String.fromCharCode(code & 0xFF, (code >> 8) & 0xFF)`. -/
def utf16le (s : String) : List Nat := (utf16 s).flatMap fun code => [code % 256, code / 256 % 256]

namespace Worker

/-- The alphabet `chars` of `generateRandomSalt`. -/
def chars : String := "ABCDEFGHIJKLMNOPQRSTUVWXYZabcdefghijklmnopqrstuvwxyz0123456789./"

/-- The call `chars.charAt(i)`: the empty string when out of range. -/
def charAt (s : String) (i : Nat) : List Char := (s.toList.get? i).toList

/-- The worker function `generateRandomSalt(length)`; `randomValues` is the
content of the `Uint8Array` after it was filled by the random source. -/
def generateRandomSalt (randomValues : Nat → Byte) (length : Nat) : String :=
  ⟨(List.range length).flatMap fun i => charAt chars ((randomValues i).val % chars.length)⟩

/-- The worker function `generateHash(text, algorithm, options)`: the string
it returns when it returns.  `C` is the CryptoJS library and `randomValues`
the octets the random source delivers to the one call of
`generateRandomSalt` the function may make.  When the call throws instead is
said by `Worker.generateHashCall`. -/
def generateHash (C : CryptoJS) (randomValues : Nat → Byte) (text algorithm : String)
    (options : HashOptions) : String :=
  if text = "" then ""
  else
    let salt := orStr options.salt ""
    let iterations := orNum options.iterations 10000
    let costFactor := orNum options.costFactor 10
    let outputFormat := orStr options.outputFormat "hex"
    let uppercase := options.uppercase.getD false
    let result : String :=
      if algorithm = "md5" then encHexStringify (digest 16 (C.MD5 (encUtf8Parse text)))
      else if algorithm = "sha1" then encHexStringify (digest 20 (C.SHA1 (encUtf8Parse text)))
      else if algorithm = "sha224" then
        encHexStringify (digest 28 (C.SHA224 (encUtf8Parse text)))
      else if algorithm = "sha256" then
        encHexStringify (digest 32 (C.SHA256 (encUtf8Parse text)))
      else if algorithm = "sha384" then
        encHexStringify (digest 48 (C.SHA384 (encUtf8Parse text)))
      else if algorithm = "sha512" then
        encHexStringify (digest 64 (C.SHA512 (encUtf8Parse text)))
      else if algorithm = "mysql-sha1" then
        "*" ++ toUpperCase (encHexStringify
          (digest 20 (C.SHA1 ⟨digest 20 (C.SHA1 (encUtf8Parse text)), none⟩)))
      else if algorithm = "ntlm" then
        encHexStringify (digest 16 (C.MD4 (encLatin1Parse (utf16le text))))
      else if algorithm = "pbkdf2" then
        let key := digest (4 * 8)
          (C.PBKDF2 (encUtf8Parse text) (encUtf8Parse salt) 8 iterations Hasher.SHA512)
        if outputFormat = "standard" then
          let saltBase64 := encBase64Stringify (encUtf8Parse salt)
          let keyBase64 := encBase64Stringify ⟨key, none⟩
          "$pbkdf2$" ++ numToString iterations ++ "$" ++ saltBase64 ++ "$" ++ keyBase64
        else encHexStringify key
      else if algorithm = "md5-crypt" then
        let saltToUse := if salt = "" then generateRandomSalt randomValues 8 else salt
        let magic := "$1$"
        let intermediate :=
          encHexStringify (digest 16 (C.MD5 (encUtf8Parse (text ++ saltToUse ++ text))))
        magic ++ saltToUse ++ "$" ++ intermediate
      else if algorithm = "sha256-crypt" then
        let saltToUse := if salt = "" then generateRandomSalt randomValues 8 else salt
        let magic := "$5$"
        let rounds : Int := 5000
        let key := digest (4 * 8)
          (C.PBKDF2 (encUtf8Parse text) (encUtf8Parse saltToUse) 8 rounds Hasher.SHA256)
        magic ++ saltToUse ++ "$" ++ encHexStringify key
      else if algorithm = "sha512-crypt" then
        let saltToUse := if salt = "" then generateRandomSalt randomValues 8 else salt
        let magic := "$6$"
        let rounds : Int := 5000
        let key := digest (4 * 16)
          (C.PBKDF2 (encUtf8Parse text) (encUtf8Parse saltToUse) 16 rounds Hasher.SHA512)
        magic ++ saltToUse ++ "$" ++ encHexStringify key
      else if algorithm = "bcrypt" then
        let saltToUse := if salt = "" then generateRandomSalt randomValues 16 else salt
        let magic := "$2a$"
        let cost := padStart2 (numToString costFactor)
        let iterations : ℚ := (2 : ℚ) ^ costFactor * 100
        let key := digest (4 * 6)
          (C.PBKDF2 (encUtf8Parse text) (encUtf8Parse saltToUse) 6 iterations Hasher.SHA512)
        let keyBase64 := encBase64Stringify ⟨key, none⟩
        magic ++ cost ++ "$" ++ saltToUse ++ "." ++ keyBase64
      else if algorithm = "argon2" then
        let saltToUse := if salt = "" then generateRandomSalt randomValues 16 else salt
        let magic := "$argon2id$v=19$m=65536,t=3,p=4$"
        let key := digest (4 * 8)
          (C.PBKDF2 (encUtf8Parse text) (encUtf8Parse saltToUse) 8 (iterations * 2 : Int)
            Hasher.SHA512)
        let saltBase64 := encBase64Stringify (encUtf8Parse saltToUse)
        let keyBase64 := encBase64Stringify ⟨key, none⟩
        magic ++ saltBase64 ++ "$" ++ keyBase64
      else if algorithm = "scrypt" then
        let saltToUse := if salt = "" then generateRandomSalt randomValues 16 else salt
        let magic := "$scrypt$"
        let key := digest (4 * 8)
          (C.PBKDF2 (encUtf8Parse text) (encUtf8Parse saltToUse) 8 (iterations * 3 : Int)
            Hasher.SHA512)
        let saltBase64 := encBase64Stringify (encUtf8Parse saltToUse)
        let keyBase64 := encBase64Stringify ⟨key, none⟩
        magic ++ "ln=16,r=8,p=1$" ++ saltBase64 ++ "$" ++ keyBase64
      else if algorithm = "yescrypt" then
        let saltToUse := if salt = "" then generateRandomSalt randomValues 16 else salt
        let magic := "$y$"
        let key := digest (4 * 8)
          (C.PBKDF2 (encUtf8Parse text) (encUtf8Parse saltToUse) 8 (iterations * 4 : Int)
            Hasher.SHA512)
        let saltBase64 := encBase64Stringify (encUtf8Parse saltToUse)
        let keyBase64 := encBase64Stringify ⟨key, none⟩
        magic ++ "j9T$" ++ saltBase64 ++ "$" ++ keyBase64
      else if algorithm = "netntlmv2" then
        let password := if salt = "" then "password" else salt
        let challenge := generateRandomSalt randomValues 8
        let ntlmHash := encHexStringify (digest 16 (C.MD4 (encLatin1Parse (utf16le password))))
        let hmac := digest 20 (C.HmacSHA1 (encHexParse challenge) (encHexParse ntlmHash))
        encHexStringify hmac ++ ":" ++ challenge
      else if algorithm = "wpa-pmkid" then
        let passphrase := text
        let ssid := if salt = "" then "WiFi-Network" else salt
        let pmk := digest (4 * 8)
          (C.PBKDF2 (encUtf8Parse passphrase) (encUtf8Parse ssid) 8 (4096 : Int) Hasher.SHA1)
        let pmkHex := encHexStringify pmk
        let apMac := "001122334455"
        let clientMac := "aabbccddeeff"
        pmkHex ++ "*" ++ apMac ++ "*" ++ clientMac
      else ""
    let result :=
      if outputFormat = "base64" && !includesDollar result then
        encBase64Stringify (encHexParse result)
      else result
    let result :=
      if uppercase && outputFormat = "hex" && !includesDollar result then toUpperCase result
      else result
    result

end Worker


/-- The object `{ type, confidence }` that `detectHashType` returns. -/
structure Detection where
  type : String
  confidence : Nat
deriving DecidableEq, Repr

/-- The method `detectHashType(hash)`; `none` is an absent argument. -/
def detectHashType (hash : Option String) : Detection :=
  match hash with
  | none => ⟨"Unknown", 0⟩
  | some h =>
    if h = "" then ⟨"Unknown", 0⟩
    else
      let hash := jsTrim h.toList
      if rxMatch (rxHex 32) hash then ⟨"MD5", 90⟩
      else if rxMatch (rxHex 40) hash then ⟨"SHA1", 90⟩
      else if rxMatch (rxHex 64) hash then ⟨"SHA256", 90⟩
      else if rxMatch (rxHex 128) hash then ⟨"SHA512", 90⟩
      else if rxMatch (rxHex 56) hash then ⟨"SHA224", 90⟩
      else if rxMatch (rxHex 96) hash then ⟨"SHA384", 90⟩
      else if rxMatch (rxHex 32) hash then ⟨"NTLM", 60⟩
      else if rxMatch rxMySQL hash then ⟨"MySQL-SHA1", 95⟩
      else if rxMatch rxMD5Crypt hash then ⟨"MD5-Crypt", 95⟩
      else if rxMatch rxBcrypt hash then ⟨"bcrypt", 95⟩
      else if rxMatch rxSHA256Crypt hash then ⟨"SHA-256-Crypt", 95⟩
      else if rxMatch rxSHA512Crypt hash then ⟨"SHA-512-Crypt", 95⟩
      else if testPBKDF2 hash then ⟨"PBKDF2", 95⟩
      else if rxMatch rxArgon2 hash then ⟨"Argon2", 95⟩
      else if rxMatch rxScrypt hash then ⟨"scrypt", 95⟩
      else if rxMatch rxYescrypt hash then ⟨"yescrypt", 95⟩
      else if rxMatch rxNetNTLMv2 hash then ⟨"NetNTLMv2", 90⟩
      else if rxMatch rxWPA hash then ⟨"WPA-PMKID", 90⟩
      else ⟨"Unknown", 0⟩

/-- The salt a salted branch uses: the one of the options, or a random one
of the given length. -/
def saltToUse (rnd : Nat → Byte) (options : HashOptions) (length : Nat) : String :=
  if orStr options.salt "" = "" then Worker.generateRandomSalt rnd length
  else orStr options.salt ""

/-! ## Messages between the engine and its workers -/

/-- An item of a bulk request: `{ text, id }`. -/
structure BulkItem where
  text : String
  id : String
deriving DecidableEq

/-- An entry of a bulk result: `{ text, hash, id }`. -/
structure BulkResult where
  text : String
  hash : String
  id : String
deriving DecidableEq

/-- A message the engine posts to a worker. -/
inductive Request
  | generate (text algorithm : String) (options : HashOptions) (id : String)
  | bulk_generate (items : List BulkItem) (algorithm : String) (options : HashOptions)
      (batchId : String)
deriving DecidableEq

/-- A message a worker posts to the engine; a field the worker's object
literal does not have is `none`. -/
inductive WorkerMessage
  | result (hash : String) (id : Option String)
  | bulk_result (results : List BulkResult) (batchId : Option String)
  | error (error : String) (id : Option String) (batchId : Option String)
deriving DecidableEq

namespace Worker

/-- The `try` blocks of the worker's `self.onmessage`: the message posted
when no call of `generateHash` throws.  `rand j` holds the random octets for
the `j`-th call of `generateHash` made while the message is handled.  The
handler with its `catch` blocks is `Worker.reply`; the two agree for every
algorithm other than 'ntlm' and 'netntlmv2' (theorem `reply_eq_onmessage`). -/
def onmessage (C : CryptoJS) (rand : Nat → Nat → Byte) : Request → WorkerMessage
  | .generate text algorithm options id =>
    .result (generateHash C (rand 0) text algorithm options) (some id)
  | .bulk_generate items algorithm options batchId =>
    .bulk_result
      (items.enum.map fun (j, item) =>
        { text := item.text, hash := generateHash C (rand j) item.text algorithm options,
          id := item.id })
      (some batchId)

/-- How a call completes: it returns a value, or throws an exception with a
`message`. -/
inductive Completion (α : Type)
  | returned (value : α)
  | thrown (message : String)
deriving DecidableEq

/-- The `message` of the TypeError that calling the undefined `CryptoJS.MD4`
throws, in the wording of V8 and SpiderMonkey. -/
def md4ErrorMessage : String := "CryptoJS.MD4 is not a function"

/-- The call `generateHash(text, algorithm, options)` in the worker, whose
library is crypto-js 4.1.1: it returns a string or throws.  After the guard `if (!text) return ''`
the branches 'ntlm' and 'netntlmv2' call `CryptoJS.MD4`, which that library
does not define, and throw before they assign `result`; 'netntlmv2' has
drawn its challenge by then.  No other branch throws. -/
def generateHashCall (C : CryptoJS) (randomValues : Nat → Byte) (text algorithm : String)
    (options : HashOptions) : Completion String :=
  if text = "" then .returned ""
  else if algorithm = "ntlm" ∨ algorithm = "netntlmv2" then .thrown md4ErrorMessage
  else .returned (generateHash C randomValues text algorithm options)

/-- The loop `for (const item of data.items)` of the 'bulk_generate' branch,
from the item number `j` on: the entries pushed to `results`, or the message
of the first exception. -/
def bulkLoop (C : CryptoJS) (rand : Nat → Nat → Byte) (algorithm : String)
    (options : HashOptions) : Nat → List BulkItem → Completion (List BulkResult)
  | _, [] => .returned []
  | j, item :: rest =>
    match generateHashCall C (rand j) item.text algorithm options with
    | .thrown message => .thrown message
    | .returned hash =>
      match bulkLoop C rand algorithm options (j + 1) rest with
      | .thrown message => .thrown message
      | .returned results =>
        .returned ({ text := item.text, hash := hash, id := item.id } :: results)

/-- The worker's `self.onmessage` with its `try` and `catch` blocks: the
message it posts for a request. -/
def reply (C : CryptoJS) (rand : Nat → Nat → Byte) : Request → WorkerMessage
  | .generate text algorithm options id =>
    match generateHashCall C (rand 0) text algorithm options with
    | .returned result => .result result (some id)
    | .thrown message => .error message (some id) none
  | .bulk_generate items algorithm options batchId =>
    match bulkLoop C rand algorithm options 0 items with
    | .returned results => .bulk_result results (some batchId)
    | .thrown message => .error message none (some batchId)

end Worker

/-! ## The engine -/

/-- How a promise was settled. -/
inductive Settlement
  | resolved (hash : String)
  | resolvedList (hashes : List String)
  | rejected (message : String)
deriving DecidableEq

/-- What a request method returns: `Promise.reject(new Error(message))`, or a
new promise, named by its number. -/
inductive Promise
  | rejected (message : String)
  | pending (ref : Nat)
deriving DecidableEq

/-- The closure `callback` of `generateHash`, with the variables it captures. -/
structure HashCallback where
  id : String
  promise : Nat
deriving DecidableEq

/-- The closure `callback` of `generateBulkHashes`, with the variables it
captures: `batchId`, `batches.length`, the promise, and the mutable `results`
and `completedBatches`. -/
structure BulkCallback where
  batchId : String
  batches : Nat
  promise : Nat
  results : List BulkResult
  completedBatches : Nat
deriving DecidableEq

/-- The closure `errorCallback` of `generateHash` (`single`) or of
`generateBulkHashes` (`bulk`). -/
inductive ErrorCallback
  | single (id : String) (promise : Nat)
  | bulk (batchId : String) (promise : Nat)
deriving DecidableEq

/-- The object `handleWorkerMessage` passes to `onError`. -/
structure ErrorInfo where
  error : String
  id : Option String
  batchId : Option String
deriving DecidableEq

/-- The state of a `HashGenerator` object, with what it has done so far:
the messages posted to workers, the promises created and settled, the
statistics notifications and the console log. -/
structure Engine where
  hashesGenerated : Nat
  hashesPerSecond : Nat
  uniqueAlgorithmsUsed : List String
  numWorkers : Nat
  lastUpdateTime : Int
  onHash : Option HashCallback
  onBulkHash : Option BulkCallback
  onError : Option ErrorCallback
  onStatsUpdate : Bool
  posted : List (Nat × Request)
  promises : Nat
  settlements : List (Nat × Settlement)
  statsUpdates : List (Nat × Nat)
  errorLog : List String
deriving DecidableEq

/-- The constructor, for `navigator.hardwareConcurrency || 4 = numWorkers`
at time `now`. -/
def Engine.new (numWorkers : Nat) (now : Int) : Engine :=
  { hashesGenerated := 0, hashesPerSecond := 0, uniqueAlgorithmsUsed := [],
    numWorkers := numWorkers, lastUpdateTime := now, onHash := none, onBulkHash := none,
    onError := none, onStatsUpdate := false, posted := [], promises := 0, settlements := [],
    statsUpdates := [], errorLog := [] }

/-- Calling `resolve` or `reject` of a promise: only the first call settles it. -/
def settle (s : Engine) (p : Nat) (v : Settlement) : Engine :=
  if s.settlements.any (fun e => e.1 == p) then s
  else { s with settlements := s.settlements ++ [(p, v)] }

/-- The state of a promise: `none` while it is pending. -/
def promiseState (s : Engine) (p : Nat) : Option Settlement :=
  (s.settlements.find? fun e => e.1 == p).map Prod.snd

/-- The call `uniqueAlgorithmsUsed.add(algorithm)` on the `Set`. -/
def setAdd (set : List String) (a : String) : List String :=
  if set.contains a then set else set ++ [a]

/-- A finite non-negative JavaScript Number (IEEE 754 binary64): the value
`mant * 2 ^ exp`.  The results of `Binary64.divNat` have `2 ^ 52 ≤ mant ≤ 2 ^ 53`
or are zero. -/
structure Binary64 where
  mant : Nat
  exp : Int
deriving DecidableEq

namespace Binary64

/-- The rational value of a Number. -/
def toRat (x : Binary64) : ℚ := (x.mant : ℚ) * (2 : ℚ) ^ x.exp

/-- The integer nearest to `n / d`, the even one when two are equally near:
the rounding mode of binary64 arithmetic. -/
def roundHalfEven (n d : Nat) : Nat :=
  if 2 * (n % d) < d then n / d
  else if d < 2 * (n % d) then n / d + 1
  else if n / d % 2 = 0 then n / d else n / d + 1

/-- The loop behind `log2`: halve until the number is below 2. -/
def log2Loop : Nat → Nat → Nat
  | 0, _ => 0
  | fuel + 1, n => if n < 2 then 0 else log2Loop fuel (n / 2) + 1

/-- The position of the leading bit of `n`. -/
def log2 (n : Nat) : Nat := log2Loop n n

/-- Numerator and denominator of `n / d / 2 ^ k`. -/
def scale (n d : Nat) (k : Int) : Nat × Nat := (n * 2 ^ (-k).toNat, d * 2 ^ k.toNat)

/-- The exponent `k` of the quotient `n / d`: the one with
`2 ^ 52 ≤ n / d / 2 ^ k < 2 ^ 53`, so that the significand has 53 bits. -/
def exponent (n d : Nat) : Int :=
  let k : Int := (log2 n : Int) - (log2 d : Int) - 53
  if 2 ^ 53 * (scale n d k).2 ≤ (scale n d k).1 then k + 1 else k

/-- The Number `n / d` for integers `n` and `d > 0`: the quotient rounded to
a significand of 53 bits.  No quotient of integers below `2 ^ 53` is
subnormal or overflows. -/
def divNat (n d : Nat) : Binary64 :=
  if n = 0 then ⟨0, 0⟩
  else ⟨roundHalfEven (scale n d (exponent n d)).1 (scale n d (exponent n d)).2, exponent n d⟩

/-- The Number with the integer value `n`, for `n` below `2 ^ 53` as the
engine's counter and clock differences are. -/
def ofNat (n : Nat) : Binary64 := ⟨n, 0⟩

/-- The operator `/` on Numbers, for a divisor that is not zero: the
quotient of the significands, with the exponents subtracted. -/
def div (x y : Binary64) : Binary64 :=
  ⟨(divNat x.mant y.mant).mant, (divNat x.mant y.mant).exp + x.exp - y.exp⟩

end Binary64

/-- The function `Math.round` on a non-negative Number: the floor of
`x + 1/2`, computed exactly. -/
def Math.round (x : Binary64) : Nat :=
  (2 * x.mant * 2 ^ x.exp.toNat + 2 ^ (-x.exp).toNat) / (2 * 2 ^ (-x.exp).toNat)

/-- The method `updateHashRate()` at time `now = Date.now()` (milliseconds).
`elapsed` and the rate are computed in binary64 arithmetic as the code does.
The test `elapsed >= 1` is written on the integers: it holds exactly when
`now - lastUpdateTime >= 1000` (theorem `elapsed_ge_one`). -/
def updateHashRate (s : Engine) (now : Int) : Engine :=
  if 1000 ≤ now - s.lastUpdateTime then
    let elapsed := Binary64.div (Binary64.ofNat (now - s.lastUpdateTime).toNat) (Binary64.ofNat 1000)
    let s := { s with
      hashesPerSecond := Math.round (Binary64.div (Binary64.ofNat s.hashesGenerated) elapsed),
      hashesGenerated := 0,
      lastUpdateTime := now }
    if s.onStatsUpdate then
      { s with statsUpdates := s.statsUpdates ++ [(s.hashesPerSecond, s.uniqueAlgorithmsUsed.length)] }
    else s
  else s

/-- The comparator `(a, b) => parseInt(a.id) - parseInt(b.id)` as the order
`Array.prototype.sort` sorts by: `a` may stay before `b` when the difference
is not positive (`NaN` counts as 0). -/
def idLe (a b : BulkResult) : Prop :=
  match jsParseInt (utf16 a.id) none, jsParseInt (utf16 b.id) none with
  | some x, some y => x - y ≤ 0
  | _, _ => True

instance : DecidableRel idLe := fun a b => by
  unfold idLe
  split <;> infer_instance

/-- Invoking the closure `callback` of `generateHash` with `{ hash, id }`. -/
def HashCallback.call (cb : HashCallback) (s : Engine) (hash : String) (id : Option String) :
    Engine :=
  if id = some cb.id then settle { s with onHash := none, onError := none } cb.promise (.resolved hash)
  else s

/-- Invoking the closure `callback` of `generateBulkHashes` with
`{ results, batchId }`; `Array.prototype.sort` is stable. -/
def BulkCallback.call (cb : BulkCallback) (s : Engine) (results : List BulkResult)
    (batchId : Option String) : Engine :=
  if batchId = some cb.batchId then
    let cb := { cb with results := cb.results ++ results,
                        completedBatches := cb.completedBatches + 1 }
    if cb.completedBatches = cb.batches then
      settle { s with onBulkHash := none, onError := none } cb.promise
        (.resolvedList ((cb.results.insertionSort idLe).map fun r => r.hash))
    else { s with onBulkHash := some cb }
  else s

/-- Invoking an `errorCallback` with the object `error`. -/
def ErrorCallback.call (cb : ErrorCallback) (s : Engine) (error : ErrorInfo) : Engine :=
  match cb with
  | .single id promise =>
    if error.id = some id then
      settle { s with onHash := none, onError := none } promise (.rejected error.error)
    else s
  | .bulk batchId promise =>
    if error.batchId = some batchId then
      settle { s with onBulkHash := none, onError := none } promise (.rejected error.error)
    else s

/-- The method `handleWorkerMessage(e)` for `e.data = data`, at time `now`. -/
def handleWorkerMessage (s : Engine) (now : Int) (data : WorkerMessage) : Engine :=
  match data with
  | .result hash id =>
    let s := updateHashRate { s with hashesGenerated := s.hashesGenerated + 1 } now
    match s.onHash with
    | some cb => cb.call s hash id
    | none => s
  | .bulk_result results batchId =>
    let s := updateHashRate { s with hashesGenerated := s.hashesGenerated + results.length } now
    match s.onBulkHash with
    | some cb => cb.call s results batchId
    | none => s
  | .error error id _ =>
    let s := { s with errorLog := s.errorLog ++ ["Hash generation error: " ++ error] }
    match s.onError with
    | some cb => cb.call s { error := error, id := id, batchId := none }
    | none => s

/-- JavaScript `!x` on an optional string. -/
def falsy (x : Option String) : Bool :=
  match x with
  | some v => v == ""
  | none => true

/-- The message of the `TypeError` raised by `worker.postMessage` when
`worker` is `undefined` (an empty pool); the promise executor turns it into a
rejection. -/
def typeErrorMessage : String := "TypeError: worker is undefined"

/-- The method `generateHash(text, algorithm, options)`; `id` is the value of
`Date.now().toString() + Math.random().toString(36).substr(2, 5)`. -/
def generateHash (s : Engine) (text algorithm : Option String) (options : HashOptions)
    (id : String) : Engine × Promise :=
  if falsy text || falsy algorithm then (s, .rejected "Text and algorithm are required")
  else
    let text := text.getD ""
    let algorithm := algorithm.getD ""
    let s := { s with uniqueAlgorithmsUsed := setAdd s.uniqueAlgorithmsUsed algorithm }
    let p := s.promises
    let s := { s with promises := p + 1, onHash := some ⟨id, p⟩, onError := some (.single id p) }
    let s :=
      if s.numWorkers = 0 then settle s p (.rejected typeErrorMessage)
      else { s with posted := s.posted ++ [(0, .generate text algorithm options id)] }
    (s, .pending p)

/-- The loop that splits `items` into batches with `items.slice(i, i + batchSize)`. -/
def splitBatches (items : List String) (batchSize : Nat) : List (List String) :=
  (List.range ((items.length + batchSize - 1) / batchSize)).map fun k =>
    (items.drop (k * batchSize)).take batchSize

/-- The array `itemsWithIds` of the batch number `index`. -/
def itemsWithIds (batch : List String) (index batchSize : Nat) : List BulkItem :=
  batch.enum.map fun (idx, text) => { text := text, id := numToString (index * batchSize + idx) }

/-- The method `generateBulkHashes(items, algorithm, options)`; `batchId` is
the value of `Date.now().toString() + Math.random().toString(36).substr(2, 5)`. -/
def generateBulkHashes (s : Engine) (items : Option (List String)) (algorithm : Option String)
    (options : HashOptions) (batchId : String) : Engine × Promise :=
  if items.isNone || (items.getD []).length == 0 || falsy algorithm then
    (s, .rejected "Items array and algorithm are required")
  else
    let items := items.getD []
    let algorithm := algorithm.getD ""
    let s := { s with uniqueAlgorithmsUsed := setAdd s.uniqueAlgorithmsUsed algorithm }
    let batchSize := 1000
    let batches := splitBatches items batchSize
    let p := s.promises
    let s := { s with
      promises := p + 1,
      onBulkHash := some
        { batchId := batchId, batches := batches.length, promise := p, results := [],
          completedBatches := 0 },
      onError := some (.bulk batchId p) }
    let s :=
      if s.numWorkers = 0 then settle s p (.rejected typeErrorMessage)
      else { s with posted := s.posted ++ batches.enum.map fun (index, batch) =>
              (index % s.numWorkers,
               Request.bulk_generate (itemsWithIds batch index batchSize) algorithm options
                 batchId) }
    (s, .pending p)

/-- The constructor's list `this.supportedAlgorithms`. -/
def supportedAlgorithms : List String :=
  ["md5", "sha1", "sha256", "sha512", "sha224", "sha384",
   "mysql-sha1", "ntlm", "pbkdf2", "md5-crypt", "sha-256-crypt",
   "sha-512-crypt", "bcrypt", "netntlmv2", "wpa-pmkid",
   "yescrypt", "argon2", "scrypt"]

/-- The algorithm ids the worker's `generateHash` compares `algorithm` with,
in the order of its `if`/`else if` chain. -/
def Worker.branches : List String :=
  ["md5", "sha1", "sha224", "sha256", "sha384", "sha512", "mysql-sha1", "ntlm", "pbkdf2",
   "md5-crypt", "sha256-crypt", "sha512-crypt", "bcrypt", "argon2", "scrypt", "yescrypt",
   "netntlmv2", "wpa-pmkid"]

/-- No promise that was settled is yet to be created: the invariant of the
promise log. -/
def Engine.WF (s : Engine) : Prop := ∀ e ∈ s.settlements, e.1 < s.promises

/-- The invariant of the engine: the promise log is well formed and every
registered callback belongs to a promise that was created. -/
def Engine.Inv (s : Engine) : Prop :=
  s.WF ∧ (∀ cb, s.onHash = some cb → cb.promise < s.promises) ∧
    (∀ cb, s.onBulkHash = some cb → cb.promise < s.promises) ∧
    (∀ id p, s.onError = some (ErrorCallback.single id p) → p < s.promises) ∧
    (∀ batchId p, s.onError = some (ErrorCallback.bulk batchId p) → p < s.promises)

/-- Delivering worker messages to the engine one after the other, each with
the time of its delivery. -/
def deliver (s : Engine) (msgs : List (Int × WorkerMessage)) : Engine :=
  msgs.foldl (fun s m => handleWorkerMessage s m.1 m.2) s

/-- The entries a worker message reports for a bulk request. -/
def resultsOf : WorkerMessage → List BulkResult
  | .bulk_result results _ => results
  | _ => []

/-- The messages a call posted: what `posted` holds beyond the `before`
messages that were there. -/
def postedSince (before : Nat) (s : Engine) : List Request :=
  (s.posted.drop before).map Prod.snd

/-- The workers' replies to a list of requests; `rand k` is the random
source of the worker run that handles the request number `k`. -/
def workerReplies (C : CryptoJS) (rand : Nat → Nat → Nat → Byte) (requests : List Request) :
    List WorkerMessage :=
  requests.enum.map fun (k, request) => Worker.onmessage C (rand k) request

/-- The result entry of the item number `i` of a bulk request. -/
def bulkEntry (C : CryptoJS) (rand : Nat → Nat → Nat → Byte) (algorithm : String)
    (options : HashOptions) (x : Nat × String) : BulkResult :=
  { text := x.2,
    hash := Worker.generateHash C (rand (x.1 / 1000) (x.1 % 1000)) x.2 algorithm options,
    id := numToString (x.1 : Nat) }

/-- Running a pattern on a prefix of the string and handing the rest to the
continuation `k`; `rxMatch` is the run whose continuation accepts the empty
rest. -/
def rxRun (items : List RxItem) (k : List Char → Bool) : List Char → Bool :=
  items.foldr (fun it k => fun s => rxRep it.cls k s it.lo it.hi) k

/-- Does one of the pattern rules of `detectHashType` match the trimmed
string? -/
def anyRuleMatches (hash : List Char) : Bool :=
  rxMatch (rxHex 32) hash || rxMatch (rxHex 40) hash || rxMatch (rxHex 64) hash ||
  rxMatch (rxHex 128) hash || rxMatch (rxHex 56) hash || rxMatch (rxHex 96) hash ||
  rxMatch (rxHex 32) hash || rxMatch rxMySQL hash || rxMatch rxMD5Crypt hash ||
  rxMatch rxBcrypt hash || rxMatch rxSHA256Crypt hash || rxMatch rxSHA512Crypt hash ||
  testPBKDF2 hash || rxMatch rxArgon2 hash || rxMatch rxScrypt hash ||
  rxMatch rxYescrypt hash || rxMatch rxNetNTLMv2 hash || rxMatch rxWPA hash

/-- The family names `detectHashType` can return for a matching string. -/
def families : List String :=
  ["MD5", "SHA1", "SHA256", "SHA512", "SHA224", "SHA384", "MySQL-SHA1", "MD5-Crypt", "bcrypt",
   "SHA-256-Crypt", "SHA-512-Crypt", "PBKDF2", "Argon2", "scrypt", "yescrypt", "NetNTLMv2",
   "WPA-PMKID"]

/-! ## Password strength -/

/-- The class `[a-z]` on a UTF-16 code unit. -/
def isLower (u : Nat) : Bool := 97 ≤ u && u ≤ 122

/-- The class `[A-Z]` on a UTF-16 code unit. -/
def isUpper (u : Nat) : Bool := 65 ≤ u && u ≤ 90

/-- The class `[0-9]` on a UTF-16 code unit. -/
def isDigit (u : Nat) : Bool := 48 ≤ u && u ≤ 57

/-- The line terminators, which `.` does not match. -/
def isLineTerminator (u : Nat) : Bool := u == 0x0A || u == 0x0D || u == 0x2028 || u == 0x2029

/-- The test `/(.)\1{2,}/.test(password)`: somewhere three equal code units
in a row that are not line terminators. -/
def hasRepeat : List Nat → Bool
  | a :: b :: c :: rest =>
    (a == b && b == c && !isLineTerminator a) || hasRepeat (b :: c :: rest)
  | _ => false

/-- The test `/^[0-9]+$/.test(password)`. -/
def onlyDigits (units : List Nat) : Bool := !units.isEmpty && units.all isDigit

/-- The test `/^[a-zA-Z]+$/.test(password)`. -/
def onlyLetters (units : List Nat) : Bool :=
  !units.isEmpty && units.all fun u => isLower u || isUpper u

/-- The test `/^[a-z]+$/i.test(password)`: without the `u` flag the `i` flag
never lets a non-ASCII code unit match an ASCII one, so the class is the
ASCII letters of both cases. -/
def onlyLettersI (units : List Nat) : Bool :=
  !units.isEmpty && units.all fun u => isLower u || isUpper u

/-- The call `str.toLowerCase()` as far as a comparison with an ASCII string
can tell: the ASCII capitals and the Kelvin sign U+212A (lower case `k`) are
the only characters whose lower case is an ASCII character; every other
non-ASCII character has a lower case that is not ASCII and is left as it is. -/
def toLowerCase (s : String) : String :=
  ⟨s.toList.map fun c => if c.toNat = 0x212A then 'k' else c.toLower⟩

/-- The array `commonPasswords`. -/
def commonPasswords : List String :=
  ["password", "123456", "qwerty", "admin", "welcome", "password123"]

/-- The `feedback` property of a result: the early return for a missing
password sets a string, the main path an array of strings. -/
inductive Feedback
  | message (s : String)
  | list (l : List String)
deriving DecidableEq

/-- The object `evaluatePasswordStrength` returns; the early return for a
missing password has no `rating` property. -/
structure Strength where
  score : ℚ
  rating : Option String
  feedback : Feedback

/-- The statement `if (c) score += v`. -/
def addIf (c : Bool) (v : ℚ) (score : ℚ) : ℚ := if c then score + v else score

/-- The statement `if (c) score -= v`. -/
def subIf (c : Bool) (v : ℚ) (score : ℚ) : ℚ := if c then score - v else score

/-- The statement `if (c) feedback.push(message)`. -/
def pushIf (c : Bool) (message : String) (feedback : List String) : List String :=
  if c then feedback ++ [message] else feedback

/-- The method `evaluatePasswordStrength(password)` on a string.  A block
that both changes the score and pushes a message under a condition `c` is
the two statements `if (c) score -= v` and `if (c) feedback.push(m)`; the
length check `if (c) feedback.push(m) else score += v` likewise. -/
def evaluatePasswordStrength (password : String) : Strength :=
  if password = "" then
    { score := 0, rating := none, feedback := Feedback.message "No password provided" }
  else
    let units := utf16 password
    let score : ℚ := 0
    let feedback : List String := []
    let feedback := pushIf (units.length < 8) "Password is too short" feedback
    let score := addIf (!decide (units.length < 8)) (min ((units.length : ℚ) * 0.5) 10) score
    let score := addIf (units.any isLower) 5 score
    let score := addIf (units.any isUpper) 5 score
    let score := addIf (units.any isDigit) 5 score
    let score := addIf (units.any fun u => !(isLower u || isUpper u || isDigit u)) 7 score
    let score := subIf (hasRepeat units) 3 score
    let feedback := pushIf (hasRepeat units) "Avoid repeated characters" feedback
    let score := subIf (onlyDigits units) 5 score
    let feedback := pushIf (onlyDigits units) "Don't use only numbers" feedback
    let score := subIf (onlyLetters units) 3 score
    let feedback := pushIf (onlyLetters units) "Mix letters and numbers/symbols" feedback
    let common := commonPasswords.contains (toLowerCase password)
    let score := if common then 0 else score
    let feedback := pushIf common "This is a very common password" feedback
    let dictionary := decide (units.length ≤ 10) && onlyLettersI units
    let score := subIf dictionary 5 score
    let feedback := pushIf dictionary "Avoid using single dictionary words" feedback
    let score := max 0 (min 100 score)
    let rating :=
      if score < 20 then "Very Weak"
      else if score < 40 then "Weak"
      else if score < 60 then "Moderate"
      else if score < 80 then "Strong"
      else "Very Strong"
    { score := score, rating := some rating,
      feedback := Feedback.list (if feedback.length > 0 then feedback else ["Good password!"]) }

/-! ## The pattern rules of `detectHashType` as a table -/

/-- One pattern rule of `detectHashType`: the test and the result it returns. -/
structure Rule where
  type : String
  confidence : Nat
  test : List Char → Bool

/-- The rule `MD5 (32 hex characters)`. -/
def ruleMD5 : Rule := ⟨"MD5", 90, rxMatch (rxHex 32)⟩

/-- The rule `SHA1 (40 hex characters)`. -/
def ruleSHA1 : Rule := ⟨"SHA1", 90, rxMatch (rxHex 40)⟩

/-- The rule `SHA256 (64 hex characters)`. -/
def ruleSHA256 : Rule := ⟨"SHA256", 90, rxMatch (rxHex 64)⟩

/-- The rule `SHA512 (128 hex characters)`. -/
def ruleSHA512 : Rule := ⟨"SHA512", 90, rxMatch (rxHex 128)⟩

/-- The rule `SHA224 (56 hex characters)`. -/
def ruleSHA224 : Rule := ⟨"SHA224", 90, rxMatch (rxHex 56)⟩

/-- The rule `SHA384 (96 hex characters)`. -/
def ruleSHA384 : Rule := ⟨"SHA384", 90, rxMatch (rxHex 96)⟩

/-- The rule `NTLM (32 hex characters, same as MD5)`. -/
def ruleNTLM : Rule := ⟨"NTLM", 60, rxMatch (rxHex 32)⟩

/-- The rule `MySQL SHA1`. -/
def ruleMySQL : Rule := ⟨"MySQL-SHA1", 95, rxMatch rxMySQL⟩

/-- The rule `MD5 Crypt`. -/
def ruleMD5Crypt : Rule := ⟨"MD5-Crypt", 95, rxMatch rxMD5Crypt⟩

/-- The rule `bcrypt`. -/
def ruleBcrypt : Rule := ⟨"bcrypt", 95, rxMatch rxBcrypt⟩

/-- The rule `SHA-256 Crypt`. -/
def ruleSHA256Crypt : Rule := ⟨"SHA-256-Crypt", 95, rxMatch rxSHA256Crypt⟩

/-- The rule `SHA-512 Crypt`. -/
def ruleSHA512Crypt : Rule := ⟨"SHA-512-Crypt", 95, rxMatch rxSHA512Crypt⟩

/-- The rule `PBKDF2`. -/
def rulePBKDF2 : Rule := ⟨"PBKDF2", 95, testPBKDF2⟩

/-- The rule `Argon2`. -/
def ruleArgon2 : Rule := ⟨"Argon2", 95, rxMatch rxArgon2⟩

/-- The rule `scrypt`. -/
def ruleScrypt : Rule := ⟨"scrypt", 95, rxMatch rxScrypt⟩

/-- The rule `yescrypt`. -/
def ruleYescrypt : Rule := ⟨"yescrypt", 95, rxMatch rxYescrypt⟩

/-- The rule `NetNTLMv2`. -/
def ruleNetNTLMv2 : Rule := ⟨"NetNTLMv2", 90, rxMatch rxNetNTLMv2⟩

/-- The rule `WPA-PMKID`. -/
def ruleWPA : Rule := ⟨"WPA-PMKID", 90, rxMatch rxWPA⟩

/-- The rules in the order in which `detectHashType` tests them. -/
def codeRules : List Rule :=
  [ruleMD5, ruleSHA1, ruleSHA256, ruleSHA512, ruleSHA224, ruleSHA384, ruleNTLM, ruleMySQL,
   ruleMD5Crypt, ruleBcrypt, ruleSHA256Crypt, ruleSHA512Crypt, rulePBKDF2, ruleArgon2,
   ruleScrypt, ruleYescrypt, ruleNetNTLMv2, ruleWPA]

/-- The rules in the order the specification gives: the structured, prefixed
and delimited formats first, the bare fixed-length hex formats last, MD5
before NTLM. -/
def specRules : List Rule :=
  [ruleMySQL, ruleMD5Crypt, ruleSHA256Crypt, ruleSHA512Crypt, ruleBcrypt, rulePBKDF2,
   ruleArgon2, ruleScrypt, ruleYescrypt, ruleNetNTLMv2, ruleWPA,
   ruleMD5, ruleSHA1, ruleSHA256, ruleSHA512, ruleSHA224, ruleSHA384, ruleNTLM]

/-- The result of the first rule of a list that matches, Unknown when none
does. -/
def firstMatch (rules : List Rule) (hash : List Char) : Detection :=
  match rules.find? fun r => r.test hash with
  | some r => ⟨r.type, r.confidence⟩
  | none => ⟨"Unknown", 0⟩

/-- A detector over a list of rules, first match wins: absent and empty
input are Unknown, other input is trimmed and run through the rules. -/
def detectWith (rules : List Rule) (hash : Option String) : Detection :=
  match hash with
  | none => ⟨"Unknown", 0⟩
  | some h => if h = "" then ⟨"Unknown", 0⟩ else firstMatch rules (jsTrim h.toList)

/-- The detector of the specification: the same rules in the order of the
specification. -/
def detectSpecOrder (hash : Option String) : Detection := detectWith specRules hash

/-- The code of a character with the ASCII capitals mapped to their small
letters. -/
def foldCase (c : Char) : Nat := if 65 ≤ c.toNat ∧ c.toNat ≤ 90 then c.toNat + 32 else c.toNat

/-- What a string must look like for a rule to match: 1 for a leading `*`,
1000 plus the folded second character behind a leading `$`, else 10 or 11
for a `:` or `*` at position 32, else 100 plus the length. -/
def shapeKey (s : List Char) : Nat :=
  match s with
  | [] => 0
  | c :: rest =>
    if foldCase c = 42 then 1
    else if foldCase c = 36 then
      match rest with
      | [] => 0
      | d :: _ => 1000 + foldCase d
    else
      match s.get? 32 with
      | some x => if foldCase x = 58 then 10 else if foldCase x = 42 then 11 else 100 + s.length
      | none => 100 + s.length

/-- The shape key of the strings each rule of `codeRules` matches, in the
order of `codeRules`. -/
def ruleKeys : List Nat :=
  [132, 140, 164, 228, 156, 196, 132, 1, 1049, 1050, 1053, 1054, 1112, 1097, 1115, 1121, 10, 11]

/-! ## The engine's `generateSalt` -/

/-- The alphabet `chars` of `generateSalt`. -/
def chars : String := "ABCDEFGHIJKLMNOPQRSTUVWXYZabcdefghijklmnopqrstuvwxyz0123456789./"

/-- The method `generateSalt(length = 16)`; an absent argument is `none`, and
`randomValues` is the content of the `Uint8Array` after the random source
filled it (with either source every entry is an octet). -/
def generateSalt (randomValues : Nat → Byte) (length : Option Nat) : String :=
  let length := length.getD 16
  ⟨(List.range length).flatMap fun i =>
    Worker.charAt chars ((randomValues i).val % chars.length)⟩

/-- The declared salt alphabet: `A-Z`, `a-z`, `0-9`, `.` and `/`. -/
def inSaltAlphabet (c : Char) : Bool :=
  rng 'A' 'Z' c || rng 'a' 'z' c || rng '0' '9' c || c == '.' || c == '/'

/-- The octets that the map `b ↦ chars.charAt(b % chars.length)` sends to the
character `c`. -/
def octetsOf (alphabet : String) (c : Char) : List Nat :=
  (List.range 256).filter fun b => Worker.charAt alphabet (b % alphabet.length) == [c]

/-! ## The two stages of the worker's `generateHash` -/

namespace Worker

/-- The value of `result` when the `if`/`else if` chain of the worker's
`generateHash` is through, before the output is formatted: the
family-formatted result (the function is past its guard, so `text` is not
empty). -/
def familyResult (C : CryptoJS) (randomValues : Nat → Byte) (text algorithm : String)
    (options : HashOptions) : String :=
  let salt := orStr options.salt ""
  let iterations := orNum options.iterations 10000
  let costFactor := orNum options.costFactor 10
  let outputFormat := orStr options.outputFormat "hex"
  if algorithm = "md5" then encHexStringify (digest 16 (C.MD5 (encUtf8Parse text)))
  else if algorithm = "sha1" then encHexStringify (digest 20 (C.SHA1 (encUtf8Parse text)))
  else if algorithm = "sha224" then
    encHexStringify (digest 28 (C.SHA224 (encUtf8Parse text)))
  else if algorithm = "sha256" then
    encHexStringify (digest 32 (C.SHA256 (encUtf8Parse text)))
  else if algorithm = "sha384" then
    encHexStringify (digest 48 (C.SHA384 (encUtf8Parse text)))
  else if algorithm = "sha512" then
    encHexStringify (digest 64 (C.SHA512 (encUtf8Parse text)))
  else if algorithm = "mysql-sha1" then
    "*" ++ toUpperCase (encHexStringify
      (digest 20 (C.SHA1 ⟨digest 20 (C.SHA1 (encUtf8Parse text)), none⟩)))
  else if algorithm = "ntlm" then
    encHexStringify (digest 16 (C.MD4 (encLatin1Parse (utf16le text))))
  else if algorithm = "pbkdf2" then
    let key := digest (4 * 8)
      (C.PBKDF2 (encUtf8Parse text) (encUtf8Parse salt) 8 iterations Hasher.SHA512)
    if outputFormat = "standard" then
      let saltBase64 := encBase64Stringify (encUtf8Parse salt)
      let keyBase64 := encBase64Stringify ⟨key, none⟩
      "$pbkdf2$" ++ numToString iterations ++ "$" ++ saltBase64 ++ "$" ++ keyBase64
    else encHexStringify key
  else if algorithm = "md5-crypt" then
    let saltToUse := if salt = "" then generateRandomSalt randomValues 8 else salt
    let magic := "$1$"
    let intermediate :=
      encHexStringify (digest 16 (C.MD5 (encUtf8Parse (text ++ saltToUse ++ text))))
    magic ++ saltToUse ++ "$" ++ intermediate
  else if algorithm = "sha256-crypt" then
    let saltToUse := if salt = "" then generateRandomSalt randomValues 8 else salt
    let magic := "$5$"
    let rounds : Int := 5000
    let key := digest (4 * 8)
      (C.PBKDF2 (encUtf8Parse text) (encUtf8Parse saltToUse) 8 rounds Hasher.SHA256)
    magic ++ saltToUse ++ "$" ++ encHexStringify key
  else if algorithm = "sha512-crypt" then
    let saltToUse := if salt = "" then generateRandomSalt randomValues 8 else salt
    let magic := "$6$"
    let rounds : Int := 5000
    let key := digest (4 * 16)
      (C.PBKDF2 (encUtf8Parse text) (encUtf8Parse saltToUse) 16 rounds Hasher.SHA512)
    magic ++ saltToUse ++ "$" ++ encHexStringify key
  else if algorithm = "bcrypt" then
    let saltToUse := if salt = "" then generateRandomSalt randomValues 16 else salt
    let magic := "$2a$"
    let cost := padStart2 (numToString costFactor)
    let iterations : ℚ := (2 : ℚ) ^ costFactor * 100
    let key := digest (4 * 6)
      (C.PBKDF2 (encUtf8Parse text) (encUtf8Parse saltToUse) 6 iterations Hasher.SHA512)
    let keyBase64 := encBase64Stringify ⟨key, none⟩
    magic ++ cost ++ "$" ++ saltToUse ++ "." ++ keyBase64
  else if algorithm = "argon2" then
    let saltToUse := if salt = "" then generateRandomSalt randomValues 16 else salt
    let magic := "$argon2id$v=19$m=65536,t=3,p=4$"
    let key := digest (4 * 8)
      (C.PBKDF2 (encUtf8Parse text) (encUtf8Parse saltToUse) 8 (iterations * 2 : Int)
        Hasher.SHA512)
    let saltBase64 := encBase64Stringify (encUtf8Parse saltToUse)
    let keyBase64 := encBase64Stringify ⟨key, none⟩
    magic ++ saltBase64 ++ "$" ++ keyBase64
  else if algorithm = "scrypt" then
    let saltToUse := if salt = "" then generateRandomSalt randomValues 16 else salt
    let magic := "$scrypt$"
    let key := digest (4 * 8)
      (C.PBKDF2 (encUtf8Parse text) (encUtf8Parse saltToUse) 8 (iterations * 3 : Int)
        Hasher.SHA512)
    let saltBase64 := encBase64Stringify (encUtf8Parse saltToUse)
    let keyBase64 := encBase64Stringify ⟨key, none⟩
    magic ++ "ln=16,r=8,p=1$" ++ saltBase64 ++ "$" ++ keyBase64
  else if algorithm = "yescrypt" then
    let saltToUse := if salt = "" then generateRandomSalt randomValues 16 else salt
    let magic := "$y$"
    let key := digest (4 * 8)
      (C.PBKDF2 (encUtf8Parse text) (encUtf8Parse saltToUse) 8 (iterations * 4 : Int)
        Hasher.SHA512)
    let saltBase64 := encBase64Stringify (encUtf8Parse saltToUse)
    let keyBase64 := encBase64Stringify ⟨key, none⟩
    magic ++ "j9T$" ++ saltBase64 ++ "$" ++ keyBase64
  else if algorithm = "netntlmv2" then
    let password := if salt = "" then "password" else salt
    let challenge := generateRandomSalt randomValues 8
    let ntlmHash := encHexStringify (digest 16 (C.MD4 (encLatin1Parse (utf16le password))))
    let hmac := digest 20 (C.HmacSHA1 (encHexParse challenge) (encHexParse ntlmHash))
    encHexStringify hmac ++ ":" ++ challenge
  else if algorithm = "wpa-pmkid" then
    let passphrase := text
    let ssid := if salt = "" then "WiFi-Network" else salt
    let pmk := digest (4 * 8)
      (C.PBKDF2 (encUtf8Parse passphrase) (encUtf8Parse ssid) 8 (4096 : Int) Hasher.SHA1)
    let pmkHex := encHexStringify pmk
    let apMac := "001122334455"
    let clientMac := "aabbccddeeff"
    pmkHex ++ "*" ++ apMac ++ "*" ++ clientMac
  else ""

/-- The two statements under `// Format the output` and
`// Convert to uppercase if requested` at the end of the worker's
`generateHash`. -/
def formatOutput (outputFormat : String) (uppercase : Bool) (result : String) : String :=
  let result :=
    if outputFormat = "base64" && !includesDollar result then
      encBase64Stringify (encHexParse result)
    else result
  let result :=
    if uppercase && outputFormat = "hex" && !includesDollar result then toUpperCase result
    else result
  result

end Worker

/-- The delivery times of the messages whose handling notified the
statistics subscriber, when the messages are delivered one after the other. -/
def notifyTimes : Engine → List (Int × WorkerMessage) → List Int
  | _, [] => []
  | s, m :: ms =>
    (if s.statsUpdates.length < (handleWorkerMessage s m.1 m.2).statsUpdates.length then [m.1]
      else []) ++ notifyTimes (handleWorkerMessage s m.1 m.2) ms

/-- The promise a worker message is tagged for: the promise of the
registered callback that `handleWorkerMessage` invokes for the message, when
the id (for `result` and `error`) or the batchId (for `bulk_result` and
`error`) of the message is the one of that callback's request. -/
def taggedFor (s : Engine) : WorkerMessage → Option Nat
  | .result _ id =>
    match s.onHash with
    | some cb => if id = some cb.id then some cb.promise else none
    | none => none
  | .bulk_result _ batchId =>
    match s.onBulkHash with
    | some cb => if batchId = some cb.batchId then some cb.promise else none
    | none => none
  | .error _ id batchId =>
    match s.onError with
    | some (.single i p) => if id = some i then some p else none
    | some (.bulk b p) => if batchId = some b then some p else none
    | none => none

/-- The call `items.slice(start, stop)` for `0 ≤ start ≤ stop`: the items
from `start` up to, not including, `stop`, as far as there are any. -/
def slice (items : List String) (start stop : Nat) : List String :=
  (items.drop start).take (stop - start)

/-- The loop
`for (let i = 0; i < items.length; i += batchSize) batches.push(items.slice(i, i + batchSize))`
from the value `i` of its counter on, with the batches pushed so far; `fuel`
bounds the number of rounds. -/
def splitLoop (items : List String) (batchSize : Nat) :
    Nat → Nat → List (List String) → List (List String)
  | 0, _, batches => batches
  | fuel + 1, i, batches =>
    if i < items.length then
      splitLoop items batchSize fuel (i + batchSize) (batches ++ [slice items i (i + batchSize)])
    else batches

/-- The items of a `bulk_generate` message. -/
def itemsOf : Request → List BulkItem
  | .bulk_generate items _ _ _ => items
  | _ => []

/-! ## Theorems -/

/-- C4 (as the code has it): called with the empty list of items,
`generateBulkHashes` returns a promise rejected with 'Items array and
algorithm are required' and leaves the engine as it was, whatever the
algorithm and options. -/
theorem generateBulkHashes_empty_rejected (s : Engine) (algorithm : Option String)
    (options : HashOptions) (batchId : String) :
    generateBulkHashes s (some []) algorithm options batchId =
      (s, Promise.rejected "Items array and algorithm are required") := by
  simp [generateBulkHashes]

/-- C4 fails as stated: for the empty list and algorithm 'md5' the call does
not resolve to the empty list, it returns a rejected promise and creates no
promise that could resolve. -/
theorem generateBulkHashes_empty_not_resolved :
    (generateBulkHashes (Engine.new 4 0) (some []) (some "md5") {} "1700000000000abcde").2 =
        Promise.rejected "Items array and algorithm are required" ∧
      (generateBulkHashes (Engine.new 4 0) (some []) (some "md5") {} "1700000000000abcde").1.settlements
        = [] := by
  decide

/-- C8: `generateHash` returns the promise rejected with 'Text and algorithm
are required' when text or algorithm is absent or empty, and then the engine
(algorithms used, callbacks, posted messages) is unchanged; in every other
case it returns a new, pending promise. -/
theorem generateHash_rejected_iff (s : Engine) (text algorithm : Option String)
    (options : HashOptions) (id : String) :
    ((generateHash s text algorithm options id).2 =
        Promise.rejected "Text and algorithm are required" ↔
      (text = none ∨ text = some "" ∨ algorithm = none ∨ algorithm = some "")) ∧
    ((text = none ∨ text = some "" ∨ algorithm = none ∨ algorithm = some "") →
      generateHash s text algorithm options id =
        (s, Promise.rejected "Text and algorithm are required")) ∧
    (¬ (text = none ∨ text = some "" ∨ algorithm = none ∨ algorithm = some "") →
      (generateHash s text algorithm options id).2 = Promise.pending s.promises) := by
  have key : (falsy text || falsy algorithm) = true ↔
      (text = none ∨ text = some "" ∨ algorithm = none ∨ algorithm = some "") := by
    cases text <;> cases algorithm <;> simp [falsy]
  by_cases h : (falsy text || falsy algorithm) = true
  · have h' := key.mp h
    simp [generateHash, h, h']
  · have h' : ¬ (text = none ∨ text = some "" ∨ algorithm = none ∨ algorithm = some "") :=
      fun c => h (key.mpr c)
    simp only [generateHash, h, h']
    simp

/-- While the `errorCallback` of a bulk request is registered, no `error`
message rejects its promise, whatever ids the message carries:
`handleWorkerMessage` hands `onError` an object without `batchId`, so the
promise log and both callbacks stay as they were. -/
theorem error_with_bulk_callback (s : Engine) (batchId : String) (p : Nat) (now : Int)
    (error : String) (id tag : Option String)
    (hcb : s.onError = some (ErrorCallback.bulk batchId p)) :
    (handleWorkerMessage s now (WorkerMessage.error error id tag)).settlements = s.settlements ∧
    (handleWorkerMessage s now (WorkerMessage.error error id tag)).onError = s.onError ∧
    (handleWorkerMessage s now (WorkerMessage.error error id tag)).onBulkHash = s.onBulkHash := by
  simp [handleWorkerMessage, ErrorCallback.call, hcb]

/-- An algorithm id without a branch in the worker's `generateHash` yields the
empty string, whatever the options. -/
theorem generateHash_no_branch (C : CryptoJS) (rnd : Nat → Byte) (text algorithm : String)
    (options : HashOptions) (h : algorithm ∉ Worker.branches) :
    Worker.generateHash C rnd text algorithm options = "" := by
  simp only [Worker.branches, List.mem_cons, List.mem_singleton, not_or, List.not_mem_nil,
    not_false_eq_true, and_true] at h
  obtain ⟨h1, h2, h3, h4, h5, h6, h7, h8, h9, h10, h11, h12, h13, h14, h15, h16, h17, h18⟩ := h
  unfold Worker.generateHash
  by_cases ht : text = ""
  · simp [ht]
  · simp only [ht, h1, h2, h3, h4, h5, h6, h7, h8, h9, h10, h11, h12, h13, h14, h15, h16, h17,
      h18, if_false]
    split_ifs <;> rfl

/-- The method `updateHashRate` leaves `onHash` as it is. -/
@[simp] theorem updateHashRate_onHash (s : Engine) (now : Int) :
    (updateHashRate s now).onHash = s.onHash := by
  unfold updateHashRate; dsimp only; split_ifs <;> rfl

/-- The method `updateHashRate` leaves `onBulkHash` as it is. -/
@[simp] theorem updateHashRate_onBulkHash (s : Engine) (now : Int) :
    (updateHashRate s now).onBulkHash = s.onBulkHash := by
  unfold updateHashRate; dsimp only; split_ifs <;> rfl

/-- The method `updateHashRate` leaves `onError` as it is. -/
@[simp] theorem updateHashRate_onError (s : Engine) (now : Int) :
    (updateHashRate s now).onError = s.onError := by
  unfold updateHashRate; dsimp only; split_ifs <;> rfl

/-- The method `updateHashRate` leaves `settlements` as it is. -/
@[simp] theorem updateHashRate_settlements (s : Engine) (now : Int) :
    (updateHashRate s now).settlements = s.settlements := by
  unfold updateHashRate; dsimp only; split_ifs <;> rfl

/-- The method `updateHashRate` leaves `promises` as it is. -/
@[simp] theorem updateHashRate_promises (s : Engine) (now : Int) :
    (updateHashRate s now).promises = s.promises := by
  unfold updateHashRate; dsimp only; split_ifs <;> rfl

/-- The method `updateHashRate` leaves `posted` as it is. -/
@[simp] theorem updateHashRate_posted (s : Engine) (now : Int) :
    (updateHashRate s now).posted = s.posted := by
  unfold updateHashRate; dsimp only; split_ifs <;> rfl

/-- Settling a promise that the log does not mention records the settlement. -/
theorem settle_fresh (s : Engine) (p : Nat) (v : Settlement)
    (h : ∀ e ∈ s.settlements, e.1 ≠ p) :
    (settle s p v).settlements = s.settlements ++ [(p, v)] := by
  unfold settle
  have : s.settlements.any (fun e => e.1 == p) = false := by
    rw [List.any_eq_false]
    intro e he
    simpa using h e he
  simp [this]

/-- The state of a promise whose settlement was appended to a log that did
not mention it. -/
theorem find_append_fresh (l : List (Nat × Settlement)) (p : Nat) (v : Settlement)
    (h : ∀ e ∈ l, e.1 ≠ p) :
    ((l ++ [(p, v)]).find? fun e => e.1 == p).map Prod.snd = some v := by
  induction l with
  | nil => simp
  | cons a l ih =>
    have ha : (a.1 == p) = false := by simpa using h a (List.mem_cons_self _ _)
    simp only [List.cons_append, List.find?_cons, ha]
    exact ih fun e he => h e (List.mem_cons_of_mem _ he)

/-- A promise the log does not mention is pending. -/
theorem find_fresh (l : List (Nat × Settlement)) (p : Nat) (h : ∀ e ∈ l, e.1 ≠ p) :
    ((l.find? fun e => e.1 == p).map Prod.snd) = none := by
  induction l with
  | nil => simp
  | cons a l ih =>
    have ha : (a.1 == p) = false := by simpa using h a (List.mem_cons_self _ _)
    simp only [List.find?_cons, ha]
    exact ih fun e he => h e (List.mem_cons_of_mem _ he)

/-- The next promise is not in the log of a well-formed engine. -/
theorem WF_fresh (s : Engine) (hs : s.WF) : ∀ e ∈ s.settlements, e.1 ≠ s.promises :=
  fun e he => Nat.ne_of_lt (hs e he)

/-- A single request on a pool with a worker: the state `generateHash` leaves. -/
theorem generateHash_state (s : Engine) (text algorithm : String) (options : HashOptions)
    (id : String) (ht : text ≠ "") (ha : algorithm ≠ "") (hw : 0 < s.numWorkers) :
    generateHash s (some text) (some algorithm) options id =
      ({ s with
          uniqueAlgorithmsUsed := setAdd s.uniqueAlgorithmsUsed algorithm,
          promises := s.promises + 1,
          onHash := some ⟨id, s.promises⟩,
          onError := some (ErrorCallback.single id s.promises),
          posted := s.posted ++ [(0, Request.generate text algorithm options id)] },
        Promise.pending s.promises) := by
  have hw' : s.numWorkers ≠ 0 := Nat.pos_iff_ne_zero.mp hw
  simp [generateHash, falsy, ht, ha, hw']

/-- C5 (as the code has it): for a non-empty text and an algorithm id that has
no branch in the worker's `generateHash`, the computation does not fail: the
worker posts a `result` message with the empty string as hash, and the promise
of `generateHash` is resolved with the empty string. -/
theorem unknown_algorithm_resolves_empty (C : CryptoJS) (rand : Nat → Nat → Byte) (s : Engine)
    (text algorithm : String) (options : HashOptions) (id : String) (now : Int)
    (ht : text ≠ "") (ha : algorithm ≠ "") (hb : algorithm ∉ Worker.branches)
    (hw : 0 < s.numWorkers) (hs : s.WF) :
    Worker.onmessage C rand (Request.generate text algorithm options id) =
      WorkerMessage.result "" (some id) ∧
    promiseState
      (handleWorkerMessage (generateHash s (some text) (some algorithm) options id).1 now
        (Worker.onmessage C rand (Request.generate text algorithm options id)))
      s.promises = some (Settlement.resolved "") := by
  have hm : Worker.onmessage C rand (Request.generate text algorithm options id) =
      WorkerMessage.result "" (some id) := by
    simp [Worker.onmessage, generateHash_no_branch C (rand 0) text algorithm options hb]
  refine ⟨hm, ?_⟩
  rw [hm, generateHash_state s text algorithm options id ht ha hw]
  simp only [handleWorkerMessage, updateHashRate_onHash, HashCallback.call, if_true, promiseState]
  rw [settle_fresh _ _ _ (by simpa using WF_fresh s hs)]
  simpa using find_append_fresh s.settlements s.promises (Settlement.resolved "") (WF_fresh s hs)

/-- The hex rendering has two characters per octet. -/
theorem encHexStringify_length (bytes : List Byte) :
    (encHexStringify bytes).toList.length = 2 * bytes.length := by
  induction bytes with
  | nil => rfl
  | cons b bs ih =>
    simp only [encHexStringify, List.flatMap_cons, String.toList, List.length_append,
      List.length_cons, List.length_nil] at ih ⊢
    omega

/-- A digest has as many octets as were read. -/
theorem digest_length (n : Nat) (f : Nat → Byte) : (digest n f).length = n := by
  simp [digest]

/-- The hex digits are not `$`. -/
theorem hexDigit_ne_dollar (n : Nat) : hexDigit n ≠ '$' := by
  unfold hexDigit
  by_cases h : n < 16
  · interval_cases n <;> decide
  · have : "0123456789abcdef".toList.length ≤ n := by
      have : "0123456789abcdef".toList.length = 16 := by decide
      omega
    rw [List.getD_eq_default _ _ this]
    decide

/-- A hex rendering contains no `$`. -/
theorem dollar_not_mem_hex (bytes : List Byte) : '$' ∉ (encHexStringify bytes).toList := by
  simp only [encHexStringify, String.toList, List.mem_flatMap, List.mem_cons, List.mem_singleton,
    List.not_mem_nil, or_false, not_exists, not_and, not_or]
  intro b _
  exact ⟨(hexDigit_ne_dollar _).symm, (hexDigit_ne_dollar _).symm⟩

/-- For every algorithm id other than 'netntlmv2', every text and every
options value with an explicit non-empty salt, the string `generateHash`
returns is the same for any two sequences of random octets. -/
theorem explicit_salt_deterministic (C : CryptoJS) (rnd₁ rnd₂ : Nat → Byte)
    (text algorithm : String) (options : HashOptions) (salt : String)
    (hs : options.salt = some salt) (hne : salt ≠ "") (ha : algorithm ≠ "netntlmv2") :
    Worker.generateHash C rnd₁ text algorithm options =
      Worker.generateHash C rnd₂ text algorithm options := by
  have hsalt : orStr options.salt "" = salt := by simp [orStr, hs, hne]
  unfold Worker.generateHash
  simp only [hsalt, hne, ha, if_false]

/-- Witness of `explicit_salt_deterministic`: algorithm 'bcrypt', text 'a',
salt 'NaCl', random octets all 0 and all 1. -/
theorem explicit_salt_deterministic_witness :
    (some "NaCl" = some "NaCl" ∧ "NaCl" ≠ "" ∧ "bcrypt" ≠ "netntlmv2") ∧
    Worker.generateHash zeroCrypto (fun _ => 0) "a" "bcrypt" { salt := some "NaCl" } =
      Worker.generateHash zeroCrypto (fun _ => 1) "a" "bcrypt" { salt := some "NaCl" } :=
  ⟨⟨rfl, by decide, by decide⟩,
   explicit_salt_deterministic zeroCrypto (fun _ => 0) (fun _ => 1) "a" "bcrypt"
     { salt := some "NaCl" } "NaCl" rfl (by decide) (by decide)⟩

/-- Matching a non-empty pattern: its first element, then the rest. -/
theorem rxMatch_cons (it : RxItem) (items : List RxItem) (s : List Char) :
    rxMatch (it :: items) s = rxRep it.cls (rxMatch items) s it.lo it.hi := rfl

/-- The empty pattern `^$` matches the empty string only. -/
theorem rxMatch_nil (s : List Char) : rxMatch [] s = s.isEmpty := rfl

/-- What `rxRep` decides: some count `n` within the bounds, the first `n`
characters in the class, and the continuation accepting the rest. -/
theorem rxRep_iff (p : Char → Bool) (k : List Char → Bool) (s : List Char) (lo : Nat)
    (hi : Option Nat) :
    rxRep p k s lo hi = true ↔
      ∃ n, n ≤ s.length ∧ lo ≤ n ∧ (∀ h, hi = some h → n ≤ h) ∧
        (∀ c ∈ s.take n, p c = true) ∧ k (s.drop n) = true := by
  induction s generalizing lo hi with
  | nil =>
    simp only [rxRep, Bool.and_eq_true, beq_iff_eq, List.length_nil, Nat.le_zero_eq]
    constructor
    · rintro ⟨h0, hk⟩
      exact ⟨0, rfl, by omega, fun h _ => Nat.zero_le _, by simp, by simpa using hk⟩
    · rintro ⟨n, rfl, hlo, -, -, hk⟩
      exact ⟨by omega, by simpa using hk⟩
  | cons c cs ih =>
    simp only [rxRep, Bool.or_eq_true, Bool.and_eq_true, beq_iff_eq, bne_iff_ne, ne_eq, ih]
    constructor
    · rintro (⟨h0, hk⟩ | ⟨⟨hhi, hp⟩, n, hn, hlo, hh, hall, hk⟩)
      · exact ⟨0, Nat.zero_le _, by omega, fun h _ => Nat.zero_le _, by simp, by simpa using hk⟩
      · refine ⟨n + 1, by simpa using hn, by omega, ?_, ?_, by simpa using hk⟩
        · intro h hh'
          subst hh'
          have := hh (h - 1) (by simp)
          have : h ≠ 0 := fun h0 => hhi (by simp [h0])
          omega
        · intro x hx
          simp only [List.take_succ_cons, List.mem_cons] at hx
          rcases hx with rfl | hx
          · exact hp
          · exact hall x hx
    · rintro ⟨n, hn, hlo, hh, hall, hk⟩
      cases n with
      | zero => exact Or.inl ⟨by omega, by simpa using hk⟩
      | succ n =>
        right
        refine ⟨⟨?_, hall c (by simp)⟩, n, by simpa using hn, by omega, ?_, ?_, by simpa using hk⟩
        · intro h0
          have := hh 0 h0
          omega
        · intro h hh'
          cases hi with
          | none => simp at hh'
          | some v =>
            simp only [Option.map_some', Option.some.injEq] at hh'
            have := hh v rfl
            omega
        · intro x hx
          exact hall x (by simp [hx])

/-- A pattern whose last element needs at least one character does not match
the empty string. -/
theorem rxMatch_empty_false (items : List RxItem) (it : RxItem)
    (hl : items.getLast? = some it) (hlo : 1 ≤ it.lo) : rxMatch items [] = false := by
  induction items with
  | nil => simp at hl
  | cons a rest ih =>
    rw [rxMatch_cons]
    cases rest with
    | nil =>
      simp only [List.getLast?_singleton, Option.some.injEq] at hl
      subst hl
      simp only [rxRep, Bool.and_eq_false_imp, beq_iff_eq]
      intro h0
      omega
    | cons b rest' =>
      have hl' : (b :: rest').getLast? = some it := by
        simpa [List.getLast?_cons_cons] using hl
      simp [rxRep, ih hl']

/-- A pattern whose last element needs at least one character of a class
does not match a string that ends in a character outside the class. -/
theorem rxMatch_last_false (items : List RxItem) (it : RxItem) (s : List Char) (c : Char)
    (hl : items.getLast? = some it) (hlo : 1 ≤ it.lo) (hc : it.cls c = false) :
    rxMatch items (s ++ [c]) = false := by
  induction items generalizing s with
  | nil => simp at hl
  | cons a rest ih =>
    rw [rxMatch_cons]
    apply Bool.eq_false_iff.mpr
    intro hm
    obtain ⟨n, hn, hlon, -, hall, hk⟩ := (rxRep_iff _ _ _ _ _).mp hm
    cases rest with
    | nil =>
      simp only [List.getLast?_singleton, Option.some.injEq] at hl
      subst hl
      rw [rxMatch_nil, List.isEmpty_iff] at hk
      have hlen : (s ++ [c]).length ≤ n := by
        have := congrArg List.length hk
        simp only [List.length_drop, List.length_nil] at this
        omega
      rw [List.take_of_length_le hlen] at hall
      have := hall c (by simp)
      simp [hc] at this
    | cons b rest' =>
      have hl' : (b :: rest').getLast? = some it := by
        simpa [List.getLast?_cons_cons] using hl
      by_cases hns : n ≤ s.length
      · rw [List.drop_append_of_le_length hns, ih (s.drop n) hl'] at hk
        exact Bool.noConfusion hk
      · have hlen : (s ++ [c]).length ≤ n := by simp; omega
        rw [List.drop_of_length_le hlen, rxMatch_empty_false _ it hl' hlo] at hk
        exact Bool.noConfusion hk

/-- A pattern whose first element needs at least one character of a class does
not match a string that starts with a character outside the class. -/
theorem rxMatch_head_false (it : RxItem) (items : List RxItem) (c : Char) (s : List Char)
    (hlo : 1 ≤ it.lo) (hc : it.cls c = false) : rxMatch (it :: items) (c :: s) = false := by
  rw [rxMatch_cons]
  simp only [rxRep, hc, Bool.and_false, Bool.false_and, Bool.or_false, Bool.and_eq_false_imp,
    beq_iff_eq]
  intro h0
  omega

/-- Trimming leaves a string alone that neither starts nor ends with white space. -/
theorem jsTrim_eq_self (c d : Char) (s : List Char)
    (hc : jsIsWhiteSpace c.toNat = false) (hd : jsIsWhiteSpace d.toNat = false) :
    jsTrim (c :: (s ++ [d])) = c :: (s ++ [d]) := by
  unfold jsTrim
  rw [List.dropWhile_cons_of_neg (by simp [hc])]
  have : (c :: (s ++ [d])).reverse = d :: (c :: s).reverse := by simp
  rw [this, List.dropWhile_cons_of_neg (by simp [hd])]
  simp

/-- The Base64 rendering of whole octets: four characters for every three
octets begun, and a final `=` when two octets are left over. -/
theorem base64Loop_shape (n : Nat) : ∀ bytes : List Byte, bytes.length ≤ n →
    (base64Loop bytes none).length = 4 * ((bytes.length + 2) / 3) ∧
    (bytes.length % 3 = 2 → ∃ X, base64Loop bytes none = X ++ ['=']) := by
  induction n with
  | zero =>
    intro bytes h
    have : bytes = [] := List.length_eq_zero.mp (Nat.le_zero.mp h)
    subst this
    exact ⟨rfl, fun h => by simp at h⟩
  | succ n ih =>
    intro bytes h
    match bytes with
    | [] => exact ⟨rfl, fun h => by simp at h⟩
    | [a] => exact ⟨by simp [base64Loop], fun h => by simp at h⟩
    | [a, b] =>
      exact ⟨by simp [base64Loop], fun _ =>
        ⟨[b64Char (a.val / 4), b64Char (a.val % 4 * 16 + b.val / 16), b64Char (b.val % 16 * 4)],
          by simp [base64Loop]⟩⟩
    | a :: b :: c :: rest =>
      have hr : rest.length ≤ n := by simp only [List.length_cons] at h; omega
      obtain ⟨h1, h2⟩ := ih rest hr
      constructor
      · simp only [base64Loop, List.length_cons, h1]
        omega
      · intro hm
        have hm' : rest.length % 3 = 2 := by simp only [List.length_cons] at hm; omega
        obtain ⟨X, hX⟩ := h2 hm'
        exact ⟨b64Char (a.val / 4) :: b64Char (a.val % 4 * 16 + b.val / 16) ::
          b64Char (b.val % 16 * 4 + c.val / 64) :: b64Char (c.val % 64) :: X,
          by simp only [base64Loop, hX, List.cons_append]⟩

/-- The Base64 rendering of a 32-octet key ends with `=`. -/
theorem base64_key32 (f : Nat → Byte) :
    ∃ X, (encBase64Stringify ⟨digest 32 f, none⟩).toList = X ++ ['='] := by
  obtain ⟨X, hX⟩ := (base64Loop_shape 32 (digest 32 f) (by simp [digest_length])).2
    (by simp [digest_length])
  exact ⟨X, by simpa [encBase64Stringify] using hX⟩

/-- The output of the `argon2` branch. -/
theorem argon2_output (C : CryptoJS) (rnd : Nat → Byte) (text : String) (options : HashOptions)
    (ht : text ≠ "") :
    Worker.generateHash C rnd text "argon2" options =
      "$argon2id$v=19$m=65536,t=3,p=4$" ++
        encBase64Stringify (encUtf8Parse (saltToUse rnd options 16)) ++ "$" ++
        encBase64Stringify
          ⟨digest 32 (C.PBKDF2 (encUtf8Parse text) (encUtf8Parse (saltToUse rnd options 16)) 8
            ((orNum options.iterations 10000 * 2 : Int) : ℚ) Hasher.SHA512), none⟩ := by
  unfold Worker.generateHash
  simp only [ht, if_false]
  have e : ∀ (x y : String),
      includesDollar ("$argon2id$v=19$m=65536,t=3,p=4$" ++ x ++ "$" ++ y) = true := by
    intro x y
    simp [includesDollar]
  simp [e, saltToUse]

/-- C9 (what the code does): for every text and every options value,
with or without a salt, `detectHashType` classifies the string the worker's
`generateHash` returns for algorithm 'argon2' as Unknown with confidence 0,
never as Argon2: the Base64 key ends with `=`, which the Argon2 pattern does
not admit. -/
theorem argon2_output_not_detected (C : CryptoJS) (rnd : Nat → Byte) (text : String)
    (options : HashOptions) :
    detectHashType (some (Worker.generateHash C rnd text "argon2" options)) =
      ⟨"Unknown", 0⟩ := by
  by_cases ht : text = ""
  · simp [Worker.generateHash, ht, detectHashType]
  · have hout := argon2_output C rnd text options ht
    obtain ⟨X, hX⟩ := base64_key32 (C.PBKDF2 (encUtf8Parse text)
      (encUtf8Parse (saltToUse rnd options 16)) 8
      ((orNum options.iterations 10000 * 2 : Int) : ℚ) Hasher.SHA512)
    have hlist : (Worker.generateHash C rnd text "argon2" options).toList =
        '$' :: ('a' :: ("rgon2id$v=19$m=65536,t=3,p=4$".toList ++
          (encBase64Stringify (encUtf8Parse (saltToUse rnd options 16))).toList ++ ['$'] ++ X) ++ ['=']) := by
      rw [hout]
      simp only [String.toList, String.data_append] at hX ⊢
      rw [hX]
      simp
    have hne : Worker.generateHash C rnd text "argon2" options ≠ "" := by
      intro h
      rw [h] at hlist
      exact List.noConfusion hlist
    unfold detectHashType
    simp only [hne, if_false, hlist]
    rw [jsTrim_eq_self _ _ _ (by decide) (by decide)]
    generalize "rgon2id$v=19$m=65536,t=3,p=4$".toList ++
      (encBase64Stringify (encUtf8Parse (saltToUse rnd options 16))).toList ++ ['$'] ++ X = T
    have r1 : rxMatch (rxHex 32) ('$' :: ('a' :: T ++ ['='])) = false := rfl
    have r2 : rxMatch (rxHex 40) ('$' :: ('a' :: T ++ ['='])) = false := rfl
    have r3 : rxMatch (rxHex 64) ('$' :: ('a' :: T ++ ['='])) = false := rfl
    have r4 : rxMatch (rxHex 128) ('$' :: ('a' :: T ++ ['='])) = false := rfl
    have r5 : rxMatch (rxHex 56) ('$' :: ('a' :: T ++ ['='])) = false := rfl
    have r6 : rxMatch (rxHex 96) ('$' :: ('a' :: T ++ ['='])) = false := rfl
    have r7 : rxMatch rxMySQL ('$' :: ('a' :: T ++ ['='])) = false := rfl
    have r8 : rxMatch rxMD5Crypt ('$' :: ('a' :: T ++ ['='])) = false := rfl
    have r9 : rxMatch rxBcrypt ('$' :: ('a' :: T ++ ['='])) = false := rfl
    have r10 : rxMatch rxSHA256Crypt ('$' :: ('a' :: T ++ ['='])) = false := rfl
    have r11 : rxMatch rxSHA512Crypt ('$' :: ('a' :: T ++ ['='])) = false := rfl
    have r12 : testPBKDF2 ('$' :: ('a' :: T ++ ['='])) = false := rfl
    have r13 : rxMatch rxArgon2 ('$' :: ('a' :: T ++ ['='])) = false :=
      rxMatch_last_false rxArgon2 ⟨b64I, 1, none⟩ ('$' :: 'a' :: T) '=' rfl (by decide) (by decide)
    have r14 : rxMatch rxScrypt ('$' :: ('a' :: T ++ ['='])) = false := rfl
    have r15 : rxMatch rxYescrypt ('$' :: ('a' :: T ++ ['='])) = false := rfl
    have r16 : rxMatch rxNetNTLMv2 ('$' :: ('a' :: T ++ ['='])) = false := rfl
    have r17 : rxMatch rxWPA ('$' :: ('a' :: T ++ ['='])) = false := rfl
    simp only [r1, r2, r3, r4, r5, r6, r7, r8, r9, r10, r11, r12, r13, r14, r15, r16, r17]
    rfl

/-- A pattern of exact counts matches only strings of the total length. -/
theorem rxMatch_exact_length (items : List RxItem) (s : List Char)
    (hex : ∀ it ∈ items, it.hi = some it.lo) (hm : rxMatch items s = true) :
    s.length = (items.map RxItem.lo).sum := by
  induction items generalizing s with
  | nil =>
    rw [rxMatch_nil, List.isEmpty_iff] at hm
    simp [hm]
  | cons a rest ih =>
    rw [rxMatch_cons] at hm
    obtain ⟨n, hn, hlo, hhi, -, hk⟩ := (rxRep_iff _ _ _ _ _).mp hm
    have h1 := hhi a.lo (hex a (List.mem_cons_self _ _))
    have h2 := ih (s.drop n) (fun it hit => hex it (List.mem_cons_of_mem _ hit)) hk
    simp only [List.length_drop] at h2
    simp only [List.map_cons, List.sum_cons]
    omega

/-- Every index into the salt alphabet below 64 yields one character. -/
theorem charAt_chars_length : ∀ i, i < 64 → (Worker.charAt Worker.chars i).length = 1 := by
  decide

/-- A random salt has the requested number of characters. -/
theorem generateRandomSalt_length (rnd : Nat → Byte) (n : Nat) :
    (Worker.generateRandomSalt rnd n).toList.length = n := by
  have hc : Worker.chars.length = 64 := by decide
  have key : ∀ l : List Nat, (l.flatMap fun i =>
      Worker.charAt Worker.chars ((rnd i).val % Worker.chars.length)).length = l.length := by
    intro l
    induction l with
    | nil => rfl
    | cons a l ih =>
      rw [List.flatMap_cons, List.length_append, ih, hc,
        charAt_chars_length _ (Nat.mod_lt _ (by decide))]
      simp [Nat.add_comm]
  simpa [Worker.generateRandomSalt] using key (List.range n)

/-- No character of the Base64 alphabet is white space. -/
theorem b64Char_not_ws (n : Nat) : jsIsWhiteSpace (b64Char n).toNat = false := by
  have h : ∀ i, i < 64 → jsIsWhiteSpace (base64Map.toList.getD i '=').toNat = false := by decide
  exact h (n % 64) (Nat.mod_lt _ (by decide))

/-- No character of a Base64 rendering is white space. -/
theorem base64Loop_not_ws (n : Nat) : ∀ (bytes : List Byte) (e : Option Nat),
    bytes.length ≤ n → ∀ c ∈ base64Loop bytes e, jsIsWhiteSpace c.toNat = false := by
  have heq : jsIsWhiteSpace '='.toNat = false := by decide
  induction n with
  | zero =>
    intro bytes e h c hc
    have : bytes = [] := List.length_eq_zero.mp (Nat.le_zero.mp h)
    subst this
    cases e <;> simp only [base64Loop, List.mem_cons, List.mem_singleton, List.not_mem_nil,
      or_false] at hc
    rcases hc with rfl | rfl | rfl | rfl
    · exact b64Char_not_ws _
    all_goals exact heq
  | succ n ih =>
    intro bytes e h c hc
    match bytes, e with
    | [], none => simp [base64Loop] at hc
    | [], some e =>
      simp only [base64Loop, List.mem_cons, List.mem_singleton, List.not_mem_nil, or_false] at hc
      rcases hc with rfl | rfl | rfl | rfl
      · exact b64Char_not_ws _
      all_goals exact heq
    | [a], none =>
      simp only [base64Loop, List.mem_cons, List.mem_singleton, List.not_mem_nil, or_false] at hc
      rcases hc with rfl | rfl | rfl | rfl
      · exact b64Char_not_ws _
      · exact b64Char_not_ws _
      all_goals exact heq
    | [a], some e =>
      simp only [base64Loop, List.mem_cons, List.mem_singleton, List.not_mem_nil, or_false] at hc
      rcases hc with rfl | rfl | rfl | rfl
      · exact b64Char_not_ws _
      · exact b64Char_not_ws _
      all_goals exact heq
    | [a, b], none =>
      simp only [base64Loop, List.mem_cons, List.mem_singleton, List.not_mem_nil, or_false] at hc
      rcases hc with rfl | rfl | rfl | rfl
      · exact b64Char_not_ws _
      · exact b64Char_not_ws _
      · exact b64Char_not_ws _
      · exact heq
    | [a, b], some e =>
      simp only [base64Loop, List.mem_cons, List.mem_singleton, List.not_mem_nil, or_false] at hc
      rcases hc with rfl | rfl | rfl | rfl <;> exact b64Char_not_ws _
    | a :: b :: c' :: rest, e =>
      have hr : rest.length ≤ n := by simp only [List.length_cons] at h; omega
      simp only [base64Loop, List.mem_cons] at hc
      rcases hc with rfl | rfl | rfl | rfl | hc
      · exact b64Char_not_ws _
      · exact b64Char_not_ws _
      · exact b64Char_not_ws _
      · exact b64Char_not_ws _
      · exact ih rest e hr c hc

/-- The output of the `bcrypt` branch without salt and cost factor. -/
theorem bcrypt_default_output (C : CryptoJS) (rnd : Nat → Byte) (text : String)
    (iterations : Option Int) (outputFormat : Option String) (uppercase : Option Bool)
    (ht : text ≠ "") :
    Worker.generateHash C rnd text "bcrypt"
        { iterations := iterations, outputFormat := outputFormat, uppercase := uppercase } =
      "$2a$10$" ++ Worker.generateRandomSalt rnd 16 ++ "." ++
        encBase64Stringify
          ⟨digest 24 (C.PBKDF2 (encUtf8Parse text)
            (encUtf8Parse (Worker.generateRandomSalt rnd 16)) 6 ((2 : ℚ) ^ (10 : Int) * 100)
            Hasher.SHA512), none⟩ := by
  unfold Worker.generateHash
  simp only [ht, if_false]
  have e : ∀ (x y : String), includesDollar ("$2a$10$" ++ x ++ "." ++ y) = true := by
    intro x y
    simp [includesDollar]
  have hp : padStart2 (numToString 10) = "10" := by decide
  have e2 : ∀ (x y : String), "$2a$" ++ "10" ++ "$" ++ x ++ "." ++ y = "$2a$10$" ++ x ++ "." ++ y := by
    intro x y
    apply String.ext
    simp
  simp [orStr, orNum, hp, e, e2]

/-- C10 (what the code does): for every text and all options without salt
and cost factor (so a 16-character salt is generated and the cost factor is
10), `detectHashType` classifies the string the worker's `generateHash`
returns for algorithm 'bcrypt' as Unknown with confidence 0, never as bcrypt:
after `$2a$10$` the output has 49 characters where the bcrypt pattern wants 53. -/
theorem bcrypt_output_not_detected (C : CryptoJS) (rnd : Nat → Byte) (text : String)
    (iterations : Option Int) (outputFormat : Option String) (uppercase : Option Bool) :
    detectHashType (some (Worker.generateHash C rnd text "bcrypt"
      { iterations := iterations, outputFormat := outputFormat, uppercase := uppercase })) =
      ⟨"Unknown", 0⟩ := by
  by_cases ht : text = ""
  · simp [Worker.generateHash, ht, detectHashType]
  · have hout := bcrypt_default_output C rnd text iterations outputFormat uppercase ht
    have hlen : (Worker.generateHash C rnd text "bcrypt"
        { iterations := iterations, outputFormat := outputFormat,
          uppercase := uppercase }).toList.length = 56 := by
      rw [hout]
      have h1 := generateRandomSalt_length rnd 16
      have h2 := (base64Loop_shape 24 (digest 24 (C.PBKDF2 (encUtf8Parse text)
        (encUtf8Parse (Worker.generateRandomSalt rnd 16)) 6 ((2 : ℚ) ^ (10 : Int) * 100)
        Hasher.SHA512)) (by simp [digest_length])).1
      simp only [String.toList, String.data_append, List.length_append, encBase64Stringify,
        digest_length, Option.map_none'] at h1 h2 ⊢
      rw [h1, h2]
      rfl
    have hlist : ∃ T d, jsIsWhiteSpace d.toNat = false ∧ (Worker.generateHash C rnd text "bcrypt"
        { iterations := iterations, outputFormat := outputFormat,
          uppercase := uppercase }).toList = '$' :: ('2' :: T ++ [d]) := by
      rw [hout]
      have h2 := (base64Loop_shape 24 (digest 24 (C.PBKDF2 (encUtf8Parse text)
        (encUtf8Parse (Worker.generateRandomSalt rnd 16)) 6 ((2 : ℚ) ^ (10 : Int) * 100)
        Hasher.SHA512)) (by simp [digest_length])).1
      have h3 := base64Loop_not_ws 24 (digest 24 (C.PBKDF2 (encUtf8Parse text)
        (encUtf8Parse (Worker.generateRandomSalt rnd 16)) 6 ((2 : ℚ) ^ (10 : Int) * 100)
        Hasher.SHA512)) none (by simp [digest_length])
      simp only [String.toList, String.data_append, encBase64Stringify, Option.map_none']
      generalize base64Loop (digest 24 (C.PBKDF2 (encUtf8Parse text)
        (encUtf8Parse (Worker.generateRandomSalt rnd 16)) 6 ((2 : ℚ) ^ (10 : Int) * 100)
        Hasher.SHA512)) none = B at h2 h3 ⊢
      have hB : B ≠ [] := by
        intro h
        rw [h, digest_length] at h2
        simp at h2
      refine ⟨"a$10$".toList ++ (Worker.generateRandomSalt rnd 16).data ++ ['.'] ++ B.dropLast,
        B.getLast hB, h3 _ (List.getLast_mem hB), ?_⟩
      conv_lhs => rw [← List.dropLast_append_getLast hB]
      simp
    obtain ⟨T, d, hd, hlist⟩ := hlist
    have hne : Worker.generateHash C rnd text "bcrypt"
        { iterations := iterations, outputFormat := outputFormat, uppercase := uppercase } ≠ "" := by
      intro h
      rw [h] at hlist
      exact List.noConfusion hlist
    have hex : ∀ it ∈ rxBcrypt, it.hi = some it.lo := by
      have : rxBcrypt.all (fun it => it.hi == some it.lo) = true := rfl
      simpa using this
    have hsum : (rxBcrypt.map RxItem.lo).sum = 60 := rfl
    have r9 : rxMatch rxBcrypt ('$' :: ('2' :: T ++ [d])) = false := by
      apply Bool.eq_false_iff.mpr
      intro hm
      have := rxMatch_exact_length _ _ hex hm
      rw [← hlist, hlen, hsum] at this
      omega
    unfold detectHashType
    simp only [hne, if_false, hlist]
    rw [jsTrim_eq_self _ _ _ (by decide) hd]
    have r1 : rxMatch (rxHex 32) ('$' :: ('2' :: T ++ [d])) = false := rfl
    have r2 : rxMatch (rxHex 40) ('$' :: ('2' :: T ++ [d])) = false := rfl
    have r3 : rxMatch (rxHex 64) ('$' :: ('2' :: T ++ [d])) = false := rfl
    have r4 : rxMatch (rxHex 128) ('$' :: ('2' :: T ++ [d])) = false := rfl
    have r5 : rxMatch (rxHex 56) ('$' :: ('2' :: T ++ [d])) = false := rfl
    have r6 : rxMatch (rxHex 96) ('$' :: ('2' :: T ++ [d])) = false := rfl
    have r7 : rxMatch rxMySQL ('$' :: ('2' :: T ++ [d])) = false := rfl
    have r8 : rxMatch rxMD5Crypt ('$' :: ('2' :: T ++ [d])) = false := rfl
    have r10 : rxMatch rxSHA256Crypt ('$' :: ('2' :: T ++ [d])) = false := rfl
    have r11 : rxMatch rxSHA512Crypt ('$' :: ('2' :: T ++ [d])) = false := rfl
    have r12 : testPBKDF2 ('$' :: ('2' :: T ++ [d])) = false := rfl
    have r13 : rxMatch rxArgon2 ('$' :: ('2' :: T ++ [d])) = false := rfl
    have r14 : rxMatch rxScrypt ('$' :: ('2' :: T ++ [d])) = false := rfl
    have r15 : rxMatch rxYescrypt ('$' :: ('2' :: T ++ [d])) = false := rfl
    have r16 : rxMatch rxNetNTLMv2 ('$' :: ('2' :: T ++ [d])) = false := rfl
    have r17 : rxMatch rxWPA ('$' :: ('2' :: T ++ [d])) = false := rfl
    simp only [r1, r2, r3, r4, r5, r6, r7, r8, r9, r10, r11, r12, r13, r14, r15, r16, r17]
    rfl

/-- A `result` message whose id is not the registered one changes neither the
callbacks nor the promise log. -/
theorem handle_result_other (s : Engine) (now : Int) (hash : String) (id : Option String)
    (cb : HashCallback) (hcb : s.onHash = some cb) (hid : id ≠ some cb.id) :
    (handleWorkerMessage s now (WorkerMessage.result hash id)).onHash = some cb ∧
    (handleWorkerMessage s now (WorkerMessage.result hash id)).onError = s.onError ∧
    (handleWorkerMessage s now (WorkerMessage.result hash id)).settlements = s.settlements := by
  simp [handleWorkerMessage, hcb, HashCallback.call, hid]

/-- Settling a promise leaves `onHash` as it is. -/
@[simp] theorem settle_onHash (s : Engine) (p : Nat) (v : Settlement) :
    (settle s p v).onHash = s.onHash := by
  unfold settle; split_ifs <;> rfl

/-- Settling a promise leaves `onBulkHash` as it is. -/
@[simp] theorem settle_onBulkHash (s : Engine) (p : Nat) (v : Settlement) :
    (settle s p v).onBulkHash = s.onBulkHash := by
  unfold settle; split_ifs <;> rfl

/-- Settling a promise leaves `onError` as it is. -/
@[simp] theorem settle_onError (s : Engine) (p : Nat) (v : Settlement) :
    (settle s p v).onError = s.onError := by
  unfold settle; split_ifs <;> rfl

/-- Settling a promise creates no promise. -/
@[simp] theorem settle_promises (s : Engine) (p : Nat) (v : Settlement) :
    (settle s p v).promises = s.promises := by
  unfold settle; split_ifs <;> rfl

/-- A `result` message with the registered id settles the promise of the
callback and removes both callbacks. -/
theorem handle_result_match (s : Engine) (now : Int) (hash : String) (cb : HashCallback)
    (hcb : s.onHash = some cb) (hf : ∀ e ∈ s.settlements, e.1 ≠ cb.promise) :
    (handleWorkerMessage s now (WorkerMessage.result hash (some cb.id))).onHash = none ∧
    (handleWorkerMessage s now (WorkerMessage.result hash (some cb.id))).onError = none ∧
    (handleWorkerMessage s now (WorkerMessage.result hash (some cb.id))).settlements =
      s.settlements ++ [(cb.promise, Settlement.resolved hash)] := by
  simp only [handleWorkerMessage, updateHashRate_onHash, hcb, HashCallback.call, if_true,
    settle_onHash, settle_onError, true_and]
  rw [settle_fresh _ _ _ (by simpa using hf)]
  simp

/-- A `result` message changes nothing of callbacks and promise log when no
`onHash` callback is registered. -/
theorem handle_result_none (s : Engine) (now : Int) (hash : String) (id : Option String)
    (hcb : s.onHash = none) :
    (handleWorkerMessage s now (WorkerMessage.result hash id)).onHash = none ∧
    (handleWorkerMessage s now (WorkerMessage.result hash id)).onError = s.onError ∧
    (handleWorkerMessage s now (WorkerMessage.result hash id)).settlements = s.settlements := by
  simp [handleWorkerMessage, hcb]

/-- C2 (what the code does): when a second `generateHash` call is issued
before the result of the first is delivered, the engine keeps only the
callbacks of the second call.  After the workers' results for both requests
were delivered, in either order, the first promise is still pending and only
the second is resolved (with the hash of its own text). -/
theorem concurrent_first_request_lost (C : CryptoJS) (rand₁ rand₂ : Nat → Nat → Byte)
    (s : Engine) (text₁ text₂ algorithm : String) (options : HashOptions) (id₁ id₂ : String)
    (now₁ now₂ : Int) (h₁ : text₁ ≠ "") (h₂ : text₂ ≠ "") (ha : algorithm ≠ "")
    (hid : id₁ ≠ id₂) (hw : 0 < s.numWorkers) (hs : s.WF) :
    let s₁ := (generateHash s (some text₁) (some algorithm) options id₁).1
    let s₂ := (generateHash s₁ (some text₂) (some algorithm) options id₂).1
    let m₁ := Worker.onmessage C rand₁ (Request.generate text₁ algorithm options id₁)
    let m₂ := Worker.onmessage C rand₂ (Request.generate text₂ algorithm options id₂)
    (generateHash s (some text₁) (some algorithm) options id₁).2 = Promise.pending s.promises ∧
    (generateHash s₁ (some text₂) (some algorithm) options id₂).2 =
      Promise.pending (s.promises + 1) ∧
    s₂.posted = s.posted ++ [(0, Request.generate text₁ algorithm options id₁),
      (0, Request.generate text₂ algorithm options id₂)] ∧
    promiseState (deliver s₂ [(now₁, m₁), (now₂, m₂)]) s.promises = none ∧
    promiseState (deliver s₂ [(now₁, m₂), (now₂, m₁)]) s.promises = none ∧
    promiseState (deliver s₂ [(now₁, m₁), (now₂, m₂)]) (s.promises + 1) =
      some (Settlement.resolved (Worker.generateHash C (rand₂ 0) text₂ algorithm options)) ∧
    promiseState (deliver s₂ [(now₁, m₂), (now₂, m₁)]) (s.promises + 1) =
      some (Settlement.resolved (Worker.generateHash C (rand₂ 0) text₂ algorithm options)) := by
  intro s₁ s₂ m₁ m₂
  have e₁ := generateHash_state s text₁ algorithm options id₁ h₁ ha hw
  have hw₁ : 0 < s₁.numWorkers := by simp only [s₁, e₁]; exact hw
  have e₂ := generateHash_state s₁ text₂ algorithm options id₂ h₂ ha hw₁
  have hp₁ : s₁.promises = s.promises + 1 := by simp only [s₁, e₁]
  have hset₁ : s₁.settlements = s.settlements := by simp only [s₁, e₁]
  have hcb : s₂.onHash = some ⟨id₂, s.promises + 1⟩ := by simp only [s₂, e₂, hp₁]
  have hset₂ : s₂.settlements = s.settlements := by simp only [s₂, e₂, hset₁]
  have hpost : s₂.posted = s.posted ++ [(0, Request.generate text₁ algorithm options id₁),
      (0, Request.generate text₂ algorithm options id₂)] := by
    have p₁ : s₁.posted = s.posted ++ [(0, Request.generate text₁ algorithm options id₁)] := by
      simp only [s₁, e₁]
    have p₂ : s₂.posted = s₁.posted ++ [(0, Request.generate text₂ algorithm options id₂)] := by
      simp only [s₂, e₂]
    rw [p₂, p₁, List.append_assoc, List.singleton_append]
  have hf : ∀ e ∈ s.settlements, e.1 ≠ s.promises + 1 := fun e he => by
    have := hs e he
    omega
  have hf0 := WF_fresh s hs
  have hlog : ∀ h : String, promiseState
      { s with settlements := s.settlements ++ [(s.promises + 1, Settlement.resolved h)] }
        s.promises = none ∧
      promiseState
      { s with settlements := s.settlements ++ [(s.promises + 1, Settlement.resolved h)] }
        (s.promises + 1) = some (Settlement.resolved h) := by
    intro h
    refine ⟨?_, find_append_fresh _ _ _ hf⟩
    apply find_fresh
    intro e he
    rcases List.mem_append.mp he with he | he
    · exact hf0 e he
    · simp only [List.mem_singleton] at he
      subst he
      simp
  -- the first order: result of request 1, then of request 2
  have a₁ := handle_result_other s₂ now₁ (Worker.generateHash C (rand₁ 0) text₁ algorithm options)
    (some id₁) ⟨id₂, s.promises + 1⟩ hcb (by simpa using hid)
  have a₂ := handle_result_match
    (handleWorkerMessage s₂ now₁
      (WorkerMessage.result (Worker.generateHash C (rand₁ 0) text₁ algorithm options) (some id₁)))
    now₂ (Worker.generateHash C (rand₂ 0) text₂ algorithm options) ⟨id₂, s.promises + 1⟩ a₁.1
    (by rw [a₁.2.2, hset₂]; exact hf)
  -- the second order: result of request 2, then of request 1
  have b₁ := handle_result_match s₂ now₁ (Worker.generateHash C (rand₂ 0) text₂ algorithm options)
    ⟨id₂, s.promises + 1⟩ hcb (by rw [hset₂]; exact hf)
  have b₂ := handle_result_none
    (handleWorkerMessage s₂ now₁
      (WorkerMessage.result (Worker.generateHash C (rand₂ 0) text₂ algorithm options) (some id₂)))
    now₂ (Worker.generateHash C (rand₁ 0) text₁ algorithm options) (some id₁) b₁.1
  have hA : (deliver s₂ [(now₁, m₁), (now₂, m₂)]).settlements = s.settlements ++
      [(s.promises + 1, Settlement.resolved (Worker.generateHash C (rand₂ 0) text₂ algorithm options))] := by
    simp only [deliver, List.foldl_cons, List.foldl_nil, m₁, m₂, Worker.onmessage]
    rw [a₂.2.2, a₁.2.2, hset₂]
  have hB : (deliver s₂ [(now₁, m₂), (now₂, m₁)]).settlements = s.settlements ++
      [(s.promises + 1, Settlement.resolved (Worker.generateHash C (rand₂ 0) text₂ algorithm options))] := by
    simp only [deliver, List.foldl_cons, List.foldl_nil, m₁, m₂, Worker.onmessage]
    rw [b₂.2.2, b₁.2.2, hset₂]
  have hl := hlog (Worker.generateHash C (rand₂ 0) text₂ algorithm options)
  refine ⟨by rw [e₁], by rw [e₂, hp₁], hpost, ?_, ?_, ?_, ?_⟩
  · simp only [promiseState, hA] at hl ⊢; exact hl.1
  · simp only [promiseState, hB] at hl ⊢; exact hl.1
  · simp only [promiseState, hA] at hl ⊢; exact hl.2
  · simp only [promiseState, hB] at hl ⊢; exact hl.2

/-- Witness of `concurrent_first_request_lost`: texts 'a' and 'b' hashed with
'md5' on a new engine with four workers. -/
theorem concurrent_first_request_lost_witness :
    ("a" ≠ "" ∧ "b" ≠ "" ∧ "md5" ≠ "" ∧ "17a" ≠ "17b" ∧ 0 < (Engine.new 4 0).numWorkers ∧
      (Engine.new 4 0).WF) ∧
    promiseState
      (deliver
        (generateHash (generateHash (Engine.new 4 0) (some "a") (some "md5") {} "17a").1
          (some "b") (some "md5") {} "17b").1
        [(1, Worker.onmessage zeroCrypto (fun _ _ => 0) (Request.generate "a" "md5" {} "17a")),
         (2, Worker.onmessage zeroCrypto (fun _ _ => 0) (Request.generate "b" "md5" {} "17b"))])
      (Engine.new 4 0).promises = none :=
  ⟨⟨by decide, by decide, by decide, by decide, by decide, fun e he => by cases he⟩,
   (concurrent_first_request_lost zeroCrypto (fun _ _ => 0) (fun _ _ => 0) (Engine.new 4 0)
     "a" "b" "md5" {} "17a" "17b" 1 2 (by decide) (by decide) (by decide) (by decide)
     (by decide) (fun e he => by cases he)).2.2.2.1⟩

/-- The decimal digits core's printer produces: most significant first, each
below ten, with the value of the number. -/
theorem toDigitsCore_spec (fuel : Nat) : ∀ (n : Nat) (acc : List Char), n < fuel →
    ∃ ds : List Nat, ds ≠ [] ∧ (∀ d ∈ ds, d < 10) ∧
      ds.foldl (fun a d => a * 10 + d) 0 = n ∧
      Nat.toDigitsCore 10 fuel n acc = ds.map Nat.digitChar ++ acc := by
  induction fuel with
  | zero => intro n acc h; omega
  | succ fuel ih =>
    intro n acc h
    by_cases h0 : n / 10 = 0
    · refine ⟨[n % 10], by simp, ?_, ?_, ?_⟩
      · intro d hd
        simp only [List.mem_singleton] at hd
        omega
      · simp only [List.foldl_cons, List.foldl_nil]
        omega
      · simp [Nat.toDigitsCore, h0]
    · have hlt : n / 10 < fuel := by omega
      obtain ⟨ds, hne, hd, hv, he⟩ := ih (n / 10) (Nat.digitChar (n % 10) :: acc) hlt
      refine ⟨ds ++ [n % 10], by simp, ?_, ?_, ?_⟩
      · intro d hdm
        rcases List.mem_append.mp hdm with hdm | hdm
        · exact hd d hdm
        · simp only [List.mem_singleton] at hdm
          omega
      · simp only [List.foldl_append, List.foldl_cons, List.foldl_nil, hv]
        omega
      · simp [Nat.toDigitsCore, h0, he]

/-- The code unit of the character of a decimal digit. -/
theorem digitChar_toNat : ∀ d, d < 10 → (Nat.digitChar d).toNat = 48 + d := by
  decide

/-- Reading the code units of decimal digits gives the digits back. -/
theorem leadingDigits_digits (ds : List Nat) (hd : ∀ d ∈ ds, d < 10) :
    leadingDigits 10 (ds.map fun d => 48 + d) = ds := by
  induction ds with
  | nil => rfl
  | cons d ds ih =>
    have hd0 : d < 10 := hd d (List.mem_cons_self _ _)
    have hv : digitVal 10 (48 + d) = some d := by
      have : ∀ d, d < 10 → digitVal 10 (48 + d) = some d := by decide
      exact this d hd0
    simp only [List.map_cons, leadingDigits, hv]
    rw [ih fun x hx => hd x (List.mem_cons_of_mem _ hx)]

/-- One-argument `parseInt` on code units that start with neither white
space nor a sign nor `0x`: the value of the leading decimal digits. -/
theorem jsParseInt_plain (us : List Nat)
    (hws : us.dropWhile jsIsWhiteSpace = us)
    (h45 : (us.head? == some 45) = false) (h43 : (us.head? == some 43) = false)
    (hx1 : (us.take 2 == [48, 120]) = false) (hx2 : (us.take 2 == [48, 88]) = false)
    (hne : (leadingDigits 10 us).isEmpty = false) :
    jsParseInt us none =
      some (((leadingDigits 10 us).foldl (fun acc d => acc * 10 + d) 0 : Nat) : Int) := by
  simp only [jsParseInt, hws, h45, h43, hx1, hx2, Bool.or_self, Bool.false_eq_true, if_false,
    Bool.and_false, hne]

/-- The function `parseInt` reads back the decimal string of a natural number. -/
theorem jsParseInt_numToString (n : Nat) :
    jsParseInt (utf16 (numToString (n : Int))) none = some (n : Int) := by
  obtain ⟨ds, hne, hd, hv, he⟩ := toDigitsCore_spec (n + 1) n [] (Nat.lt_succ_self n)
  have hs : numToString (n : Int) = ⟨ds.map Nat.digitChar⟩ := by
    show toString (Int.ofNat n) = _
    simp only [toString, Int.repr, Nat.repr, Nat.toDigits, he, List.append_nil, List.asString]
  have hu : utf16 (numToString (n : Int)) = ds.map fun d => 48 + d := by
    rw [hs]
    simp only [utf16, String.toList]
    clear hv he hne hs
    induction ds with
    | nil => rfl
    | cons d ds ih =>
      have hd0 : d < 10 := hd d (List.mem_cons_self _ _)
      have h48 := digitChar_toNat d hd0
      simp only [List.map_cons, List.flatMap_cons, h48]
      rw [ih fun x hx => hd x (List.mem_cons_of_mem _ hx)]
      have : 48 + d < 65536 := by omega
      simp [this]
  rw [hu]
  obtain ⟨d, ds', rfl⟩ := List.exists_cons_of_ne_nil hne
  have hd0 : d < 10 := hd d (List.mem_cons_self _ _)
  have hws : jsIsWhiteSpace (48 + d) = false := by
    have : ∀ d, d < 10 → jsIsWhiteSpace (48 + d) = false := by decide
    exact this d hd0
  have hl := leadingDigits_digits (d :: ds') hd
  have f1 : (List.map (fun d => 48 + d) (d :: ds')).dropWhile jsIsWhiteSpace =
      List.map (fun d => 48 + d) (d :: ds') := by simp [hws]
  have f2 : ((List.map (fun d => 48 + d) (d :: ds')).head? == some 45) = false := by
    simp only [List.map_cons, List.head?_cons, beq_eq_false_iff_ne, ne_eq, Option.some.injEq]
    omega
  have f3 : ((List.map (fun d => 48 + d) (d :: ds')).head? == some 43) = false := by
    simp only [List.map_cons, List.head?_cons, beq_eq_false_iff_ne, ne_eq, Option.some.injEq]
    omega
  have f45 : ((List.map (fun d => 48 + d) (d :: ds')).take 2 == [48, 120]) = false ∧
      ((List.map (fun d => 48 + d) (d :: ds')).take 2 == [48, 88]) = false := by
    match ds', hd with
    | [], _ => simp
    | b :: t, hl =>
      have hb : b < 10 := hl b (by simp)
      have h1 : 48 + b ≠ 120 := by omega
      have h2 : 48 + b ≠ 88 := by omega
      simp [h1, h2]
  have f6 : (leadingDigits 10 (List.map (fun d => 48 + d) (d :: ds'))).isEmpty = false := by
    rw [hl]; rfl
  rw [jsParseInt_plain _ f1 f2 f3 f45.1 f45.2 f6, hl, hv]

/-- Inserting into a list depends on the order only between the new element
and the members of the list. -/
theorem orderedInsert_congr {α : Type} (r r' : α → α → Prop) [DecidableRel r] [DecidableRel r']
    (a : α) (l : List α) (h : ∀ b ∈ l, r a b ↔ r' a b) :
    l.orderedInsert r a = l.orderedInsert r' a := by
  induction l with
  | nil => rfl
  | cons b l ih =>
    have hb := h b (List.mem_cons_self _ _)
    simp only [List.orderedInsert]
    by_cases hr : r a b
    · rw [if_pos hr, if_pos (hb.mp hr)]
    · rw [if_neg hr, if_neg (fun c => hr (hb.mpr c)), ih fun x hx => h x (List.mem_cons_of_mem _ hx)]

/-- Sorting depends on the order only between members of the list. -/
theorem insertionSort_congr {α : Type} (r r' : α → α → Prop) [DecidableRel r] [DecidableRel r']
    (l : List α) (h : ∀ a ∈ l, ∀ b ∈ l, r a b ↔ r' a b) :
    l.insertionSort r = l.insertionSort r' := by
  induction l with
  | nil => rfl
  | cons a l ih =>
    have ih' := ih fun x hx y hy => h x (List.mem_cons_of_mem _ hx) y (List.mem_cons_of_mem _ hy)
    simp only [List.insertionSort]
    rw [ih']
    apply orderedInsert_congr
    intro b hb
    have hb' : b ∈ l := (List.perm_insertionSort r' l).subset hb
    exact h a (List.mem_cons_self _ _) b (List.mem_cons_of_mem _ hb')

/-- Sorting by a key a permutation of a list whose keys increase strictly
gives that list. -/
theorem insertionSort_eq_of_perm {α : Type} (key : α → Int) (l E : List α) (hp : l.Perm E)
    (hE : (E.map key).Pairwise (· < ·)) :
    l.insertionSort (fun a b => key a ≤ key b) = E := by
  have hs : (l.insertionSort (fun a b => key a ≤ key b)).Sorted (fun a b => key a ≤ key b) := by
    haveI : IsTotal α (fun a b => key a ≤ key b) := ⟨fun a b => le_total (key a) (key b)⟩
    haveI : IsTrans α (fun a b => key a ≤ key b) := ⟨fun a b c h1 h2 => le_trans h1 h2⟩
    exact List.sorted_insertionSort _ l
  have hperm : (l.insertionSort (fun a b => key a ≤ key b)).Perm E :=
    (List.perm_insertionSort _ l).trans hp
  have hnd : ((l.insertionSort (fun a b => key a ≤ key b)).map key).Nodup := by
    have : (E.map key).Nodup := hE.imp (fun h => ne_of_lt h)
    exact (hperm.map key).nodup_iff.mpr this
  have hs' : (l.insertionSort (fun a b => key a ≤ key b)).Pairwise (fun a b => key a < key b) := by
    have h1 : (l.insertionSort (fun a b => key a ≤ key b)).Pairwise
        (fun a b => key a ≠ key b) := (List.pairwise_map.mp hnd)
    exact (List.Pairwise.and hs h1).imp (fun h => lt_of_le_of_ne h.1 h.2)
  haveI : IsAntisymm α (fun a b => key a < key b) :=
    ⟨fun a b h1 h2 => absurd h1 (not_lt.mpr (le_of_lt h2))⟩
  exact List.eq_of_perm_of_sorted hperm hs' (List.pairwise_map.mp hE)

/-- Cutting a list into pieces of `m` elements and joining the pieces gives
the list back. -/
theorem flatMap_chunks {α : Type} (m : Nat) (B : Nat) : ∀ L : List α,
    L.length ≤ B * m →
    (List.range B).flatMap (fun k => (L.drop (k * m)).take m) = L := by
  induction B with
  | zero =>
    intro L h
    have : L = [] := List.length_eq_zero.mp (by omega)
    simp [this]
  | succ B ih =>
    intro L h
    rw [List.range_succ_eq_map, List.flatMap_cons]
    have hrest : (List.map Nat.succ (List.range B)).flatMap (fun k => (L.drop (k * m)).take m) =
        (List.range B).flatMap (fun k => ((L.drop m).drop (k * m)).take m) := by
      simp only [List.flatMap, List.map_map]
      congr 1
      apply List.map_congr_left
      intro k _
      simp only [Function.comp, List.drop_drop, Nat.succ_eq_add_one]
      congr 2
      ring
    rw [hrest, ih (L.drop m) (by simp only [List.length_drop]; rw [Nat.succ_mul] at h; omega)]
    simp

/-- A bulk request on a pool with a worker: the state `generateBulkHashes`
leaves. -/
theorem generateBulkHashes_state (s : Engine) (items : List String) (algorithm : String)
    (options : HashOptions) (batchId : String) (hi : items ≠ []) (ha : algorithm ≠ "")
    (hw : 0 < s.numWorkers) :
    generateBulkHashes s (some items) (some algorithm) options batchId =
      ({ s with
          uniqueAlgorithmsUsed := setAdd s.uniqueAlgorithmsUsed algorithm,
          promises := s.promises + 1,
          onBulkHash := some
            { batchId := batchId, batches := (splitBatches items 1000).length,
              promise := s.promises, results := [], completedBatches := 0 },
          onError := some (ErrorCallback.bulk batchId s.promises),
          posted := s.posted ++ (splitBatches items 1000).enum.map fun (index, batch) =>
            (index % s.numWorkers,
             Request.bulk_generate (itemsWithIds batch index 1000) algorithm options batchId) },
        Promise.pending s.promises) := by
  have hw' : s.numWorkers ≠ 0 := Nat.pos_iff_ne_zero.mp hw
  have hl : items.length ≠ 0 := fun h => hi (List.length_eq_zero.mp h)
  simp [generateBulkHashes, falsy, ha, hw', hl]

/-- A `bulk_result` message of the registered request that is not the last
outstanding one is accumulated: nothing is settled. -/
theorem handle_bulk_partial (s : Engine) (now : Int) (results : List BulkResult)
    (cb : BulkCallback) (hcb : s.onBulkHash = some cb)
    (hn : cb.completedBatches + 1 ≠ cb.batches) :
    (handleWorkerMessage s now (WorkerMessage.bulk_result results (some cb.batchId))).onBulkHash =
      some { cb with results := cb.results ++ results,
                     completedBatches := cb.completedBatches + 1 } ∧
    (handleWorkerMessage s now (WorkerMessage.bulk_result results (some cb.batchId))).settlements =
      s.settlements := by
  simp [handleWorkerMessage, hcb, BulkCallback.call, hn]

/-- The `bulk_result` message that completes the registered request resolves
its promise with the hashes of the accumulated results, sorted by id. -/
theorem handle_bulk_last (s : Engine) (now : Int) (results : List BulkResult)
    (cb : BulkCallback) (hcb : s.onBulkHash = some cb)
    (hn : cb.completedBatches + 1 = cb.batches)
    (hf : ∀ e ∈ s.settlements, e.1 ≠ cb.promise) :
    (handleWorkerMessage s now (WorkerMessage.bulk_result results (some cb.batchId))).settlements =
      s.settlements ++ [(cb.promise, Settlement.resolvedList
        (((cb.results ++ results).insertionSort idLe).map fun r => r.hash))] := by
  simp only [handleWorkerMessage, updateHashRate_onBulkHash, hcb, BulkCallback.call, if_true, hn]
  rw [settle_fresh _ _ _ (by simpa using hf)]
  simp

/-- Delivering the outstanding `bulk_result` messages of the registered
request, in whatever order: the promise is resolved with the hashes of all
results, sorted by id. -/
theorem deliver_bulk (msgs : List (Int × WorkerMessage)) : ∀ (s : Engine) (cb : BulkCallback),
    s.onBulkHash = some cb → (∀ e ∈ s.settlements, e.1 ≠ cb.promise) →
    (∀ m ∈ msgs, ∃ rs, m.2 = WorkerMessage.bulk_result rs (some cb.batchId)) →
    cb.completedBatches + msgs.length = cb.batches → msgs ≠ [] →
    (deliver s msgs).settlements = s.settlements ++ [(cb.promise, Settlement.resolvedList
      (((cb.results ++ msgs.flatMap fun m => resultsOf m.2).insertionSort idLe).map
        fun r => r.hash))] := by
  induction msgs with
  | nil => intro s cb _ _ _ _ h; exact absurd rfl h
  | cons m rest ih =>
    intro s cb hcb hf hall hlen _
    obtain ⟨rs, hm⟩ := hall m (List.mem_cons_self _ _)
    have hm' : m = (m.1, WorkerMessage.bulk_result rs (some cb.batchId)) := by
      rw [← hm]
    simp only [deliver, List.foldl_cons]
    rw [hm']
    by_cases hr : rest = []
    · subst hr
      simp only [List.foldl_nil, List.flatMap_cons, List.flatMap_nil, List.append_nil, resultsOf]
      exact handle_bulk_last s m.1 rs cb hcb (by simpa using hlen) hf
    · have hn : cb.completedBatches + 1 ≠ cb.batches := by
        have : 0 < rest.length := List.length_pos.mpr hr
        simp only [List.length_cons] at hlen
        omega
      obtain ⟨h1, h2⟩ := handle_bulk_partial s m.1 rs cb hcb hn
      have := ih (handleWorkerMessage s m.1 (WorkerMessage.bulk_result rs (some cb.batchId)))
        { cb with results := cb.results ++ rs, completedBatches := cb.completedBatches + 1 }
        h1 (by rw [h2]; exact hf) (fun x hx => hall x (List.mem_cons_of_mem _ hx))
        (by simp only [List.length_cons] at hlen ⊢; omega) hr
      simp only [deliver] at this
      rw [this, h2]
      simp [resultsOf, List.append_assoc]

/-- Numbering a numbered list pairs every entry with its own number. -/
theorem enumFrom_enumFrom {α : Type} (l : List α) : ∀ n : Nat,
    (l.enumFrom n).enumFrom n = (l.enumFrom n).map fun x => (x.1, x) := by
  induction l with
  | nil => intro n; rfl
  | cons a l ih => intro n; simp only [List.enumFrom_cons, List.map_cons, ih]

/-- Numbering the values of a function on `0 .. n-1`. -/
theorem enum_map_range {α : Type} (f : Nat → α) (n : Nat) :
    ((List.range n).map f).enum = (List.range n).map fun k => (k, f k) := by
  apply List.ext_getElem
  · simp
  · intro i h1 h2
    simp

/-- What the worker reports for the batch number `k`: the entries of its
items, numbered from `k * 1000`. -/
theorem batch_results (C : CryptoJS) (rand : Nat → Nat → Nat → Byte) (algorithm : String)
    (options : HashOptions) (batchId : String) (k : Nat) (batch : List String)
    (hb : batch.length ≤ 1000) :
    Worker.onmessage C (rand k)
        (Request.bulk_generate (itemsWithIds batch k 1000) algorithm options batchId) =
      WorkerMessage.bulk_result
        ((batch.enumFrom (k * 1000)).map (bulkEntry C rand algorithm options)) (some batchId) := by
  simp only [Worker.onmessage, itemsWithIds, WorkerMessage.bulk_result.injEq, and_true]
  conv_rhs => rw [← List.map_fst_add_enum_eq_enumFrom batch (k * 1000)]
  rw [List.enum_map]
  simp only [List.enum]
  rw [enumFrom_enumFrom]
  simp only [List.map_map]
  apply List.map_congr_left
  intro x hx
  have hlt : x.1 < 1000 := lt_of_lt_of_le (List.fst_lt_of_mem_enum hx) hb
  have h1 : (x.1 + k * 1000) / 1000 = k := by omega
  have h2 : (x.1 + k * 1000) % 1000 = x.1 := by omega
  simp only [Function.comp, Prod.map, id, bulkEntry, h1, h2]
  congr 1
  push_cast
  ring_nf

/-- Numbering commutes with taking a prefix. -/
theorem enumFrom_take {α : Type} (l : List α) : ∀ (n m : Nat),
    (l.enumFrom n).take m = (l.take m).enumFrom n := by
  induction l with
  | nil => intro n m; simp
  | cons a l ih =>
    intro n m
    cases m with
    | zero => simp
    | succ m => simp [List.enumFrom_cons, ih]

/-- Numbering commutes with dropping a prefix. -/
theorem enumFrom_drop {α : Type} (l : List α) : ∀ (n m : Nat),
    (l.enumFrom n).drop m = (l.drop m).enumFrom (n + m) := by
  induction l with
  | nil => intro n m; simp
  | cons a l ih =>
    intro n m
    cases m with
    | zero => simp
    | succ m =>
      simp only [List.enumFrom_cons, List.drop_succ_cons, ih]
      congr 1
      omega

/-- The replies of the workers to the batches of a bulk request: one
`bulk_result` per batch, tagged with the `batchId`, and together they hold
the entries of all items in input order. -/
theorem bulk_replies (C : CryptoJS) (rand : Nat → Nat → Nat → Byte) (items : List String)
    (algorithm : String) (options : HashOptions) (batchId : String) (N : Nat) :
    let replies := workerReplies C rand
      (((splitBatches items 1000).enum.map fun (index, batch) =>
        (index % N, Request.bulk_generate (itemsWithIds batch index 1000) algorithm options
          batchId)).map Prod.snd)
    replies.length = (splitBatches items 1000).length ∧
    (∀ m ∈ replies, ∃ rs, m = WorkerMessage.bulk_result rs (some batchId)) ∧
    replies.flatMap resultsOf = items.enum.map (bulkEntry C rand algorithm options) := by
  intro replies
  have hrep : replies = (List.range ((items.length + 1000 - 1) / 1000)).map fun k =>
      WorkerMessage.bulk_result
        ((((items.drop (k * 1000)).take 1000).enumFrom (k * 1000)).map
          (bulkEntry C rand algorithm options)) (some batchId) := by
    simp only [replies, workerReplies, splitBatches, enum_map_range, List.map_map]
    rw [show (Prod.snd ∘ (fun x : Nat × List String =>
          (x.1 % N, Request.bulk_generate (itemsWithIds x.2 x.1 1000) algorithm options batchId)) ∘
          fun k => (k, List.take 1000 (List.drop (k * 1000) items))) =
        fun k => Request.bulk_generate
          (itemsWithIds (List.take 1000 (List.drop (k * 1000) items)) k 1000) algorithm options
            batchId from rfl]
    apply List.map_congr_left
    intro k _
    exact batch_results C rand algorithm options batchId k _ (List.length_take_le _ _)
  refine ⟨?_, ?_, ?_⟩
  · rw [hrep]; simp [splitBatches]
  · intro m hm
    rw [hrep] at hm
    obtain ⟨k, -, rfl⟩ := List.mem_map.mp hm
    exact ⟨_, rfl⟩
  · rw [hrep]
    simp only [List.flatMap, List.map_map]
    have : (resultsOf ∘ fun k => WorkerMessage.bulk_result
        ((((items.drop (k * 1000)).take 1000).enumFrom (k * 1000)).map
          (bulkEntry C rand algorithm options)) (some batchId)) =
        fun k => (((items.enum.map (bulkEntry C rand algorithm options)).drop (k * 1000)).take
          1000) := by
      funext k
      simp only [Function.comp, resultsOf, List.enum, ← List.map_drop, ← List.map_take,
        enumFrom_drop, enumFrom_take, Nat.zero_add]
    rw [this]
    have h := flatMap_chunks 1000 ((items.length + 1000 - 1) / 1000)
      (items.enum.map (bulkEntry C rand algorithm options))
      (by simp only [List.length_map, List.enum_length]; omega)
    simpa only [List.flatMap] using h

/-- C1: for every non-empty list of items, every pool of at least one worker
and every order in which the workers' `bulk_result` messages arrive (each
batch reported once, at whatever times), the promise of `generateBulkHashes`
is resolved with a list as long as `items` whose `i`-th element is the hash
the worker computed for `items[i]` (item `i % 1000` of batch `i / 1000`). -/
theorem bulk_resolves_in_input_order (C : CryptoJS) (rand : Nat → Nat → Nat → Byte)
    (s : Engine) (items : List String) (algorithm : String) (options : HashOptions)
    (batchId : String) (arrivals : List (Int × WorkerMessage))
    (hi : items ≠ []) (ha : algorithm ≠ "") (hw : 0 < s.numWorkers) (hs : s.WF)
    (hperm : (arrivals.map Prod.snd).Perm
      (workerReplies C rand (postedSince s.posted.length
        (generateBulkHashes s (some items) (some algorithm) options batchId).1))) :
    (generateBulkHashes s (some items) (some algorithm) options batchId).2 =
      Promise.pending s.promises ∧
    promiseState
      (deliver (generateBulkHashes s (some items) (some algorithm) options batchId).1 arrivals)
      s.promises =
      some (Settlement.resolvedList (items.enum.map fun x =>
        Worker.generateHash C (rand (x.1 / 1000) (x.1 % 1000)) x.2 algorithm options)) ∧
    (items.enum.map fun x =>
        Worker.generateHash C (rand (x.1 / 1000) (x.1 % 1000)) x.2 algorithm options).length =
      items.length := by
  have e := generateBulkHashes_state s items algorithm options batchId hi ha hw
  rw [e] at hperm ⊢
  simp only [postedSince, List.drop_left] at hperm
  obtain ⟨hlen, hall, hflat⟩ := bulk_replies C rand items algorithm options batchId s.numWorkers
  simp only at hlen hall hflat
  refine ⟨rfl, ?_, by simp⟩
  have hB : 0 < (splitBatches items 1000).length := by
    have : 0 < items.length := List.length_pos.mpr hi
    simp only [splitBatches, List.length_map, List.length_range]
    omega
  have halen : arrivals.length = (splitBatches items 1000).length := by
    have := hperm.length_eq
    simp only [List.length_map] at this
    rw [this]
    simpa using hlen
  have hne : arrivals ≠ [] := by
    intro h
    rw [h] at halen
    simp only [List.length_nil] at halen
    omega
  have hmsgs : ∀ m ∈ arrivals, ∃ rs, m.2 = WorkerMessage.bulk_result rs (some batchId) := by
    intro m hm
    exact hall m.2 (hperm.subset (List.mem_map_of_mem _ hm))
  have hd := deliver_bulk arrivals
    { s with
        uniqueAlgorithmsUsed := setAdd s.uniqueAlgorithmsUsed algorithm,
        promises := s.promises + 1,
        onBulkHash := some
          { batchId := batchId, batches := (splitBatches items 1000).length,
            promise := s.promises, results := [], completedBatches := 0 },
        onError := some (ErrorCallback.bulk batchId s.promises),
        posted := s.posted ++ (splitBatches items 1000).enum.map fun (index, batch) =>
          (index % s.numWorkers,
           Request.bulk_generate (itemsWithIds batch index 1000) algorithm options batchId) }
    { batchId := batchId, batches := (splitBatches items 1000).length,
      promise := s.promises, results := [], completedBatches := 0 }
    rfl (WF_fresh s hs) hmsgs (by simpa using halen) hne
  simp only [List.nil_append] at hd
  -- the accumulated results are a permutation of the entries in input order
  have hpE : (arrivals.flatMap fun m => resultsOf m.2).Perm
      (items.enum.map (bulkEntry C rand algorithm options)) := by
    have h1 : (arrivals.flatMap fun m => resultsOf m.2) =
        (arrivals.map Prod.snd).flatMap resultsOf := by
      rw [List.flatMap_map]
    rw [h1, ← hflat]
    exact hperm.flatMap_right resultsOf
  -- on these entries the comparator orders by the item number
  have hkey : ∀ r ∈ items.enum.map (bulkEntry C rand algorithm options),
      ∃ i : Nat, jsParseInt (utf16 r.id) none = some (i : Int) := by
    intro r hr
    obtain ⟨x, -, rfl⟩ := List.mem_map.mp hr
    exact ⟨x.1, jsParseInt_numToString x.1⟩
  have hsort : (arrivals.flatMap fun m => resultsOf m.2).insertionSort idLe =
      items.enum.map (bulkEntry C rand algorithm options) := by
    rw [insertionSort_congr idLe
      (fun a b => (jsParseInt (utf16 a.id) none).getD 0 ≤ (jsParseInt (utf16 b.id) none).getD 0)]
    · apply insertionSort_eq_of_perm _ _ _ hpE
      rw [List.map_map]
      have : ((fun r : BulkResult => (jsParseInt (utf16 r.id) none).getD 0) ∘
          bulkEntry C rand algorithm options) = fun x => ((x.1 : Nat) : Int) := by
        funext x
        simp [bulkEntry, jsParseInt_numToString]
      rw [this]
      have hr : (items.enum.map fun x => ((x.1 : Nat) : Int)) =
          (List.range items.length).map fun i : Nat => (i : Int) := by
        rw [← List.enum_map_fst items, List.map_map]
        rfl
      rw [hr, List.pairwise_map]
      exact (List.pairwise_lt_range _).imp (fun h => Int.ofNat_lt.mpr h)
    · intro a ha' b hb'
      obtain ⟨i, hi'⟩ := hkey a (hpE.subset ha')
      obtain ⟨j, hj'⟩ := hkey b (hpE.subset hb')
      simp only [idLe, hi', hj', Option.getD_some]
      omega
  rw [hsort] at hd
  have hmap : (items.enum.map (bulkEntry C rand algorithm options)).map (fun r => r.hash) =
      items.enum.map fun x =>
        Worker.generateHash C (rand (x.1 / 1000) (x.1 % 1000)) x.2 algorithm options := by
    rw [List.map_map]
    rfl
  rw [hmap] at hd
  simp only [promiseState, hd]
  exact find_append_fresh _ _ _ (WF_fresh s hs)

/-- Messages delivered in reverse order, all at time `t`, are a permutation
of the messages. -/
theorem reverse_tagged_perm (l : List WorkerMessage) (t : Int) :
    ((l.reverse.map fun m => (t, m)).map Prod.snd).Perm l := by
  have : (l.reverse.map fun m => (t, m)).map Prod.snd = l.reverse := by
    rw [List.map_map]
    exact List.map_id'' (fun _ => rfl) _
  rw [this]
  exact List.reverse_perm l

/-- Witness of `bulk_resolves_in_input_order`: 1001 items (two batches) on a
new engine with four workers, the reply to the second batch arriving first. -/
theorem bulk_resolves_in_input_order_witness :
    (List.replicate 1001 "a" ≠ [] ∧ "sha256" ≠ "" ∧ 0 < (Engine.new 4 0).numWorkers ∧
      (Engine.new 4 0).WF ∧
      (((workerReplies zeroCrypto (fun _ _ _ => 0) (postedSince (Engine.new 4 0).posted.length
          (generateBulkHashes (Engine.new 4 0) (some (List.replicate 1001 "a")) (some "sha256") {}
            "17abcde").1)).reverse.map fun m => ((7 : Int), m)).map Prod.snd).Perm
        (workerReplies zeroCrypto (fun _ _ _ => 0) (postedSince (Engine.new 4 0).posted.length
          (generateBulkHashes (Engine.new 4 0) (some (List.replicate 1001 "a")) (some "sha256") {}
            "17abcde").1))) ∧
    promiseState
      (deliver
        (generateBulkHashes (Engine.new 4 0) (some (List.replicate 1001 "a")) (some "sha256") {}
          "17abcde").1
        ((workerReplies zeroCrypto (fun _ _ _ => 0) (postedSince (Engine.new 4 0).posted.length
          (generateBulkHashes (Engine.new 4 0) (some (List.replicate 1001 "a")) (some "sha256") {}
            "17abcde").1)).reverse.map fun m => ((7 : Int), m)))
      (Engine.new 4 0).promises =
      some (Settlement.resolvedList ((List.replicate 1001 "a").enum.map fun x =>
        Worker.generateHash zeroCrypto (fun _ => 0) x.2 "sha256" {})) :=
  ⟨⟨List.ne_nil_of_length_pos (by rw [List.length_replicate]; decide), by decide, by decide,
      (fun e he => by cases he), reverse_tagged_perm _ 7⟩,
   (bulk_resolves_in_input_order zeroCrypto (fun _ _ _ => 0) (Engine.new 4 0)
     (List.replicate 1001 "a") "sha256" {} "17abcde" _
     (List.ne_nil_of_length_pos (by rw [List.length_replicate]; decide)) (by decide) (by decide)
     (fun e he => by cases he) (reverse_tagged_perm _ 7)).2.1⟩

/-- C5 fails as stated: for text 'a' and the unregistered algorithm id 'foo'
the worker reports a result (the empty string), not an error, and the promise
of `generateHash` is resolved, not rejected. -/
theorem unknown_algorithm_not_rejected :
    Worker.onmessage zeroCrypto (fun _ _ => 0) (Request.generate "a" "foo" {} "17abcde") =
      WorkerMessage.result "" (some "17abcde") ∧
    promiseState
      (handleWorkerMessage (generateHash (Engine.new 4 0) (some "a") (some "foo") {} "17abcde").1 5
        (Worker.onmessage zeroCrypto (fun _ _ => 0) (Request.generate "a" "foo" {} "17abcde")))
      0 = some (Settlement.resolved "") := by
  decide

/-- Witness of `unknown_algorithm_resolves_empty`: text 'a', algorithm 'foo'
on a new engine with four workers. -/
theorem unknown_algorithm_resolves_empty_witness :
    ("a" ≠ "" ∧ "foo" ≠ "" ∧ "foo" ∉ Worker.branches ∧ 0 < (Engine.new 4 0).numWorkers ∧
      (Engine.new 4 0).WF) ∧
    (Worker.onmessage zeroCrypto (fun _ _ => 0) (Request.generate "a" "foo" {} "17abcde") =
      WorkerMessage.result "" (some "17abcde") ∧
    promiseState
      (handleWorkerMessage (generateHash (Engine.new 4 0) (some "a") (some "foo") {} "17abcde").1 5
        (Worker.onmessage zeroCrypto (fun _ _ => 0) (Request.generate "a" "foo" {} "17abcde")))
      (Engine.new 4 0).promises = some (Settlement.resolved "")) :=
  ⟨⟨by decide, by decide, by decide, by decide, fun e he => by cases he⟩,
   unknown_algorithm_resolves_empty zeroCrypto (fun _ _ => 0) (Engine.new 4 0) "a" "foo" {}
     "17abcde" 5 (by decide) (by decide) (by decide) (by decide) (fun e he => by cases he)⟩

/-- C6 (what the code does): the ids 'sha-256-crypt' and 'sha-512-crypt' are
in `supportedAlgorithms`, but the worker's `generateHash` has no branch for
them (its branches are 'sha256-crypt' and 'sha512-crypt') and returns the
empty string for every text. -/
theorem supported_crypt_ids_yield_empty :
    "sha-256-crypt" ∈ supportedAlgorithms ∧ "sha-512-crypt" ∈ supportedAlgorithms ∧
    "sha-256-crypt" ∉ Worker.branches ∧ "sha-512-crypt" ∉ Worker.branches ∧
    ∀ (C : CryptoJS) (rnd : Nat → Byte) (text : String),
      Worker.generateHash C rnd text "sha-256-crypt" {} = "" ∧
      Worker.generateHash C rnd text "sha-512-crypt" {} = "" :=
  ⟨by decide, by decide, by decide, by decide, fun C rnd text =>
    ⟨generateHash_no_branch C rnd text _ _ (by decide),
     generateHash_no_branch C rnd text _ _ (by decide)⟩⟩

/-- C3 (what the code does): when a worker reports an error for a pending
bulk request, in the message its `catch` branch posts (tagged with the
request's `batchId`), the promise is not rejected: it stays pending and the
callbacks of the request stay registered. -/
theorem bulk_error_not_rejected (s : Engine) (items : List String) (algorithm : String)
    (options : HashOptions) (batchId error : String) (now : Int)
    (hi : items ≠ []) (ha : algorithm ≠ "") (hw : 0 < s.numWorkers) (hs : s.WF) :
    (generateBulkHashes s (some items) (some algorithm) options batchId).2 =
      Promise.pending s.promises ∧
    (generateBulkHashes s (some items) (some algorithm) options batchId).1.onError =
      some (ErrorCallback.bulk batchId s.promises) ∧
    promiseState
      (handleWorkerMessage (generateBulkHashes s (some items) (some algorithm) options batchId).1
        now (WorkerMessage.error error none (some batchId))) s.promises = none ∧
    (handleWorkerMessage (generateBulkHashes s (some items) (some algorithm) options batchId).1
        now (WorkerMessage.error error none (some batchId))).onError =
      some (ErrorCallback.bulk batchId s.promises) ∧
    (handleWorkerMessage (generateBulkHashes s (some items) (some algorithm) options batchId).1
        now (WorkerMessage.error error none (some batchId))).onBulkHash =
      (generateBulkHashes s (some items) (some algorithm) options batchId).1.onBulkHash := by
  have e := generateBulkHashes_state s items algorithm options batchId hi ha hw
  have hcb : (generateBulkHashes s (some items) (some algorithm) options batchId).1.onError =
      some (ErrorCallback.bulk batchId s.promises) := by rw [e]
  have hset : (generateBulkHashes s (some items) (some algorithm) options batchId).1.settlements =
      s.settlements := by rw [e]
  obtain ⟨h1, h2, h3⟩ := error_with_bulk_callback _ batchId s.promises now error none
    (some batchId) hcb
  refine ⟨by rw [e], hcb, ?_, by rw [h2, hcb], h3⟩
  simp only [promiseState]
  rw [h1, hset]
  exact find_fresh _ _ (WF_fresh s hs)

/-- Witness of `bulk_error_not_rejected`: a bulk request for one item on a
new engine with four workers, and the error 'boom'. -/
theorem bulk_error_not_rejected_witness :
    (["a"] ≠ [] ∧ "md5" ≠ "" ∧ 0 < (Engine.new 4 0).numWorkers ∧ (Engine.new 4 0).WF) ∧
    promiseState
      (handleWorkerMessage (generateBulkHashes (Engine.new 4 0) (some ["a"]) (some "md5") {}
          "17abcde").1
        5 (WorkerMessage.error "boom" none (some "17abcde"))) (Engine.new 4 0).promises = none :=
  ⟨⟨by decide, by decide, by decide, fun e he => by cases he⟩,
   (bulk_error_not_rejected (Engine.new 4 0) ["a"] "md5" {} "17abcde" "boom" 5 (by decide)
     (by decide) (by decide) (fun e he => by cases he)).2.2.1⟩

/-- Settling a created promise keeps the promise log well formed. -/
theorem WF_settle (s : Engine) (p : Nat) (v : Settlement) (hs : s.WF) (hp : p < s.promises) :
    (settle s p v).WF := by
  unfold settle
  split_ifs
  · exact hs
  · intro e he
    simp only [List.mem_append, List.mem_singleton] at he
    rcases he with he | rfl
    · exact hs e he
    · exact hp

/-- Settling a created promise keeps the invariant. -/
theorem Inv_settle (s : Engine) (p : Nat) (v : Settlement) (h : s.Inv) (hp : p < s.promises) :
    (settle s p v).Inv := by
  obtain ⟨h0, h1, h2, h3, h4⟩ := h
  refine ⟨WF_settle s p v h0 hp, ?_, ?_, ?_, ?_⟩
  · simpa using h1
  · simpa using h2
  · simpa using h3
  · simpa using h4

/-- The statistics update keeps the invariant. -/
theorem Inv_updateHashRate (s : Engine) (now : Int) (h : s.Inv) : (updateHashRate s now).Inv := by
  unfold Engine.Inv Engine.WF at *
  simpa using h

/-- A new engine satisfies the invariant. -/
theorem Inv_new (numWorkers : Nat) (now : Int) : (Engine.new numWorkers now).Inv := by
  refine ⟨fun e he => (by cases he), ?_, ?_, ?_, ?_⟩ <;> intro _ <;> simp [Engine.new]

/-- The invariant depends on the promise counter, the promise log and the
callbacks only, and a state with fewer callbacks keeps it. -/
theorem Inv_of_le (s t : Engine) (h : s.Inv) (hp : t.promises = s.promises)
    (hl : t.settlements = s.settlements)
    (h1 : t.onHash = none ∨ t.onHash = s.onHash)
    (h2 : t.onBulkHash = none ∨ t.onBulkHash = s.onBulkHash)
    (h3 : t.onError = none ∨ t.onError = s.onError) : t.Inv := by
  obtain ⟨g0, g1, g2, g3, g4⟩ := h
  refine ⟨?_, ?_, ?_, ?_, ?_⟩
  · intro e he
    rw [hl] at he
    rw [hp]
    exact g0 e he
  · intro cb hcb
    rcases h1 with h1 | h1
    · rw [h1] at hcb; cases hcb
    · rw [hp]; exact g1 cb (h1 ▸ hcb)
  · intro cb hcb
    rcases h2 with h2 | h2
    · rw [h2] at hcb; cases hcb
    · rw [hp]; exact g2 cb (h2 ▸ hcb)
  · intro id p hcb
    rcases h3 with h3 | h3
    · rw [h3] at hcb; cases hcb
    · rw [hp]; exact g3 id p (h3 ▸ hcb)
  · intro id p hcb
    rcases h3 with h3 | h3
    · rw [h3] at hcb; cases hcb
    · rw [hp]; exact g4 id p (h3 ▸ hcb)

/-- The method `handleWorkerMessage` keeps the invariant. -/
theorem Inv_handleWorkerMessage (s : Engine) (now : Int) (data : WorkerMessage) (h : s.Inv) :
    (handleWorkerMessage s now data).Inv := by
  cases data with
  | result hash id =>
    have h1 : (updateHashRate { s with hashesGenerated := s.hashesGenerated + 1 } now).Inv :=
      Inv_updateHashRate _ now (Inv_of_le s _ h rfl rfl (Or.inr rfl) (Or.inr rfl) (Or.inr rfl))
    simp only [handleWorkerMessage]
    split
    · rename_i cb hcb
      simp only [HashCallback.call]
      split_ifs
      · apply Inv_settle
        · exact Inv_of_le _ _ h1 rfl rfl (Or.inl rfl) (Or.inr rfl) (Or.inl rfl)
        · exact h1.2.1 cb hcb
      · exact h1
    · exact h1
  | bulk_result results batchId =>
    have h1 : (updateHashRate
        { s with hashesGenerated := s.hashesGenerated + results.length } now).Inv :=
      Inv_updateHashRate _ now (Inv_of_le s _ h rfl rfl (Or.inr rfl) (Or.inr rfl) (Or.inr rfl))
    simp only [handleWorkerMessage]
    split
    · rename_i cb hcb
      simp only [BulkCallback.call]
      split_ifs
      · apply Inv_settle
        · exact Inv_of_le _ _ h1 rfl rfl (Or.inr rfl) (Or.inl rfl) (Or.inl rfl)
        · exact h1.2.2.1 cb hcb
      · obtain ⟨g0, g1, g2, g3, g4⟩ := h1
        refine ⟨g0, g1, ?_, g3, g4⟩
        intro cb' hcb'
        simp only [Option.some.injEq] at hcb'
        subst hcb'
        exact g2 cb hcb
      · exact h1
    · exact h1
  | error error id tag =>
    have h1 : ({ s with errorLog := s.errorLog ++ ["Hash generation error: " ++ error] } :
        Engine).Inv :=
      Inv_of_le s _ h rfl rfl (Or.inr rfl) (Or.inr rfl) (Or.inr rfl)
    simp only [handleWorkerMessage]
    split
    · rename_i cb hcb
      cases cb with
      | single id' p =>
        simp only [ErrorCallback.call]
        split_ifs
        · apply Inv_settle
          · exact Inv_of_le _ _ h1 rfl rfl (Or.inl rfl) (Or.inr rfl) (Or.inl rfl)
          · exact h1.2.2.2.1 id' p hcb
        · exact h1
      | bulk b p =>
        have hb : ¬ ((none : Option String) = some b) := by simp
        simp only [ErrorCallback.call, hb, if_false]
        exact h1
    · exact h1

/-- The method `generateHash` keeps the invariant. -/
theorem Inv_generateHash (s : Engine) (text algorithm : Option String) (options : HashOptions)
    (id : String) (h : s.Inv) : (generateHash s text algorithm options id).1.Inv := by
  unfold generateHash
  split_ifs with h0
  · exact h
  dsimp only
  split_ifs with hw
  · obtain ⟨g0, g1, g2, g3, g4⟩ := h
    apply Inv_settle
    · refine ⟨fun e he => Nat.lt_succ_of_lt (g0 e he), ?_, ?_, ?_, ?_⟩
      · intro cb hcb
        simp only [Option.some.injEq] at hcb
        subst hcb
        exact Nat.lt_succ_self _
      · intro cb hcb
        exact Nat.lt_succ_of_lt (g2 cb hcb)
      · intro id' p hcb
        simp only [Option.some.injEq, ErrorCallback.single.injEq] at hcb
        rw [← hcb.2]
        exact Nat.lt_succ_self _
      · intro b p hcb
        simp at hcb
    · exact Nat.lt_succ_self _
  · obtain ⟨g0, g1, g2, g3, g4⟩ := h
    refine ⟨fun e he => Nat.lt_succ_of_lt (g0 e he), ?_, ?_, ?_, ?_⟩
    · intro cb hcb
      simp only [Option.some.injEq] at hcb
      subst hcb
      exact Nat.lt_succ_self _
    · intro cb hcb
      exact Nat.lt_succ_of_lt (g2 cb hcb)
    · intro id' p hcb
      simp only [Option.some.injEq, ErrorCallback.single.injEq] at hcb
      rw [← hcb.2]
      exact Nat.lt_succ_self _
    · intro b p hcb
      simp at hcb

/-- The method `generateBulkHashes` keeps the invariant. -/
theorem Inv_generateBulkHashes (s : Engine) (items : Option (List String))
    (algorithm : Option String) (options : HashOptions) (batchId : String) (h : s.Inv) :
    (generateBulkHashes s items algorithm options batchId).1.Inv := by
  unfold generateBulkHashes
  split_ifs with h0
  · exact h
  dsimp only
  split_ifs with hw
  · obtain ⟨g0, g1, g2, g3, g4⟩ := h
    apply Inv_settle
    · refine ⟨fun e he => Nat.lt_succ_of_lt (g0 e he), ?_, ?_, ?_, ?_⟩
      · intro cb hcb
        exact Nat.lt_succ_of_lt (g1 cb hcb)
      · intro cb hcb
        simp only [Option.some.injEq] at hcb
        subst hcb
        exact Nat.lt_succ_self _
      · intro id' p hcb
        simp at hcb
      · intro b p hcb
        simp only [Option.some.injEq, ErrorCallback.bulk.injEq] at hcb
        rw [← hcb.2]
        exact Nat.lt_succ_self _
    · exact Nat.lt_succ_self _
  · obtain ⟨g0, g1, g2, g3, g4⟩ := h
    refine ⟨fun e he => Nat.lt_succ_of_lt (g0 e he), ?_, ?_, ?_, ?_⟩
    · intro cb hcb
      exact Nat.lt_succ_of_lt (g1 cb hcb)
    · intro cb hcb
      simp only [Option.some.injEq] at hcb
      subst hcb
      exact Nat.lt_succ_self _
    · intro id' p hcb
      simp at hcb
    · intro b p hcb
      simp only [Option.some.injEq, ErrorCallback.bulk.injEq] at hcb
      rw [← hcb.2]
      exact Nat.lt_succ_self _

/-- The whole-string match is the run that must end at the end of the string. -/
theorem rxMatch_eq_run (items : List RxItem) :
    rxMatch items = rxRun items (fun s => s.isEmpty) := rfl

/-- A run of a pattern splits the string: a prefix the pattern matches and a
rest the continuation accepts. -/
theorem rxRun_iff (items : List RxItem) (k : List Char → Bool) : ∀ s : List Char,
    rxRun items k s = true ↔
      ∃ s₁ s₂, s = s₁ ++ s₂ ∧ rxMatch items s₁ = true ∧ k s₂ = true := by
  induction items with
  | nil =>
    intro s
    constructor
    · intro h
      exact ⟨[], s, rfl, rfl, h⟩
    · rintro ⟨s₁, s₂, rfl, h₁, h₂⟩
      rw [rxMatch_nil, List.isEmpty_iff] at h₁
      subst h₁
      exact h₂
  | cons it rest ih =>
    intro s
    have hrun : rxRun (it :: rest) k s = rxRep it.cls (rxRun rest k) s it.lo it.hi := rfl
    rw [hrun, rxRep_iff]
    constructor
    · rintro ⟨n, hn, hlo, hhi, hall, hk⟩
      obtain ⟨t₁, t₂, ht, h₁, h₂⟩ := (ih _).mp hk
      refine ⟨s.take n ++ t₁, t₂, ?_, ?_, h₂⟩
      · rw [List.append_assoc, ← ht, List.take_append_drop]
      · rw [rxMatch_cons, rxRep_iff]
        have hlen : (s.take n).length = n := by simp [List.length_take, hn]
        refine ⟨n, by simp [hn], hlo, hhi, ?_, ?_⟩
        · rw [List.take_append_of_le_length (by omega), List.take_of_length_le (by omega)]
          exact hall
        · rw [List.drop_append_of_le_length (by omega), List.drop_of_length_le (by omega)]
          simpa using h₁
    · rintro ⟨s₁, s₂, rfl, h₁, h₂⟩
      rw [rxMatch_cons, rxRep_iff] at h₁
      obtain ⟨n, hn, hlo, hhi, hall, hk⟩ := h₁
      refine ⟨n, by simp; omega, hlo, hhi, ?_, ?_⟩
      · rw [List.take_append_of_le_length hn]
        exact hall
      · rw [List.drop_append_of_le_length hn]
        exact (ih _).mpr ⟨s₁.drop n, s₂, rfl, hk, h₂⟩

/-- Matching a concatenation of patterns splits the string in two. -/
theorem rxMatch_append (i₁ i₂ : List RxItem) (s : List Char) :
    rxMatch (i₁ ++ i₂) s = true ↔
      ∃ s₁ s₂, s = s₁ ++ s₂ ∧ rxMatch i₁ s₁ = true ∧ rxMatch i₂ s₂ = true := by
  have h : rxMatch (i₁ ++ i₂) s = rxRun i₁ (rxMatch i₂) s := by
    simp only [rxMatch, rxRun, List.foldr_append]
    rfl
  rw [h, rxRun_iff]

/-- A pattern of one element matches the strings of its class whose length
is within the bounds. -/
theorem rxMatch_single (p : Char → Bool) (lo : Nat) (hi : Option Nat) (s : List Char) :
    rxMatch [⟨p, lo, hi⟩] s = true ↔
      lo ≤ s.length ∧ (∀ h, hi = some h → s.length ≤ h) ∧ ∀ c ∈ s, p c = true := by
  rw [rxMatch_cons, rxRep_iff]
  constructor
  · rintro ⟨n, hn, hlo, hhi, hall, hk⟩
    rw [rxMatch_nil, List.isEmpty_iff] at hk
    have hlen : s.length ≤ n := by
      have := congrArg List.length hk
      simp only [List.length_drop, List.length_nil] at this
      omega
    have hn' : n = s.length := by omega
    subst hn'
    rw [List.take_length] at hall
    exact ⟨hlo, hhi, hall⟩
  · rintro ⟨hlo, hhi, hall⟩
    exact ⟨s.length, le_refl _, hlo, hhi, by rw [List.take_length]; exact hall, by simp [rxMatch_nil]⟩

/-- Trimming leaves a string without white space alone. -/
theorem jsTrim_of_no_ws (s : List Char) (h : ∀ c ∈ s, jsIsWhiteSpace c.toNat = false) :
    jsTrim s = s := by
  cases s with
  | nil => rfl
  | cons c t =>
    by_cases ht : t = []
    · subst ht
      have hc := h c (List.mem_cons_self _ _)
      simp [jsTrim, hc]
    · have := List.dropLast_append_getLast ht
      rw [← this]
      apply jsTrim_eq_self
      · exact h c (List.mem_cons_self _ _)
      · exact h _ (List.mem_cons_of_mem _ (List.getLast_mem ht))

/-- The upper-cased hex rendering, octet by octet. -/
theorem toUpperCase_hex (bytes : List Byte) :
    (toUpperCase (encHexStringify bytes)).toList =
      bytes.flatMap fun b => [(hexDigit (b.val / 16)).toUpper, (hexDigit (b.val % 16)).toUpper] := by
  simp only [toUpperCase, encHexStringify, String.toList]
  induction bytes with
  | nil => rfl
  | cons b bs ih => simp only [List.flatMap_cons, List.map_append, ih]; rfl

/-- An upper-cased hex digit is one of `0-9A-F`: it is in the class
`[a-f0-9]` under the `i` flag, is neither white space nor `$`, and
upper-casing leaves it alone. -/
theorem upper_hexDigit (n : Nat) :
    (hexDigit n).toUpper ∈ "0123456789ABCDEF".toList ∧ hexI (hexDigit n).toUpper = true ∧
      jsIsWhiteSpace (hexDigit n).toUpper.toNat = false ∧ (hexDigit n).toUpper ≠ '$' ∧
      (hexDigit n).toUpper.toUpper = (hexDigit n).toUpper := by
  by_cases h : n < 16
  · interval_cases n <;> decide
  · have : "0123456789abcdef".toList.length ≤ n := by
      have : "0123456789abcdef".toList.length = 16 := by decide
      omega
    unfold hexDigit
    rw [List.getD_eq_default _ _ this]
    decide

/-- Every character of an upper-cased hex rendering is an upper-cased hex
digit. -/
theorem mem_toUpperCase_hex (bytes : List Byte) (c : Char)
    (hc : c ∈ (toUpperCase (encHexStringify bytes)).toList) :
    ∃ n, c = (hexDigit n).toUpper := by
  rw [toUpperCase_hex, List.mem_flatMap] at hc
  obtain ⟨b, -, hb⟩ := hc
  simp only [List.mem_cons, List.mem_singleton, List.not_mem_nil, or_false] at hb
  rcases hb with rfl | rfl
  · exact ⟨_, rfl⟩
  · exact ⟨_, rfl⟩

/-- The upper-cased hex rendering has two characters per octet. -/
theorem toUpperCase_hex_length (bytes : List Byte) :
    (toUpperCase (encHexStringify bytes)).toList.length = 2 * bytes.length := by
  have := encHexStringify_length bytes
  simpa [toUpperCase, String.toList] using this

/-- Upper-casing an upper-cased hex rendering behind a `*` changes nothing. -/
theorem toUpperCase_star_hex (bytes : List Byte) :
    toUpperCase ("*" ++ toUpperCase (encHexStringify bytes)) =
      "*" ++ toUpperCase (encHexStringify bytes) := by
  apply String.ext
  have h : (toUpperCase (encHexStringify bytes)).toList.map Char.toUpper =
      (toUpperCase (encHexStringify bytes)).toList := by
    rw [List.map_congr_left (g := id), List.map_id]
    intro c hc
    obtain ⟨n, rfl⟩ := mem_toUpperCase_hex bytes c hc
    exact (upper_hexDigit n).2.2.2.2
  simp only [String.toList] at h
  simp only [toUpperCase, String.data_append, List.map_append, String.toList] at h ⊢
  rw [h]
  rfl

/-- A `*` followed by an upper-cased hex rendering contains no `$`. -/
theorem includesDollar_star_hex (bytes : List Byte) :
    includesDollar ("*" ++ toUpperCase (encHexStringify bytes)) = false := by
  have h : '$' ∉ (toUpperCase (encHexStringify bytes)).toList := by
    intro hc
    obtain ⟨n, hn⟩ := mem_toUpperCase_hex bytes _ hc
    exact (upper_hexDigit n).2.2.2.1 hn.symm
  simp only [String.toList] at h
  simp [includesDollar, h]

/-- The output of the `mysql-sha1` branch under the hex output format. -/
theorem mysql_sha1_output (C : CryptoJS) (rnd : Nat → Byte) (text : String)
    (options : HashOptions) (ht : text ≠ "") (hf : orStr options.outputFormat "hex" = "hex") :
    Worker.generateHash C rnd text "mysql-sha1" options =
      "*" ++ toUpperCase (encHexStringify
        (digest 20 (C.SHA1 ⟨digest 20 (C.SHA1 (encUtf8Parse text)), none⟩))) := by
  unfold Worker.generateHash
  simp only [ht, if_false, hf]
  simp [includesDollar_star_hex, toUpperCase_star_hex]

/-- C13: for every non-empty text, under the hex output format and whatever
the uppercase flag (and the other options), the worker's `generateHash` for
'mysql-sha1' returns `*` followed by the upper-cased hex of SHA1(SHA1(text)),
40 characters of `0-9A-F`, and `detectHashType` classifies that string as
MySQL-SHA1 with confidence 95. -/
theorem mysql_sha1_detected (C : CryptoJS) (rnd : Nat → Byte) (text : String)
    (options : HashOptions) (ht : text ≠ "") (hf : orStr options.outputFormat "hex" = "hex") :
    Worker.generateHash C rnd text "mysql-sha1" options =
      "*" ++ toUpperCase (encHexStringify
        (digest 20 (C.SHA1 ⟨digest 20 (C.SHA1 (encUtf8Parse text)), none⟩))) ∧
    (toUpperCase (encHexStringify
        (digest 20 (C.SHA1 ⟨digest 20 (C.SHA1 (encUtf8Parse text)), none⟩)))).toList.length
      = 40 ∧
    (∀ c ∈ (toUpperCase (encHexStringify
        (digest 20 (C.SHA1 ⟨digest 20 (C.SHA1 (encUtf8Parse text)), none⟩)))).toList,
      c ∈ "0123456789ABCDEF".toList) ∧
    detectHashType (some (Worker.generateHash C rnd text "mysql-sha1" options)) =
      ⟨"MySQL-SHA1", 95⟩ := by
  have hout := mysql_sha1_output C rnd text options ht hf
  generalize hU : toUpperCase (encHexStringify
    (digest 20 (C.SHA1 ⟨digest 20 (C.SHA1 (encUtf8Parse text)), none⟩))) = U at hout
  have hlen : U.toList.length = 40 := by
    rw [← hU, toUpperCase_hex_length, digest_length]
  have hmem : ∀ c ∈ U.toList, ∃ n, c = (hexDigit n).toUpper := by
    intro c hc
    rw [← hU] at hc
    exact mem_toUpperCase_hex _ c hc
  refine ⟨hout, hlen, ?_, ?_⟩
  · intro c hc
    obtain ⟨n, rfl⟩ := hmem c hc
    exact (upper_hexDigit n).1
  · rw [hout]
    have hne : "*" ++ U ≠ "" := by
      intro h
      have := congrArg String.toList h
      simp [String.toList] at this
    have hlist : ("*" ++ U).toList = '*' :: U.toList := by
      simp [String.toList]
    have htrim : jsTrim ('*' :: U.toList) = '*' :: U.toList := by
      apply jsTrim_of_no_ws
      intro c hc
      rcases List.mem_cons.mp hc with rfl | hc
      · decide
      · obtain ⟨n, rfl⟩ := hmem c hc
        exact (upper_hexDigit n).2.2.1
    unfold detectHashType
    simp only [hne, if_false, hlist, htrim]
    have r1 : rxMatch (rxHex 32) ('*' :: U.toList) = false := rfl
    have r2 : rxMatch (rxHex 40) ('*' :: U.toList) = false := rfl
    have r3 : rxMatch (rxHex 64) ('*' :: U.toList) = false := rfl
    have r4 : rxMatch (rxHex 128) ('*' :: U.toList) = false := rfl
    have r5 : rxMatch (rxHex 56) ('*' :: U.toList) = false := rfl
    have r6 : rxMatch (rxHex 96) ('*' :: U.toList) = false := rfl
    have r7 : rxMatch rxMySQL ('*' :: U.toList) = true := by
      have : rxMySQL = lit "*" ++ times hexI 40 := rfl
      rw [this, rxMatch_append]
      refine ⟨['*'], U.toList, rfl, rfl, ?_⟩
      rw [times, rxMatch_single]
      refine ⟨by omega, fun h hh => by simp at hh; omega, ?_⟩
      intro c hc
      obtain ⟨n, rfl⟩ := hmem c hc
      exact (upper_hexDigit n).2.1
    simp only [r1, r2, r3, r4, r5, r6, r7]
    rfl

/-- Witness of `mysql_sha1_detected`: text 'a' with the uppercase flag set. -/
theorem mysql_sha1_detected_witness :
    ("a" ≠ "" ∧ orStr (some "hex") "hex" = "hex") ∧
    detectHashType (some (Worker.generateHash zeroCrypto (fun _ => 0) "a" "mysql-sha1"
      { outputFormat := some "hex", uppercase := some true })) = ⟨"MySQL-SHA1", 95⟩ :=
  ⟨⟨by decide, by decide⟩,
   (mysql_sha1_detected zeroCrypto (fun _ => 0) "a"
     { outputFormat := some "hex", uppercase := some true } (by decide) (by decide)).2.2.2⟩

/-- On a non-empty input the detector answers Unknown exactly when no rule
matches the trimmed input, and otherwise a family with confidence 90 or 95. -/
theorem detect_some (h : String) (hne : h ≠ "") :
    (detectHashType (some h) = ⟨"Unknown", 0⟩ ↔ anyRuleMatches (jsTrim h.toList) = false) ∧
    (detectHashType (some h) ≠ ⟨"Unknown", 0⟩ →
      (detectHashType (some h)).type ∈ families ∧
        ((detectHashType (some h)).confidence = 90 ∨
          (detectHashType (some h)).confidence = 95)) := by
  unfold detectHashType anyRuleMatches
  simp only [hne, if_false]
  generalize jsTrim h.toList = T
  generalize rxMatch (rxHex 32) T = b1
  generalize rxMatch (rxHex 40) T = b2
  generalize rxMatch (rxHex 64) T = b3
  generalize rxMatch (rxHex 128) T = b4
  generalize rxMatch (rxHex 56) T = b5
  generalize rxMatch (rxHex 96) T = b6
  generalize rxMatch rxMySQL T = b7
  generalize rxMatch rxMD5Crypt T = b8
  generalize rxMatch rxBcrypt T = b9
  generalize rxMatch rxSHA256Crypt T = b10
  generalize rxMatch rxSHA512Crypt T = b11
  generalize testPBKDF2 T = b12
  generalize rxMatch rxArgon2 T = b13
  generalize rxMatch rxScrypt T = b14
  generalize rxMatch rxYescrypt T = b15
  generalize rxMatch rxNetNTLMv2 T = b16
  generalize rxMatch rxWPA T = b17
  revert b1 b2 b3 b4 b5 b6 b7 b8 b9 b10 b11 b12 b13 b14 b15 b16 b17
  iterate 17
    intro b
    cases b
    swap
    · intros
      simp [families]
    simp only [Bool.false_eq_true, if_false, Bool.false_or]
  simp

/-- C14: `detectHashType` returns a result for every input (absent, empty
and white-space-only input included).  The result is Unknown with confidence
0 exactly when the input is absent or its trimmed form is empty or matches
none of the pattern rules; every other result is a named family with
confidence 90 or 95, so within 0..100. -/
theorem detectHashType_unknown_iff (hash : Option String) :
    (detectHashType hash = ⟨"Unknown", 0⟩ ↔
      (hash = none ∨ ∃ h, hash = some h ∧
        (jsTrim h.toList = [] ∨ anyRuleMatches (jsTrim h.toList) = false))) ∧
    (detectHashType hash ≠ ⟨"Unknown", 0⟩ →
      (detectHashType hash).type ∈ families ∧
        ((detectHashType hash).confidence = 90 ∨ (detectHashType hash).confidence = 95) ∧
        (detectHashType hash).confidence ≤ 100) := by
  cases hash with
  | none => simp [detectHashType]
  | some h =>
    by_cases hne : h = ""
    · subst hne
      have : jsTrim "".toList = [] := rfl
      simp only [detectHashType, if_true, true_iff, ne_eq, not_true_eq_false, false_implies,
        and_true]
      exact Or.inr ⟨"", rfl, Or.inl this⟩
    · obtain ⟨h1, h2⟩ := detect_some h hne
      constructor
      · rw [h1]
        constructor
        · intro hm
          exact Or.inr ⟨h, rfl, Or.inr hm⟩
        · rintro (hc | ⟨h', hh, ht | hm⟩)
          · cases hc
          · cases hh
            rw [ht]
            rfl
          · cases hh
            exact hm
      · intro hu
        obtain ⟨a, b⟩ := h2 hu
        refine ⟨a, b, ?_⟩
        rcases b with b | b <;> omega

/-- Every hexadecimal digit of either case is in the class `[a-f0-9]` under
the ignore-case flag. -/
theorem hexI_of_mem : ∀ c ∈ "0123456789abcdefABCDEF".toList, hexI c = true := by
  decide

/-- The first rule accepts every string of 32 hexadecimal digits. -/
theorem rxHex32_of_hex (T : List Char) (hl : T.length = 32)
    (hc : ∀ c ∈ T, c ∈ "0123456789abcdefABCDEF".toList) : rxMatch (rxHex 32) T = true := by
  have : rxHex 32 = [⟨hexI, 32, some 32⟩] := rfl
  rw [this, rxMatch_single]
  refine ⟨by omega, ?_, fun c hcm => hexI_of_mem c (hc c hcm)⟩
  intro k hk
  cases hk
  omega

/-- The type NTLM is never returned. -/
theorem detect_ne_ntlm (hash : Option String) : (detectHashType hash).type ≠ "NTLM" := by
  cases hash with
  | none => simp [detectHashType]
  | some h =>
    unfold detectHashType
    dsimp only
    by_cases hne : h = ""
    · rw [if_pos hne]
      decide
    rw [if_neg hne]
    generalize jsTrim h.toList = T
    generalize rxMatch (rxHex 32) T = b1
    generalize rxMatch (rxHex 40) T = b2
    generalize rxMatch (rxHex 64) T = b3
    generalize rxMatch (rxHex 128) T = b4
    generalize rxMatch (rxHex 56) T = b5
    generalize rxMatch (rxHex 96) T = b6
    generalize rxMatch rxMySQL T = b7
    generalize rxMatch rxMD5Crypt T = b8
    generalize rxMatch rxBcrypt T = b9
    generalize rxMatch rxSHA256Crypt T = b10
    generalize rxMatch rxSHA512Crypt T = b11
    generalize testPBKDF2 T = b12
    generalize rxMatch rxArgon2 T = b13
    generalize rxMatch rxScrypt T = b14
    generalize rxMatch rxYescrypt T = b15
    generalize rxMatch rxNetNTLMv2 T = b16
    generalize rxMatch rxWPA T = b17
    revert b1 b2 b3 b4 b5 b6 b7 b8 b9 b10 b11 b12 b13 b14 b15 b16 b17
    iterate 17
      intro b
      cases b
      swap
      · intros
        rw [if_pos rfl]
        decide
      simp only [Bool.false_eq_true, if_false]
    decide

/-- C15: `detectHashType` never returns the type NTLM, and every string whose
trimmed form is exactly 32 hexadecimal characters of either case is
classified as MD5 with confidence 90. -/
theorem ntlm_unreachable :
    (∀ hash : Option String, (detectHashType hash).type ≠ "NTLM") ∧
    (∀ h : String, (jsTrim h.toList).length = 32 →
      (∀ c ∈ jsTrim h.toList, c ∈ "0123456789abcdefABCDEF".toList) →
      detectHashType (some h) = ⟨"MD5", 90⟩) := by
  refine ⟨detect_ne_ntlm, ?_⟩
  intro h hl hc
  have hne : h ≠ "" := by
    rintro rfl
    have : jsTrim "".toList = [] := rfl
    rw [this] at hl
    cases hl
  have hm := rxHex32_of_hex _ hl hc
  unfold detectHashType
  simp only [hne, if_false, hm, if_true]

/-- A hex digit is one of `0-9a-f`: it is in the class `[a-f0-9]`, is neither
white space nor `$` (also under the `i` flag). -/
theorem hexDigit_props (n : Nat) :
    hexDigit n ∈ "0123456789abcdef".toList ∧ hexI (hexDigit n) = true ∧
      jsIsWhiteSpace (hexDigit n).toNat = false ∧ ci (chr '$') (hexDigit n) = false := by
  by_cases h : n < 16
  · interval_cases n <;> decide
  · have : "0123456789abcdef".toList.length ≤ n := by
      have : "0123456789abcdef".toList.length = 16 := by decide
      omega
    unfold hexDigit
    rw [List.getD_eq_default _ _ this]
    decide

/-- Every character of a hex rendering is a hex digit. -/
theorem mem_hex (bytes : List Byte) (c : Char) (hc : c ∈ (encHexStringify bytes).toList) :
    ∃ n, c = hexDigit n := by
  simp only [encHexStringify, String.toList, List.mem_flatMap, List.mem_cons, List.mem_singleton,
    List.not_mem_nil, or_false] at hc
  obtain ⟨b, -, hb⟩ := hc
  rcases hb with rfl | rfl
  · exact ⟨_, rfl⟩
  · exact ⟨_, rfl⟩

/-- A pattern that ends in one character of a class `q` followed by exactly
`n` characters does not match a string whose last `n + 1` characters are all
outside `q`. -/
theorem rxMatch_tail_false (pre : List RxItem) (q p : Char → Bool) (n : Nat) (s H : List Char)
    (hH : n < H.length) (hq : ∀ c ∈ H, q c = false) :
    rxMatch (pre ++ [⟨q, 1, some 1⟩] ++ times p n) (s ++ H) = false := by
  apply Bool.eq_false_iff.mpr
  intro hm
  obtain ⟨s₁, s₂, hs, h1, h2⟩ := (rxMatch_append _ _ _).mp hm
  obtain ⟨a, b, hab, -, hb⟩ := (rxMatch_append _ _ _).mp h1
  obtain ⟨hb1, hb2, hb3⟩ := (rxMatch_single _ _ _ _).mp hb
  obtain ⟨h21, h22, -⟩ := (rxMatch_single _ _ _ _).mp h2
  have hb2 := hb2 1 rfl
  have h22 := h22 n rfl
  obtain ⟨c, rfl⟩ : ∃ c, b = [c] := by
    match b, hb1, hb2 with
    | [c], _, _ => exact ⟨c, rfl⟩
    | [], h, _ => simp at h
    | _ :: _ :: _, _, h => simp at h
  have hqc : q c = true := hb3 c (by simp)
  subst hab
  rcases List.append_eq_append_iff.mp hs with ⟨t, ht1, ht2⟩ | ⟨t, ht1, ht2⟩
  · -- the pattern's split point lies behind the start of `H`
    have hlen := congrArg List.length ht2
    simp only [List.length_append] at hlen
    have htne : t ≠ [] := by
      intro h
      subst h
      simp at hlen
      omega
    have hc : c ∈ t := by
      have e : (a ++ [c]).getLast? = (s ++ t).getLast? := by rw [ht1]
      rw [List.getLast?_append_of_ne_nil _ htne] at e
      simp at e
      exact List.mem_of_getLast?_eq_some e.symm
    have : c ∈ H := by
      rw [ht2]
      exact List.mem_append_left _ hc
    rw [hq c this] at hqc
    exact Bool.noConfusion hqc
  · have hlen := congrArg List.length ht2
    simp only [List.length_append] at hlen
    omega

/-- A string `$k$<salt>$<hex>` with `k` one of 1, 5, 6 and more hex digits
than the crypt pattern of `k` admits is classified as Unknown. -/
theorem detect_crypt_like (out : String) (k : Char) (S H : List Char)
    (hout : out.toList = '$' :: k :: '$' :: (S ++ '$' :: H))
    (hk : k = '1' ∨ k = '5' ∨ k = '6') (hH : ∀ c ∈ H, ∃ n, c = hexDigit n)
    (hlen : 86 < H.length ∨ (k = '1' ∧ 22 < H.length) ∨ (k = '5' ∧ 43 < H.length)) :
    detectHashType (some out) = ⟨"Unknown", 0⟩ := by
  have hne : out ≠ "" := by
    intro h
    rw [h] at hout
    exact List.noConfusion hout
  have hHne : H ≠ [] := by
    intro h
    subst h
    simp at hlen
  have hq : ∀ c ∈ H, ci (chr '$') c = false := by
    intro c hc
    obtain ⟨n, rfl⟩ := hH c hc
    exact (hexDigit_props n).2.2.2
  have hform : out.toList = '$' :: ((k :: '$' :: (S ++ '$' :: H.dropLast)) ++ [H.getLast hHne]) := by
    rw [hout]
    conv_lhs => rw [← List.dropLast_append_getLast hHne]
    simp
  have hd : jsIsWhiteSpace (H.getLast hHne).toNat = false := by
    obtain ⟨n, hn⟩ := hH _ (List.getLast_mem hHne)
    rw [hn]
    exact (hexDigit_props n).2.2.1
  have htrim : jsTrim out.toList = '$' :: k :: ('$' :: (S ++ '$' :: H)) := by
    rw [hform, jsTrim_eq_self _ _ _ (by decide) hd, ← hform, hout]
  have hsplit : ('$' :: k :: ('$' :: (S ++ '$' :: H))) = ('$' :: k :: '$' :: (S ++ ['$'])) ++ H := by
    simp
  unfold detectHashType
  simp only [hne, if_false, htrim]
  have rk : rxMatch rxMD5Crypt ('$' :: k :: ('$' :: (S ++ '$' :: H))) = false ∧
      rxMatch rxSHA256Crypt ('$' :: k :: ('$' :: (S ++ '$' :: H))) = false ∧
      rxMatch rxSHA512Crypt ('$' :: k :: ('$' :: (S ++ '$' :: H))) = false := by
    rcases hk with rfl | rfl | rfl
    · refine ⟨?_, rfl, rfl⟩
      rw [hsplit]
      refine rxMatch_tail_false (lit "$1$" ++ between cryptI 0 8) (ci (chr '$')) cryptI 22 _ H ?_ hq
      rcases hlen with h | ⟨-, h⟩ | ⟨h, -⟩
      · omega
      · exact h
      · exact absurd h (by decide)
    · refine ⟨rfl, ?_, rfl⟩
      rw [hsplit]
      refine rxMatch_tail_false (lit "$5$" ++ between cryptI 0 16) (ci (chr '$')) cryptI 43 _ H ?_ hq
      rcases hlen with h | ⟨h, -⟩ | ⟨-, h⟩
      · omega
      · exact absurd h (by decide)
      · exact h
    · refine ⟨rfl, rfl, ?_⟩
      rw [hsplit]
      refine rxMatch_tail_false (lit "$6$" ++ between cryptI 0 16) (ci (chr '$')) cryptI 86 _ H ?_ hq
      rcases hlen with h | ⟨h, -⟩ | ⟨h, -⟩
      · exact h
      · exact absurd h (by decide)
      · exact absurd h (by decide)
  obtain ⟨r8, r10, r11⟩ := rk
  generalize '$' :: (S ++ '$' :: H) = T at r8 r10 r11 ⊢
  have rest : rxMatch (rxHex 32) ('$' :: k :: T) = false ∧
      rxMatch (rxHex 40) ('$' :: k :: T) = false ∧
      rxMatch (rxHex 64) ('$' :: k :: T) = false ∧
      rxMatch (rxHex 128) ('$' :: k :: T) = false ∧
      rxMatch (rxHex 56) ('$' :: k :: T) = false ∧
      rxMatch (rxHex 96) ('$' :: k :: T) = false ∧
      rxMatch rxMySQL ('$' :: k :: T) = false ∧
      rxMatch rxBcrypt ('$' :: k :: T) = false ∧
      testPBKDF2 ('$' :: k :: T) = false ∧
      rxMatch rxArgon2 ('$' :: k :: T) = false ∧
      rxMatch rxScrypt ('$' :: k :: T) = false ∧
      rxMatch rxYescrypt ('$' :: k :: T) = false ∧
      rxMatch rxNetNTLMv2 ('$' :: k :: T) = false ∧
      rxMatch rxWPA ('$' :: k :: T) = false := by
    rcases hk with rfl | rfl | rfl <;>
      exact ⟨rfl, rfl, rfl, rfl, rfl, rfl, rfl, rfl, rfl, rfl, rfl, rfl, rfl, rfl⟩
  obtain ⟨r1, r2, r3, r4, r5, r6, r7, r9, r12, r13, r14, r15, r16, r17⟩ := rest
  simp only [r1, r2, r3, r4, r5, r6, r7, r8, r9, r10, r11, r12, r13, r14, r15, r16, r17]
  rfl

/-- The outputs of the three crypt branches. -/
theorem crypt_outputs (C : CryptoJS) (rnd : Nat → Byte) (text : String) (options : HashOptions)
    (ht : text ≠ "") :
    Worker.generateHash C rnd text "md5-crypt" options =
      "$1$" ++ saltToUse rnd options 8 ++ "$" ++ encHexStringify (digest 16
        (C.MD5 (encUtf8Parse (text ++ saltToUse rnd options 8 ++ text)))) ∧
    Worker.generateHash C rnd text "sha256-crypt" options =
      "$5$" ++ saltToUse rnd options 8 ++ "$" ++ encHexStringify (digest 32
        (C.PBKDF2 (encUtf8Parse text) (encUtf8Parse (saltToUse rnd options 8)) 8
          ((5000 : Int) : ℚ) Hasher.SHA256)) ∧
    Worker.generateHash C rnd text "sha512-crypt" options =
      "$6$" ++ saltToUse rnd options 8 ++ "$" ++ encHexStringify (digest 64
        (C.PBKDF2 (encUtf8Parse text) (encUtf8Parse (saltToUse rnd options 8)) 16
          ((5000 : Int) : ℚ) Hasher.SHA512)) := by
  have e : ∀ (m x y : String), includesDollar (m ++ x ++ "$" ++ y) = true := by
    intro m x y
    simp [includesDollar]
  refine ⟨?_, ?_, ?_⟩ <;>
  · unfold Worker.generateHash
    simp only [ht, if_false]
    simp [e, saltToUse]

/-- C12 (what the code does): for every text and every options value,
whatever the salt, `detectHashType` classifies the string the worker's
`generateHash` returns for 'md5-crypt', 'sha256-crypt' and 'sha512-crypt' as
Unknown with confidence 0, never as the crypt family: behind `$k$<salt>$` the
worker writes 32, 64 and 128 hex digits, where the crypt patterns want
exactly 22, 43 and 86 characters. -/
theorem crypt_outputs_not_detected (C : CryptoJS) (rnd : Nat → Byte) (text : String)
    (options : HashOptions) :
    detectHashType (some (Worker.generateHash C rnd text "md5-crypt" options)) = ⟨"Unknown", 0⟩ ∧
    detectHashType (some (Worker.generateHash C rnd text "sha256-crypt" options)) =
      ⟨"Unknown", 0⟩ ∧
    detectHashType (some (Worker.generateHash C rnd text "sha512-crypt" options)) =
      ⟨"Unknown", 0⟩ := by
  by_cases ht : text = ""
  · simp [Worker.generateHash, ht, detectHashType]
  · obtain ⟨h1, h5, h6⟩ := crypt_outputs C rnd text options ht
    have l1 := digest_length 16 (C.MD5 (encUtf8Parse (text ++ saltToUse rnd options 8 ++ text)))
    have l5 := digest_length 32 (C.PBKDF2 (encUtf8Parse text)
      (encUtf8Parse (saltToUse rnd options 8)) 8 ((5000 : Int) : ℚ) Hasher.SHA256)
    have l6 := digest_length 64 (C.PBKDF2 (encUtf8Parse text)
      (encUtf8Parse (saltToUse rnd options 8)) 16 ((5000 : Int) : ℚ) Hasher.SHA512)
    generalize digest 16 _ = D1 at h1 l1
    generalize digest 32 _ = D5 at h5 l5
    generalize digest 64 _ = D6 at h6 l6
    refine ⟨?_, ?_, ?_⟩
    · refine detect_crypt_like _ '1' (saltToUse rnd options 8).toList (encHexStringify D1).toList
        ?_ (Or.inl rfl) (mem_hex _) (Or.inr (Or.inl ⟨rfl, ?_⟩))
      · rw [h1]
        simp [String.toList, String.data_append]
      · rw [encHexStringify_length, l1]
        omega
    · refine detect_crypt_like _ '5' (saltToUse rnd options 8).toList (encHexStringify D5).toList
        ?_ (Or.inr (Or.inl rfl)) (mem_hex _) (Or.inr (Or.inr ⟨rfl, ?_⟩))
      · rw [h5]
        simp [String.toList, String.data_append]
      · rw [encHexStringify_length, l5]
        omega
    · refine detect_crypt_like _ '6' (saltToUse rnd options 8).toList (encHexStringify D6).toList
        ?_ (Or.inr (Or.inr rfl)) (mem_hex _) (Or.inl ?_)
      · rw [h6]
        simp [String.toList, String.data_append]
      · rw [encHexStringify_length, l6]
        omega

/-- C12 (the failing input, evaluated): with text "a" and the salt "abcdefgh"
drawn from the salt alphabet, the 'md5-crypt' output is `$1$abcdefgh$` and 32
hex digits, and it is classified as Unknown. -/
theorem md5_crypt_not_detected_example :
    Worker.generateHash zeroCrypto (fun _ => 0) "a" "md5-crypt" { salt := some "abcdefgh" } =
      "$1$abcdefgh$00000000000000000000000000000000" ∧
    detectHashType (some (Worker.generateHash zeroCrypto (fun _ => 0) "a" "md5-crypt"
      { salt := some "abcdefgh" })) = ⟨"Unknown", 0⟩ := by
  decide

/-- A pattern that starts with a single character of a class: the first
character is in the class and the rest of the pattern matches the rest. -/
theorem rxMatch_lit_cons (q : Char → Bool) (R : List RxItem) (x : Char) (T : List Char) :
    rxMatch (⟨q, 1, some 1⟩ :: R) (x :: T) = (q x && rxMatch R T) := by
  rw [rxMatch_cons]
  have h : ((some 1 : Option Nat) != some 0) = true := by decide
  cases T <;> simp [rxRep, h]

/-- A pattern that starts with a single character does not match the empty
string. -/
theorem rxMatch_lit_nil (q : Char → Bool) (R : List RxItem) :
    rxMatch (⟨q, 1, some 1⟩ :: R) [] = false := by
  rw [rxMatch_cons]
  simp [rxRep]

/-- Matching element by element: a string for the first element followed by
a string for the rest. -/
theorem rxMatch_cons_append (it : RxItem) (R : List RxItem) (s₁ s₂ : List Char)
    (h1 : rxMatch [it] s₁ = true) (h2 : rxMatch R s₂ = true) :
    rxMatch (it :: R) (s₁ ++ s₂) = true :=
  (rxMatch_append [it] R (s₁ ++ s₂)).mpr ⟨s₁, s₂, rfl, h1, h2⟩

/-- A field of characters of class `p` closed by a delimiter of class `q`:
when the string starts with characters in `p` and outside `q` followed by a
character in `q` and outside `p`, the field is exactly those characters. -/
theorem rxMatch_field (p q : Char → Bool) (lo : Nat) (hi : Option Nat) (R : List RxItem)
    (ds : List Char) (d : Char) (T : List Char) (hp : ∀ c ∈ ds, p c = true)
    (hq : ∀ c ∈ ds, q c = false) (hpd : p d = false) (hqd : q d = true) :
    rxMatch (⟨p, lo, hi⟩ :: ⟨q, 1, some 1⟩ :: R) (ds ++ d :: T) = true ↔
      lo ≤ ds.length ∧ (∀ h, hi = some h → ds.length ≤ h) ∧ rxMatch R T = true := by
  constructor
  · intro hm
    obtain ⟨s₁, s₂, hs, h1, h2⟩ := (rxMatch_append [⟨p, lo, hi⟩] (⟨q, 1, some 1⟩ :: R) _).mp hm
    obtain ⟨hlo, hhi, hall⟩ := (rxMatch_single _ _ _ _).mp h1
    cases s₂ with
    | nil => rw [rxMatch_lit_nil] at h2; exact Bool.noConfusion h2
    | cons x s₂ =>
      rw [rxMatch_lit_cons, Bool.and_eq_true] at h2
      obtain ⟨hqx, hR⟩ := h2
      rcases List.append_eq_append_iff.mp hs with ⟨t, ht1, ht2⟩ | ⟨t, ht1, ht2⟩
      · cases t with
        | nil =>
          simp only [List.nil_append, List.cons.injEq] at ht2
          simp only [List.append_nil] at ht1
          subst ht1
          rw [ht2.2]
          exact ⟨hlo, hhi, hR⟩
        | cons y t =>
          simp only [List.cons_append, List.cons.injEq] at ht2
          have : d ∈ s₁ := by
            rw [ht1, ht2.1]
            simp
          rw [hall d this] at hpd
          exact Bool.noConfusion hpd
      · cases t with
        | nil =>
          simp only [List.nil_append, List.cons.injEq] at ht2
          simp only [List.append_nil] at ht1
          subst ht1
          rw [← ht2.2]
          exact ⟨hlo, hhi, hR⟩
        | cons y t =>
          simp only [List.cons_append, List.cons.injEq] at ht2
          have : x ∈ ds := by
            rw [ht1, ← ht2.1]
            simp
          rw [hq x this] at hqx
          exact Bool.noConfusion hqx
  · rintro ⟨hlo, hhi, hR⟩
    refine rxMatch_cons_append _ _ _ _ ((rxMatch_single _ _ _ _).mpr ⟨hlo, hhi, hp⟩) ?_
    rw [rxMatch_lit_cons, hqd, hR]
    rfl

/-- Every character of the Base64 alphabet proper is in the class
`[a-z0-9./+]` under the `i` flag. -/
theorem b64Char_b64I (n : Nat) : b64I (b64Char n) = true := by
  have h : ∀ i, i < 64 → b64I (base64Map.toList.getD i '=') = true := by decide
  exact h (n % 64) (Nat.mod_lt _ (by decide))

/-- The Base64 rendering of whole octets: characters of the alphabet, not
empty unless there are no octets, then at most two `=`. -/
theorem base64Loop_split (n : Nat) : ∀ bytes : List Byte, bytes.length ≤ n →
    ∃ B P, base64Loop bytes none = B ++ P ∧ (∀ c ∈ B, b64I c = true) ∧
      (bytes ≠ [] → B ≠ []) ∧ P.length = (3 - bytes.length % 3) % 3 ∧ ∀ c ∈ P, c = '=' := by
  induction n with
  | zero =>
    intro bytes h
    have : bytes = [] := List.length_eq_zero.mp (Nat.le_zero.mp h)
    subst this
    exact ⟨[], [], rfl, by simp, by simp, by simp, by simp⟩
  | succ n ih =>
    intro bytes h
    match bytes with
    | [] => exact ⟨[], [], rfl, by simp, by simp, by simp, by simp⟩
    | [a] =>
      refine ⟨[b64Char (a.val / 4), b64Char (a.val % 4 * 16)], ['=', '='], rfl, ?_, by simp,
        by simp, by simp⟩
      intro c hc
      simp only [List.mem_cons, List.mem_singleton, List.not_mem_nil, or_false] at hc
      rcases hc with rfl | rfl <;> exact b64Char_b64I _
    | [a, b] =>
      refine ⟨[b64Char (a.val / 4), b64Char (a.val % 4 * 16 + b.val / 16),
        b64Char (b.val % 16 * 4)], ['='], rfl, ?_, by simp, by simp, by simp⟩
      intro c hc
      simp only [List.mem_cons, List.mem_singleton, List.not_mem_nil, or_false] at hc
      rcases hc with rfl | rfl | rfl <;> exact b64Char_b64I _
    | a :: b :: c :: rest =>
      have hr : rest.length ≤ n := by simp only [List.length_cons] at h; omega
      obtain ⟨B, P, h1, h2, -, h4, h5⟩ := ih rest hr
      refine ⟨b64Char (a.val / 4) :: b64Char (a.val % 4 * 16 + b.val / 16) ::
          b64Char (b.val % 16 * 4 + c.val / 64) :: b64Char (c.val % 64) :: B, P, ?_, ?_, by simp,
          by simp only [List.length_cons]; omega, h5⟩
      · simp only [base64Loop, h1, List.cons_append]
      · intro x hx
        simp only [List.mem_cons] at hx
        rcases hx with rfl | rfl | rfl | rfl | hx
        · exact b64Char_b64I _
        · exact b64Char_b64I _
        · exact b64Char_b64I _
        · exact b64Char_b64I _
        · exact h2 x hx

/-- The decimal string of a natural number: at least one character, all of
them digits, none of them `$`. -/
theorem numToString_digits (n : Nat) :
    (numToString (n : Int)).toList ≠ [] ∧
      ∀ c ∈ (numToString (n : Int)).toList, digitI c = true ∧ ci (chr '$') c = false := by
  obtain ⟨ds, hne, hd, -, he⟩ := toDigitsCore_spec (n + 1) n [] (Nat.lt_succ_self n)
  have hs : numToString (n : Int) = ⟨ds.map Nat.digitChar⟩ := by
    show toString (Int.ofNat n) = _
    simp only [toString, Int.repr, Nat.repr, Nat.toDigits, he, List.append_nil, List.asString]
  rw [hs]
  refine ⟨by simpa using hne, ?_⟩
  intro c hc
  simp only [String.toList, List.mem_map] at hc
  obtain ⟨d, hdm, rfl⟩ := hc
  have : ∀ d, d < 10 → digitI (Nat.digitChar d) = true ∧ ci (chr '$') (Nat.digitChar d) = false := by
    decide
  exact this d (hd d hdm)

/-- A non-empty string has at least one UTF-8 octet. -/
theorem encUtf8Parse_ne_nil (s : String) (hs : s ≠ "") : (encUtf8Parse s).bytes ≠ [] := by
  obtain ⟨l⟩ := s
  cases l with
  | nil => exact absurd rfl hs
  | cons c cs =>
    simp only [encUtf8Parse, String.toList, List.flatMap_cons]
    unfold utf8Char
    split_ifs <;> simp

/-- The output of the `pbkdf2` branch under the output format 'standard'. -/
theorem pbkdf2_standard_output (C : CryptoJS) (rnd : Nat → Byte) (text : String)
    (options : HashOptions) (ht : text ≠ "") (hf : options.outputFormat = some "standard") :
    Worker.generateHash C rnd text "pbkdf2" options =
      "$pbkdf2$" ++ numToString (orNum options.iterations 10000) ++ "$" ++
        encBase64Stringify (encUtf8Parse (orStr options.salt "")) ++ "$" ++
        encBase64Stringify ⟨digest 32 (C.PBKDF2 (encUtf8Parse text)
          (encUtf8Parse (orStr options.salt "")) 8 ((orNum options.iterations 10000 : Int) : ℚ)
          Hasher.SHA512), none⟩ := by
  unfold Worker.generateHash
  simp only [ht, if_false, hf]
  simp [orStr]

/-- The characters of a `pbkdf2` output in the 'standard' format: the
literal head, the digits of the iteration count, the Base64 salt as alphabet
characters and padding, and the Base64 key as alphabet characters and a
final `=`. -/
theorem pbkdf2_standard_shape (C : CryptoJS) (rnd : Nat → Byte) (text : String)
    (options : HashOptions) (ht : text ≠ "") (hf : options.outputFormat = some "standard")
    (hit : 0 < orNum options.iterations 10000) :
    ∃ ds B1 P1 B2 : List Char,
      (Worker.generateHash C rnd text "pbkdf2" options).toList =
        "$pbkdf2$".toList ++ (ds ++ '$' :: (B1 ++ (P1 ++ '$' :: (B2 ++ ['='])))) ∧
      ds ≠ [] ∧ (∀ c ∈ ds, digitI c = true ∧ ci (chr '$') c = false) ∧
      (∀ c ∈ B1, b64I c = true) ∧ (orStr options.salt "" ≠ "" → B1 ≠ []) ∧
      (orStr options.salt "" = "" → B1 = [] ∧ P1 = []) ∧
      P1.length ≤ 2 ∧ (∀ c ∈ P1, c = '=') ∧ B2 ≠ [] ∧ (∀ c ∈ B2, b64I c = true) := by
  rw [pbkdf2_standard_output C rnd text options ht hf]
  obtain ⟨n, hn⟩ : ∃ n : Nat, orNum options.iterations 10000 = (n : Int) :=
    ⟨(orNum options.iterations 10000).toNat, (Int.toNat_of_nonneg (le_of_lt hit)).symm⟩
  obtain ⟨hd1, hd2⟩ := numToString_digits n
  obtain ⟨B1, P1, e1, b1, n1, p1, q1⟩ := base64Loop_split _ (encUtf8Parse (orStr options.salt "")).bytes
    (le_refl _)
  generalize hK : digest 32 (C.PBKDF2 (encUtf8Parse text)
    (encUtf8Parse (orStr options.salt "")) 8 ((orNum options.iterations 10000 : Int) : ℚ)
    Hasher.SHA512) = K
  have hKl : K.length = 32 := by rw [← hK, digest_length]
  obtain ⟨B2, P2, e2, b2, n2, p2, q2⟩ := base64Loop_split _ K (le_refl _)
  have hP2 : P2 = ['='] ∧ B2 ≠ [] := by
    rw [hKl] at p2
    rcases P2 with _ | ⟨x, _ | ⟨y, P⟩⟩
    · simp at p2
    · have := q2 x (by simp)
      subst this
      exact ⟨rfl, n2 (by intro h0; rw [h0] at hKl; simp at hKl)⟩
    · simp at p2
  obtain ⟨rfl, hB2⟩ := hP2
  have hem : orStr options.salt "" = "" → B1 = [] ∧ P1 = [] := by
    intro h0
    rw [h0] at e1
    have : base64Loop (encUtf8Parse "").bytes none = [] := rfl
    rw [this] at e1
    exact List.append_eq_nil.mp e1.symm
  refine ⟨(numToString (n : Int)).toList, B1, P1, B2, ?_, hd1, hd2, b1,
    fun h => n1 (encUtf8Parse_ne_nil _ h), hem, by omega, q1, hB2, b2⟩
  have es : (encUtf8Parse (orStr options.salt "")).halfByte = none := rfl
  simp only [String.toList, String.data_append, encBase64Stringify, es, Option.map_none', e1, e2,
    hn]
  simp

/-- A pattern that starts with a literal string matches a string that starts
with it when the rest of the pattern matches the rest of the string. -/
theorem rxMatch_lit_append (l : List Char) (R : List RxItem) (T : List Char) :
    rxMatch (l.map (fun a => (⟨ci (chr a), 1, some 1⟩ : RxItem)) ++ R) (l ++ T) = rxMatch R T := by
  induction l with
  | nil => rfl
  | cons a l ih =>
    have : ci (chr a) a = true := by simp [ci, chr]
    simp only [List.map_cons, List.cons_append, rxMatch_lit_cons, this, Bool.true_and, ih]

/-- How `detectHashType` classifies a string `$pbkdf2$<digits>$<salt>$<key>`
whose key is Base64 with one `=`: as PBKDF2 when the salt field holds at
least one Base64 character, as Unknown when the salt field is empty. -/
theorem detect_pbkdf2_like (out : String) (ds B1 P1 B2 : List Char)
    (hout : out.toList =
      "$pbkdf2$".toList ++ (ds ++ '$' :: (B1 ++ (P1 ++ '$' :: (B2 ++ ['='])))))
    (hds : ds ≠ []) (hd : ∀ c ∈ ds, digitI c = true ∧ ci (chr '$') c = false)
    (hB1 : ∀ c ∈ B1, b64I c = true) (hP1l : P1.length ≤ 2) (hP1 : ∀ c ∈ P1, c = '=')
    (hB2n : B2 ≠ []) (hB2 : ∀ c ∈ B2, b64I c = true) :
    (B1 ≠ [] → detectHashType (some out) = ⟨"PBKDF2", 95⟩) ∧
    (B1 = [] → P1 = [] → detectHashType (some out) = ⟨"Unknown", 0⟩) := by
  have hne : out ≠ "" := by
    intro h
    rw [h] at hout
    exact List.noConfusion hout
  have hform : out.toList = '$' :: (("pbkdf2$".toList ++
      (ds ++ '$' :: (B1 ++ (P1 ++ '$' :: B2)))) ++ ['=']) := by
    rw [hout]
    simp
  have htrim : jsTrim out.toList = '$' :: 'p' :: ("bkdf2$".toList ++
      (ds ++ '$' :: (B1 ++ (P1 ++ '$' :: (B2 ++ ['=']))))) := by
    rw [hform, jsTrim_eq_self _ _ _ (by decide) (by decide), ← hform, hout]
    rfl
  have hlen : 1 ≤ ds.length := by
    cases ds with
    | nil => exact absurd rfl hds
    | cons _ _ => simp
  have halt : rxMatch (lit "$pbkdf2" ++ rxPBKDF2Tail) ('$' :: 'p' :: ("bkdf2$".toList ++
      (ds ++ '$' :: (B1 ++ (P1 ++ '$' :: (B2 ++ ['=']))))))  = true ↔
      rxMatch [⟨b64I, 1, none⟩, ⟨ci (chr '='), 0, some 2⟩, ⟨ci (chr '$'), 1, some 1⟩,
        ⟨b64I, 1, none⟩, ⟨ci (chr '='), 0, some 2⟩] (B1 ++ (P1 ++ '$' :: (B2 ++ ['=']))) = true := by
    have e := rxMatch_lit_append "$pbkdf2$".toList
      [⟨digitI, 1, none⟩, ⟨ci (chr '$'), 1, some 1⟩, ⟨b64I, 1, none⟩, ⟨ci (chr '='), 0, some 2⟩,
        ⟨ci (chr '$'), 1, some 1⟩, ⟨b64I, 1, none⟩, ⟨ci (chr '='), 0, some 2⟩]
      (ds ++ '$' :: (B1 ++ (P1 ++ '$' :: (B2 ++ ['=']))))
    have f := rxMatch_field digitI (ci (chr '$')) 1 none
      [⟨b64I, 1, none⟩, ⟨ci (chr '='), 0, some 2⟩, ⟨ci (chr '$'), 1, some 1⟩,
        ⟨b64I, 1, none⟩, ⟨ci (chr '='), 0, some 2⟩] ds '$'
      (B1 ++ (P1 ++ '$' :: (B2 ++ ['=']))) (fun c hc => (hd c hc).1) (fun c hc => (hd c hc).2)
      (by decide) (by decide)
    rw [← e] at f
    rw [show (lit "$pbkdf2" ++ rxPBKDF2Tail) = (List.map (fun a => (⟨ci (chr a), 1, some 1⟩ : RxItem))
      "$pbkdf2$".toList ++ [⟨digitI, 1, none⟩, ⟨ci (chr '$'), 1, some 1⟩, ⟨b64I, 1, none⟩,
        ⟨ci (chr '='), 0, some 2⟩, ⟨ci (chr '$'), 1, some 1⟩, ⟨b64I, 1, none⟩,
        ⟨ci (chr '='), 0, some 2⟩]) from rfl]
    rw [show ('$' :: 'p' :: ("bkdf2$".toList ++ (ds ++ '$' :: (B1 ++ (P1 ++ '$' :: (B2 ++ ['=']))))))
      = "$pbkdf2$".toList ++ (ds ++ '$' :: (B1 ++ (P1 ++ '$' :: (B2 ++ ['='])))) from rfl]
    rw [f]
    simp [hlen]
  unfold detectHashType
  simp only [hne, if_false, htrim]
  generalize hT : ("bkdf2$".toList ++ (ds ++ '$' :: (B1 ++ (P1 ++ '$' :: (B2 ++ ['='])))))
    = T at halt
  have r1 : rxMatch (rxHex 32) ('$' :: 'p' :: T) = false := rfl
  have r2 : rxMatch (rxHex 40) ('$' :: 'p' :: T) = false := rfl
  have r3 : rxMatch (rxHex 64) ('$' :: 'p' :: T) = false := rfl
  have r4 : rxMatch (rxHex 128) ('$' :: 'p' :: T) = false := rfl
  have r5 : rxMatch (rxHex 56) ('$' :: 'p' :: T) = false := rfl
  have r6 : rxMatch (rxHex 96) ('$' :: 'p' :: T) = false := rfl
  have r7 : rxMatch rxMySQL ('$' :: 'p' :: T) = false := rfl
  have r8 : rxMatch rxMD5Crypt ('$' :: 'p' :: T) = false := rfl
  have r9 : rxMatch rxBcrypt ('$' :: 'p' :: T) = false := rfl
  have r10 : rxMatch rxSHA256Crypt ('$' :: 'p' :: T) = false := rfl
  have r11 : rxMatch rxSHA512Crypt ('$' :: 'p' :: T) = false := rfl
  have r13 : rxMatch rxArgon2 ('$' :: 'p' :: T) = false := rfl
  have r14 : rxMatch rxScrypt ('$' :: 'p' :: T) = false := rfl
  have r15 : rxMatch rxYescrypt ('$' :: 'p' :: T) = false := rfl
  have r16 : rxMatch rxNetNTLMv2 ('$' :: 'p' :: T) = false := rfl
  have r17 : rxMatch rxWPA ('$' :: 'p' :: T) = false := rfl
  constructor
  · intro hB1n
    have hm : rxMatch (lit "$pbkdf2" ++ rxPBKDF2Tail) ('$' :: 'p' :: T) = true := by
      rw [halt]
      refine rxMatch_cons_append _ _ _ _ ((rxMatch_single _ _ _ _).mpr ⟨?_, ?_, hB1⟩) ?_
      · cases B1 with
        | nil => exact absurd rfl hB1n
        | cons _ _ => simp
      · intro h hh
        cases hh
      refine rxMatch_cons_append _ _ _ _ ((rxMatch_single _ _ _ _).mpr ⟨Nat.zero_le _, ?_, ?_⟩) ?_
      · intro h hh
        cases hh
        exact hP1l
      · intro c hc
        rw [hP1 c hc]
        decide
      rw [rxMatch_lit_cons]
      have : ci (chr '$') '$' = true := by decide
      rw [this, Bool.true_and]
      refine rxMatch_cons_append _ _ _ _ ((rxMatch_single _ _ _ _).mpr ⟨?_, ?_, hB2⟩) ?_
      · cases B2 with
        | nil => exact absurd rfl hB2n
        | cons _ _ => simp
      · intro h hh
        cases hh
      refine (rxMatch_single _ _ _ _).mpr ⟨Nat.zero_le _, ?_, ?_⟩
      · intro h hh
        cases hh
        simp
      · intro c hc
        simp only [List.mem_singleton] at hc
        rw [hc]
        decide
    have r12 : testPBKDF2 ('$' :: 'p' :: T) = true := by
      unfold testPBKDF2
      rw [hm, Bool.or_true]
    simp only [r1, r2, r3, r4, r5, r6, r7, r8, r9, r10, r11, r12]
    rfl
  · intro hB1e hP1e
    subst hB1e hP1e
    have hm : rxMatch (lit "$pbkdf2" ++ rxPBKDF2Tail) ('$' :: 'p' :: T) = false := by
      apply Bool.eq_false_iff.mpr
      intro hc
      have h2 := halt.mp hc
      have h3 : rxMatch [⟨b64I, 1, none⟩, ⟨ci (chr '='), 0, some 2⟩, ⟨ci (chr '$'), 1, some 1⟩,
          ⟨b64I, 1, none⟩, ⟨ci (chr '='), 0, some 2⟩] ('$' :: (B2 ++ ['='])) = false :=
        rxMatch_head_false _ _ _ _ (by decide) (by decide)
      simp only [List.nil_append] at h2
      rw [h3] at h2
      exact Bool.noConfusion h2
    have hm1 : rxMatch (lit "$pbkdf2" ++ (lit "-sha" ++ plus digitI) ++ rxPBKDF2Tail)
        ('$' :: 'p' :: T) = false := by
      rw [← hT]
      rfl
    have r12 : testPBKDF2 ('$' :: 'p' :: T) = false := by
      unfold testPBKDF2
      rw [hm, hm1]
      rfl
    simp only [r1, r2, r3, r4, r5, r6, r7, r8, r9, r10, r11, r12, r13, r14, r15, r16, r17]
    rfl

/-- C11 (what the code does): for every non-empty text and every options
value with the output format 'standard' and a positive iteration count below
the magnitude at which numbers print with an exponent, the worker's
`generateHash` for 'pbkdf2' returns
`$pbkdf2$<iterations>$<base64(salt)>$<base64(key)>`.  With a non-empty salt
`detectHashType` classifies that string as PBKDF2 with confidence 95.  With
an absent or empty salt the branch generates no salt, the salt field is
empty, and `detectHashType` classifies the string as Unknown with
confidence 0. -/
theorem pbkdf2_standard_detection (C : CryptoJS) (rnd : Nat → Byte) (text : String)
    (options : HashOptions) (ht : text ≠ "") (hf : options.outputFormat = some "standard")
    (hit : 0 < orNum options.iterations 10000) (_hbig : orNum options.iterations 10000 < 10 ^ 21) :
    Worker.generateHash C rnd text "pbkdf2" options =
      "$pbkdf2$" ++ numToString (orNum options.iterations 10000) ++ "$" ++
        encBase64Stringify (encUtf8Parse (orStr options.salt "")) ++ "$" ++
        encBase64Stringify ⟨digest 32 (C.PBKDF2 (encUtf8Parse text)
          (encUtf8Parse (orStr options.salt "")) 8 ((orNum options.iterations 10000 : Int) : ℚ)
          Hasher.SHA512), none⟩ ∧
    (orStr options.salt "" ≠ "" →
      detectHashType (some (Worker.generateHash C rnd text "pbkdf2" options)) = ⟨"PBKDF2", 95⟩) ∧
    (orStr options.salt "" = "" →
      detectHashType (some (Worker.generateHash C rnd text "pbkdf2" options)) =
        ⟨"Unknown", 0⟩) := by
  obtain ⟨ds, B1, P1, B2, hout, hds, hd, hB1, hn1, he1, hP1l, hP1, hB2n, hB2⟩ :=
    pbkdf2_standard_shape C rnd text options ht hf hit
  obtain ⟨hpos, hneg⟩ := detect_pbkdf2_like _ ds B1 P1 B2 hout hds hd hB1 hP1l hP1 hB2n hB2
  refine ⟨pbkdf2_standard_output C rnd text options ht hf, fun h => hpos (hn1 h), fun h => ?_⟩
  obtain ⟨a, b⟩ := he1 h
  exact hneg a b

/-- C11 (the failing input, evaluated): text "a" with the output format
'standard' and no salt gives a string with an empty salt field, which is
classified as Unknown. -/
theorem pbkdf2_standard_detection_witness :
    ("a" ≠ "" ∧ (0 : Int) < orNum none 10000 ∧ orNum none 10000 < 10 ^ 21) ∧
    Worker.generateHash zeroCrypto (fun _ => 0) "a" "pbkdf2" { outputFormat := some "standard" } =
      "$pbkdf2$10000$$AAAAAAAAAAAAAAAAAAAAAAAAAAAAAAAAAAAAAAAAAAA=" ∧
    detectHashType (some (Worker.generateHash zeroCrypto (fun _ => 0) "a" "pbkdf2"
      { outputFormat := some "standard" })) = ⟨"Unknown", 0⟩ :=
  ⟨⟨by decide, by decide, by decide⟩, by decide,
    (pbkdf2_standard_detection zeroCrypto (fun _ => 0) "a" { outputFormat := some "standard" }
      (by decide) rfl (by decide) (by decide)).2.2 rfl⟩

/-- The password "abcdefgh1": nine code units, lower-case letters and a
digit, no penalty; its score is 4.5 + 5 + 5. -/
theorem score_abcdefgh1 : (evaluatePasswordStrength "abcdefgh1").score = 29 / 2 := by
  have e : utf16 "abcdefgh1" = [97, 98, 99, 100, 101, 102, 103, 104, 49] := by decide
  have c : commonPasswords.contains (toLowerCase "abcdefgh1") = false := by decide
  have n : ("abcdefgh1" = "") = False := by decide
  simp only [evaluatePasswordStrength, n, if_false, e, c]
  norm_num [isLower, isUpper, isDigit, hasRepeat, onlyDigits, onlyLetters, onlyLettersI,
    isLineTerminator, addIf, subIf]

/-- A conditional bonus of whole points keeps a score a multiple of one half. -/
theorem half_addIf (c : Bool) (s : ℚ) (v : Int) (hs : ∃ z : Int, s = z / 2) :
    ∃ z : Int, addIf c v s = z / 2 := by
  obtain ⟨z, rfl⟩ := hs
  unfold addIf
  split_ifs
  · exact ⟨z + 2 * v, by push_cast; ring⟩
  · exact ⟨z, rfl⟩

/-- A conditional penalty of whole points keeps a score a multiple of one
half. -/
theorem half_subIf (c : Bool) (s : ℚ) (v : Int) (hs : ∃ z : Int, s = z / 2) :
    ∃ z : Int, subIf c v s = z / 2 := by
  obtain ⟨z, rfl⟩ := hs
  unfold subIf
  split_ifs
  · exact ⟨z - 2 * v, by push_cast; ring⟩
  · exact ⟨z, rfl⟩

/-- The length points `Math.min(length * 0.5, 10)` are a multiple of one half. -/
theorem half_length (n : Nat) : ∃ z : Int, min ((n : ℚ) * 0.5) 10 = z / 2 := by
  by_cases h : (n : ℚ) * 0.5 ≤ 10
  · rw [min_eq_left h]
    exact ⟨n, by push_cast; ring⟩
  · rw [min_eq_right (le_of_lt (not_le.mp h))]
    exact ⟨20, by norm_num⟩

/-- Clamping to `[0, 100]` keeps a multiple of one half and makes it a
natural number of halves. -/
theorem half_clamp (s : ℚ) (hs : ∃ z : Int, s = z / 2) :
    ∃ k : Nat, max 0 (min 100 s) = k / 2 := by
  obtain ⟨z, rfl⟩ := hs
  by_cases h0 : (z : ℚ) / 2 ≤ 0
  · refine ⟨0, ?_⟩
    rw [max_eq_left (le_trans (min_le_right _ _) h0)]
    norm_num
  · by_cases h1 : (100 : ℚ) ≤ (z : ℚ) / 2
    · refine ⟨200, ?_⟩
      rw [min_eq_left h1, max_eq_right (by norm_num)]
      norm_num
    · have h0 := le_of_lt (not_le.mp h0)
      have h1 := le_of_lt (not_le.mp h1)
      rw [min_eq_right h1, max_eq_right h0]
      have hz : 0 ≤ z := by
        have : (0 : ℚ) ≤ (z : ℚ) := by linarith
        exact_mod_cast this
      refine ⟨z.toNat, ?_⟩
      have : ((z.toNat : Int) : ℚ) = (z : ℚ) := by rw [Int.toNat_of_nonneg hz]
      rw [← this]
      push_cast
      rfl

/-- C17 (the counterexample): the score of "abcdefgh1" is 14.5, not an
integer. -/
theorem score_not_integer :
    ¬ ∃ n : Int, (evaluatePasswordStrength "abcdefgh1").score = n := by
  rw [score_abcdefgh1]
  rintro ⟨n, hn⟩
  have h2 : ((29 : Int) : ℚ) = ((2 * n : Int) : ℚ) := by
    push_cast
    linarith
  have h3 : (29 : Int) = 2 * n := by exact_mod_cast h2
  omega

/-- C17 (amended): for every password string the score returned by
`evaluatePasswordStrength` is a whole number of half points between 0 and
100 inclusive (the length points are `length * 0.5`). -/
theorem score_half_integer (password : String) :
    (∃ k : Nat, (evaluatePasswordStrength password).score = k / 2) ∧
    0 ≤ (evaluatePasswordStrength password).score ∧
    (evaluatePasswordStrength password).score ≤ 100 := by
  by_cases h : password = ""
  · subst h
    have : (evaluatePasswordStrength "").score = 0 := rfl
    rw [this]
    exact ⟨⟨0, by norm_num⟩, le_refl _, by norm_num⟩
  · simp only [evaluatePasswordStrength, if_neg h]
    refine ⟨?_, le_max_left _ _, max_le (by norm_num) (min_le_left _ _)⟩
    apply half_clamp
    have e5 : (5 : ℚ) = ((5 : Int) : ℚ) := by norm_num
    have e3 : (3 : ℚ) = ((3 : Int) : ℚ) := by norm_num
    have e7 : (7 : ℚ) = ((7 : Int) : ℚ) := by norm_num
    rw [e5, e3, e7]
    apply half_subIf
    split_ifs with hc
    · exact ⟨0, by norm_num⟩
    apply half_subIf
    apply half_subIf
    apply half_subIf
    apply half_addIf
    apply half_addIf
    apply half_addIf
    apply half_addIf
    unfold addIf
    split_ifs
    · rw [zero_add]
      exact half_length _
    · exact ⟨0, by norm_num⟩

/-- C18: for every password whose lower-cased form is one of the denylisted
values, `evaluatePasswordStrength` returns score exactly 0 and rating
'Very Weak', whatever the other checks contribute: the score is set to 0,
at most lowered by the dictionary-word penalty, and clamped to 0. -/
theorem common_password_scores_zero (password : String)
    (hc : toLowerCase password ∈ commonPasswords) :
    (evaluatePasswordStrength password).score = 0 ∧
    (evaluatePasswordStrength password).rating = some "Very Weak" := by
  have h : password ≠ "" := by
    rintro rfl
    revert hc
    decide
  have hc' : commonPasswords.contains (toLowerCase password) = true := by
    simpa using hc
  have hs : (evaluatePasswordStrength password).score = 0 := by
    simp only [evaluatePasswordStrength, if_neg h, hc', if_true, subIf]
    split_ifs <;> norm_num
  refine ⟨hs, ?_⟩
  have hr : (evaluatePasswordStrength password).rating =
      some (if (evaluatePasswordStrength password).score < 20 then "Very Weak"
        else if (evaluatePasswordStrength password).score < 40 then "Weak"
        else if (evaluatePasswordStrength password).score < 60 then "Moderate"
        else if (evaluatePasswordStrength password).score < 80 then "Strong"
        else "Very Strong") := by
    simp only [evaluatePasswordStrength, if_neg h]
  rw [hr, hs]
  norm_num

/-- C18 (witness): "PassWord" lower-cases to the denylisted "password"; it
has lower-case and upper-case letters, and still scores 0. -/
theorem common_password_scores_zero_witness :
    toLowerCase "PassWord" ∈ commonPasswords ∧
    (evaluatePasswordStrength "PassWord").score = 0 ∧
    (evaluatePasswordStrength "PassWord").rating = some "Very Weak" :=
  ⟨by decide, common_password_scores_zero "PassWord" (by decide)⟩

/-- C20: for every non-empty password the rating is determined by the
returned score: 'Very Weak' below 20, 'Weak' from 20 and below 40, 'Moderate'
from 40 and below 60, 'Strong' from 60 and below 80, 'Very Strong' from 80. -/
theorem rating_by_score (password : String) (h : password ≠ "") :
    (evaluatePasswordStrength password).rating =
      some (if (evaluatePasswordStrength password).score < 20 then "Very Weak"
        else if (evaluatePasswordStrength password).score < 40 then "Weak"
        else if (evaluatePasswordStrength password).score < 60 then "Moderate"
        else if (evaluatePasswordStrength password).score < 80 then "Strong"
        else "Very Strong") := by
  simp only [evaluatePasswordStrength, if_neg h]

/-- C20 (witness): "abcdefgh1" scores 14.5 and is rated 'Very Weak'. -/
theorem rating_by_score_witness :
    "abcdefgh1" ≠ "" ∧ (evaluatePasswordStrength "abcdefgh1").rating = some "Very Weak" := by
  refine ⟨by decide, ?_⟩
  rw [rating_by_score "abcdefgh1" (by decide), score_abcdefgh1]
  norm_num

/-- What the feedback list of a non-empty password is: the messages of the
checks that fired, in the order of the checks. -/
theorem feedback_nonempty_password (password : String) (h : password ≠ "") :
    (evaluatePasswordStrength password).feedback =
      Feedback.list
        (if (pushIf (decide ((utf16 password).length ≤ 10) && onlyLettersI (utf16 password))
              "Avoid using single dictionary words"
            (pushIf (commonPasswords.contains (toLowerCase password))
              "This is a very common password"
            (pushIf (onlyLetters (utf16 password)) "Mix letters and numbers/symbols"
            (pushIf (onlyDigits (utf16 password)) "Don't use only numbers"
            (pushIf (hasRepeat (utf16 password)) "Avoid repeated characters"
            (pushIf (decide ((utf16 password).length < 8)) "Password is too short"
              [])))))).length > 0
        then pushIf (decide ((utf16 password).length ≤ 10) && onlyLettersI (utf16 password))
              "Avoid using single dictionary words"
            (pushIf (commonPasswords.contains (toLowerCase password))
              "This is a very common password"
            (pushIf (onlyLetters (utf16 password)) "Mix letters and numbers/symbols"
            (pushIf (onlyDigits (utf16 password)) "Don't use only numbers"
            (pushIf (hasRepeat (utf16 password)) "Avoid repeated characters"
            (pushIf (decide ((utf16 password).length < 8)) "Password is too short"
              [])))))
        else ["Good password!"]) := by
  simp only [evaluatePasswordStrength, if_neg h]

/-- Pushing a message leaves a list non-empty or makes it so. -/
theorem pushIf_cases (c : Bool) (m : String) (l : List String) :
    (c = false ∧ pushIf c m l = l) ∨ (c = true ∧ pushIf c m l = l ++ [m]) := by
  cases c <;> simp [pushIf]

/-- C19 (what the code does): for the empty string the early return gives
the feedback as the string 'No password provided', not as a list, and no
rating.  For every non-empty password the feedback is a list of strings with
at least one entry, it is exactly ['Good password!'] when none of the six
checks fired, and it does not contain 'Good password!' when one fired. -/
theorem feedback_shape :
    (evaluatePasswordStrength "").feedback = Feedback.message "No password provided" ∧
    (evaluatePasswordStrength "").rating = none ∧
    (¬ ∃ l, (evaluatePasswordStrength "").feedback = Feedback.list l) ∧
    ∀ password : String, password ≠ "" →
      ∃ l, (evaluatePasswordStrength password).feedback = Feedback.list l ∧ l ≠ [] ∧
        (((utf16 password).length < 8 ∨ hasRepeat (utf16 password) = true ∨
            onlyDigits (utf16 password) = true ∨ onlyLetters (utf16 password) = true ∨
            commonPasswords.contains (toLowerCase password) = true ∨
            (decide ((utf16 password).length ≤ 10) && onlyLettersI (utf16 password)) = true) →
          "Good password!" ∉ l) ∧
        (¬ ((utf16 password).length < 8) → hasRepeat (utf16 password) = false →
          onlyDigits (utf16 password) = false → onlyLetters (utf16 password) = false →
          commonPasswords.contains (toLowerCase password) = false →
          (decide ((utf16 password).length ≤ 10) && onlyLettersI (utf16 password)) = false →
          l = ["Good password!"]) := by
  refine ⟨rfl, rfl, ?_, ?_⟩
  · rintro ⟨l, hl⟩
    have : (evaluatePasswordStrength "").feedback = Feedback.message "No password provided" := rfl
    rw [this] at hl
    exact Feedback.noConfusion hl
  · intro password h
    refine ⟨_, feedback_nonempty_password password h, ?_, ?_, ?_⟩
    · split_ifs with hl
      · intro h0
        rw [h0] at hl
        simp at hl
      · simp
    · intro hany
      have hany' : decide ((utf16 password).length < 8) = true ∨
          hasRepeat (utf16 password) = true ∨ onlyDigits (utf16 password) = true ∨
          onlyLetters (utf16 password) = true ∨
          commonPasswords.contains (toLowerCase password) = true ∨
          (decide ((utf16 password).length ≤ 10) && onlyLettersI (utf16 password)) = true := by
        rcases hany with h1 | h1
        · exact Or.inl (decide_eq_true h1)
        · exact Or.inr h1
      clear hany
      revert hany'
      generalize decide ((utf16 password).length < 8) = c1
      generalize hasRepeat (utf16 password) = c2
      generalize onlyDigits (utf16 password) = c3
      generalize onlyLetters (utf16 password) = c4
      generalize commonPasswords.contains (toLowerCase password) = c5
      generalize (decide ((utf16 password).length ≤ 10) && onlyLettersI (utf16 password)) = c6
      cases c1 <;> cases c2 <;> cases c3 <;> cases c4 <;> cases c5 <;> cases c6 <;>
        simp [pushIf]
    · intro h1 h2 h3 h4 h5 h6
      have h1' : decide ((utf16 password).length < 8) = false := decide_eq_false h1
      rw [h1', h2, h3, h4, h5, h6]
      rfl

/-- The code of the lower case of a character. -/
theorem toLower_toNat (c : Char) : c.toLower.toNat = foldCase c := by
  unfold Char.toLower foldCase
  by_cases h : 65 ≤ c.toNat ∧ c.toNat ≤ 90
  · have key : ∀ n, 65 ≤ n → n ≤ 90 → (Char.ofNat (n + 32)).toNat = n + 32 := by
      intro n h1 h2
      interval_cases n <;> rfl
    simp only [ge_iff_le, h, and_self, if_true]
    exact key _ h.1 h.2
  · simp only [ge_iff_le, h, if_false]

/-- The upper case of a character: the character itself, or a small letter
moved down by 32. -/
theorem toUpper_cases (c : Char) :
    c.toUpper = c ∨ (97 ≤ c.toNat ∧ c.toNat ≤ 122 ∧ c.toUpper.toNat = c.toNat - 32) := by
  unfold Char.toUpper
  by_cases h : 97 ≤ c.toNat ∧ c.toNat ≤ 122
  · right
    have key : ∀ n, 97 ≤ n → n ≤ 122 → (Char.ofNat (n - 32)).toNat = n - 32 := by
      intro n h1 h2
      interval_cases n <;> rfl
    simp only [ge_iff_le, h, and_self, if_true]
    exact ⟨trivial, trivial, key _ h.1 h.2⟩
  · left
    simp only [ge_iff_le, h, if_false]

/-- Folding the case of a lower-cased character changes nothing more. -/
theorem foldCase_toLower (c : Char) : foldCase c.toLower = foldCase c := by
  have h := toLower_toNat c
  unfold foldCase at h ⊢
  rw [h]
  split_ifs <;> omega

/-- Folding the case of an upper-cased character gives the folded character. -/
theorem foldCase_toUpper (c : Char) : foldCase c.toUpper = foldCase c := by
  rcases toUpper_cases c with h | ⟨h1, h2, h3⟩
  · rw [h]
  · unfold foldCase
    rw [h3]
    split_ifs <;> omega

/-- A character that matches a literal under the `i` flag has the folded code
of the literal. -/
theorem foldCase_of_ci_chr (a c : Char) (h : ci (chr a) c = true) : foldCase c = foldCase a := by
  simp only [ci, chr, Bool.or_eq_true, beq_iff_eq] at h
  rcases h with (h | h) | h
  · rw [h]
  · rw [← h, foldCase_toLower]
  · rw [← h, foldCase_toUpper]

/-- A character of the class `[a-f0-9]` under the `i` flag folds to a digit or
to one of `a-f`. -/
theorem foldCase_of_hexI (c : Char) (h : hexI c = true) :
    (48 ≤ foldCase c ∧ foldCase c ≤ 57) ∨ (97 ≤ foldCase c ∧ foldCase c ≤ 102) := by
  have key : ∀ d : Char, (rng 'a' 'f' d = true ∨ rng '0' '9' d = true) →
      (48 ≤ foldCase d ∧ foldCase d ≤ 57) ∨ (97 ≤ foldCase d ∧ foldCase d ≤ 102) := by
    intro d hd
    have ha : 'a'.toNat = 97 := rfl
    have hf : 'f'.toNat = 102 := rfl
    have h0 : '0'.toNat = 48 := rfl
    have h9 : '9'.toNat = 57 := rfl
    simp only [rng, Bool.and_eq_true, decide_eq_true_eq, ha, hf, h0, h9] at hd
    unfold foldCase
    split_ifs <;> omega
  simp only [hexI, ci, Bool.or_eq_true] at h
  rcases h with (h | h) | h
  · exact key c h
  · have := key _ h
    rwa [foldCase_toLower] at this
  · have := key _ h
    rwa [foldCase_toUpper] at this

/-- The shape of a string matched by a pattern that starts with `$` and a
second literal character. -/
theorem shapeKey_dollar (a : Char) (R : List RxItem) (T : List Char)
    (h : rxMatch (⟨ci (chr '$'), 1, some 1⟩ :: ⟨ci (chr a), 1, some 1⟩ :: R) T = true) :
    shapeKey T = 1000 + foldCase a := by
  match T with
  | [] => rw [rxMatch_lit_nil] at h; exact Bool.noConfusion h
  | [c] =>
    rw [rxMatch_lit_cons, rxMatch_lit_nil, Bool.and_false] at h
    exact Bool.noConfusion h
  | c :: d :: T =>
    simp only [rxMatch_lit_cons, Bool.and_eq_true] at h
    have hc := foldCase_of_ci_chr _ _ h.1
    have hd := foldCase_of_ci_chr _ _ h.2.1
    have e : foldCase '$' = 36 := rfl
    rw [e] at hc
    simp [shapeKey, hc, hd]

/-- The shape of a string matched by a pattern that starts with `*`. -/
theorem shapeKey_star (R : List RxItem) (T : List Char)
    (h : rxMatch (⟨ci (chr '*'), 1, some 1⟩ :: R) T = true) : shapeKey T = 1 := by
  match T with
  | [] => rw [rxMatch_lit_nil] at h; exact Bool.noConfusion h
  | c :: T =>
    simp only [rxMatch_lit_cons, Bool.and_eq_true] at h
    have hc := foldCase_of_ci_chr _ _ h.1
    have e : foldCase '*' = 42 := rfl
    rw [e] at hc
    simp [shapeKey, hc]

/-- The shape of a string of `n` hex characters. -/
theorem shapeKey_hex (n : Nat) (hn : 1 ≤ n) (T : List Char)
    (h : rxMatch (rxHex n) T = true) : shapeKey T = 100 + n := by
  have e : rxHex n = [⟨hexI, n, some n⟩] := rfl
  rw [e, rxMatch_single] at h
  obtain ⟨h1, h2, h3⟩ := h
  have hlen : T.length = n := le_antisymm (h2 n rfl) h1
  match T, hlen, h3 with
  | [], hl, _ => simp at hl; omega
  | c :: T, hl, h3 =>
    have hc := foldCase_of_hexI c (h3 c (by simp))
    have c1 : foldCase c ≠ 42 := by omega
    have c2 : foldCase c ≠ 36 := by omega
    simp only [shapeKey, c1, c2, if_false]
    cases hx : (c :: T).get? 32 with
    | none => simp [hl]
    | some x =>
      have hm : x ∈ c :: T := List.get?_mem hx
      have hxx := foldCase_of_hexI x (h3 x hm)
      have x1 : foldCase x ≠ 58 := by omega
      have x2 : foldCase x ≠ 42 := by omega
      simp [x1, x2, hl]

/-- The shape of a string matched by a pattern of 32 hex characters followed
by a literal delimiter. -/
theorem shapeKey_hex32 (q : Char) (R : List RxItem) (T : List Char)
    (h : rxMatch (⟨hexI, 32, some 32⟩ :: ⟨ci (chr q), 1, some 1⟩ :: R) T = true) :
    shapeKey T = if foldCase q = 58 then 10 else if foldCase q = 42 then 11
      else 100 + T.length := by
  obtain ⟨A, B, hT, hA, hB⟩ := (rxMatch_append [⟨hexI, 32, some 32⟩] _ T).mp h
  obtain ⟨h1, h2, h3⟩ := (rxMatch_single _ _ _ _).mp hA
  have hlen : A.length = 32 := le_antisymm (h2 32 rfl) h1
  match B, hB with
  | [], hB => rw [rxMatch_lit_nil] at hB; exact Bool.noConfusion hB
  | x :: B, hB =>
    simp only [rxMatch_lit_cons, Bool.and_eq_true] at hB
    have hx := foldCase_of_ci_chr _ _ hB.1
    have hget : T.get? 32 = some x := by
      rw [hT, ← hlen, List.get?_eq_getElem?, List.getElem?_append_right (le_refl _)]
      simp
    match A, hlen, h3 with
    | [], hl, _ => simp at hl
    | c :: A, hl, h3 =>
      have hc := foldCase_of_hexI c (h3 c (by simp))
      have c1 : foldCase c ≠ 42 := by omega
      have c2 : foldCase c ≠ 36 := by omega
      subst hT
      simp only [List.cons_append] at hget ⊢
      simp only [shapeKey, c1, c2, if_false, hget, hx]

/-- The shape key of the strings each rule matches. -/
theorem rule_shapeKeys (T : List Char) :
    (rxMatch (rxHex 32) T = true → shapeKey T = 132) ∧
    (rxMatch (rxHex 40) T = true → shapeKey T = 140) ∧
    (rxMatch (rxHex 64) T = true → shapeKey T = 164) ∧
    (rxMatch (rxHex 128) T = true → shapeKey T = 228) ∧
    (rxMatch (rxHex 56) T = true → shapeKey T = 156) ∧
    (rxMatch (rxHex 96) T = true → shapeKey T = 196) ∧
    (rxMatch rxMySQL T = true → shapeKey T = 1) ∧
    (rxMatch rxMD5Crypt T = true → shapeKey T = 1049) ∧
    (rxMatch rxBcrypt T = true → shapeKey T = 1050) ∧
    (rxMatch rxSHA256Crypt T = true → shapeKey T = 1053) ∧
    (rxMatch rxSHA512Crypt T = true → shapeKey T = 1054) ∧
    (testPBKDF2 T = true → shapeKey T = 1112) ∧
    (rxMatch rxArgon2 T = true → shapeKey T = 1097) ∧
    (rxMatch rxScrypt T = true → shapeKey T = 1115) ∧
    (rxMatch rxYescrypt T = true → shapeKey T = 1121) ∧
    (rxMatch rxNetNTLMv2 T = true → shapeKey T = 10) ∧
    (rxMatch rxWPA T = true → shapeKey T = 11) := by
  refine ⟨shapeKey_hex 32 (by omega) T, shapeKey_hex 40 (by omega) T,
    shapeKey_hex 64 (by omega) T, shapeKey_hex 128 (by omega) T, shapeKey_hex 56 (by omega) T,
    shapeKey_hex 96 (by omega) T, ?_, ?_, ?_, ?_, ?_, ?_, ?_, ?_, ?_, ?_, ?_⟩
  · exact shapeKey_star (rxMySQL.drop 1) T
  · exact shapeKey_dollar '1' (rxMD5Crypt.drop 2) T
  · exact shapeKey_dollar '2' (rxBcrypt.drop 2) T
  · exact shapeKey_dollar '5' (rxSHA256Crypt.drop 2) T
  · exact shapeKey_dollar '6' (rxSHA512Crypt.drop 2) T
  · intro h
    unfold testPBKDF2 at h
    rcases Bool.or_eq_true_iff.mp h with h | h
    · exact shapeKey_dollar 'p'
        ((lit "$pbkdf2" ++ (lit "-sha" ++ plus digitI) ++ rxPBKDF2Tail).drop 2) T h
    · exact shapeKey_dollar 'p' ((lit "$pbkdf2" ++ rxPBKDF2Tail).drop 2) T h
  · exact shapeKey_dollar 'a' (rxArgon2.drop 2) T
  · exact shapeKey_dollar 's' (rxScrypt.drop 2) T
  · exact shapeKey_dollar 'y' (rxYescrypt.drop 2) T
  · intro h
    exact shapeKey_hex32 ':' (rxNetNTLMv2.drop 2) T h
  · intro h
    exact shapeKey_hex32 '*' (rxWPA.drop 2) T h

/-- The shape key of a string matched by the rule number `i` of `codeRules`. -/
theorem codeRules_key (T : List Char) (i : Nat) (r : Rule) (hr : codeRules.get? i = some r)
    (ht : r.test T = true) : shapeKey T = ruleKeys.getD i 0 := by
  obtain ⟨k1, k2, k3, k4, k5, k6, k7, k8, k9, k10, k11, k12, k13, k14, k15, k16, k17⟩ :=
    rule_shapeKeys T
  have hi : i < 18 := by
    by_contra hc
    have : codeRules.length ≤ i := by
      have : codeRules.length = 18 := rfl
      omega
    rw [List.get?_eq_none.mpr this] at hr
    exact Option.noConfusion hr
  interval_cases i <;> simp only [codeRules, List.get?, Option.some.injEq] at hr <;> subst hr
  · exact k1 ht
  · exact k2 ht
  · exact k3 ht
  · exact k4 ht
  · exact k5 ht
  · exact k6 ht
  · exact k1 ht
  · exact k7 ht
  · exact k8 ht
  · exact k9 ht
  · exact k10 ht
  · exact k11 ht
  · exact k12 ht
  · exact k13 ht
  · exact k14 ht
  · exact k15 ht
  · exact k16 ht
  · exact k17 ht

/-- The if-chain of `detectHashType` is the first match in `codeRules`. -/
theorem detectHashType_eq_detectWith (hash : Option String) :
    detectHashType hash = detectWith codeRules hash := by
  cases hash with
  | none => rfl
  | some h =>
    unfold detectHashType detectWith
    by_cases hne : h = ""
    · simp only [hne, if_true]
    simp only [hne, if_false, firstMatch, codeRules, List.find?_cons, List.find?_nil, ruleMD5,
      ruleSHA1, ruleSHA256, ruleSHA512, ruleSHA224, ruleSHA384, ruleNTLM, ruleMySQL,
      ruleMD5Crypt, ruleBcrypt, ruleSHA256Crypt, ruleSHA512Crypt, rulePBKDF2, ruleArgon2,
      ruleScrypt, ruleYescrypt, ruleNetNTLMv2, ruleWPA]
    generalize jsTrim h.toList = T
    generalize rxMatch (rxHex 32) T = b1
    generalize rxMatch (rxHex 40) T = b2
    generalize rxMatch (rxHex 64) T = b3
    generalize rxMatch (rxHex 128) T = b4
    generalize rxMatch (rxHex 56) T = b5
    generalize rxMatch (rxHex 96) T = b6
    generalize rxMatch rxMySQL T = b7
    generalize rxMatch rxMD5Crypt T = b8
    generalize rxMatch rxBcrypt T = b9
    generalize rxMatch rxSHA256Crypt T = b10
    generalize rxMatch rxSHA512Crypt T = b11
    generalize testPBKDF2 T = b12
    generalize rxMatch rxArgon2 T = b13
    generalize rxMatch rxScrypt T = b14
    generalize rxMatch rxYescrypt T = b15
    generalize rxMatch rxNetNTLMv2 T = b16
    generalize rxMatch rxWPA T = b17
    revert b1 b2 b3 b4 b5 b6 b7 b8 b9 b10 b11 b12 b13 b14 b15 b16 b17
    iterate 17
      intro b
      cases b
      swap
      · intros
        rfl
      simp only [Bool.false_eq_true, if_false]

/-- The order of the rules does not matter between the code and the
specification: the first match is the same. -/
theorem firstMatch_spec_eq_code (T : List Char) :
    firstMatch specRules T = firstMatch codeRules T := by
  obtain ⟨k1, k2, k3, k4, k5, k6, k7, k8, k9, k10, k11, k12, k13, k14, k15, k16, k17⟩ :=
    rule_shapeKeys T
  simp only [firstMatch, codeRules, specRules, List.find?_cons, List.find?_nil, ruleMD5,
    ruleSHA1, ruleSHA256, ruleSHA512, ruleSHA224, ruleSHA384, ruleNTLM, ruleMySQL,
    ruleMD5Crypt, ruleBcrypt, ruleSHA256Crypt, ruleSHA512Crypt, rulePBKDF2, ruleArgon2,
    ruleScrypt, ruleYescrypt, ruleNetNTLMv2, ruleWPA]
  revert k1 k2 k3 k4 k5 k6 k7 k8 k9 k10 k11 k12 k13 k14 k15 k16 k17
  generalize shapeKey T = k
  generalize rxMatch (rxHex 32) T = b1
  generalize rxMatch (rxHex 40) T = b2
  generalize rxMatch (rxHex 64) T = b3
  generalize rxMatch (rxHex 128) T = b4
  generalize rxMatch (rxHex 56) T = b5
  generalize rxMatch (rxHex 96) T = b6
  generalize rxMatch rxMySQL T = b7
  generalize rxMatch rxMD5Crypt T = b8
  generalize rxMatch rxBcrypt T = b9
  generalize rxMatch rxSHA256Crypt T = b10
  generalize rxMatch rxSHA512Crypt T = b11
  generalize testPBKDF2 T = b12
  generalize rxMatch rxArgon2 T = b13
  generalize rxMatch rxScrypt T = b14
  generalize rxMatch rxYescrypt T = b15
  generalize rxMatch rxNetNTLMv2 T = b16
  generalize rxMatch rxWPA T = b17
  revert b1 b2 b3 b4 b5 b6 b7 b8 b9 b10 b11 b12 b13 b14 b15 b16 b17
  iterate 17
    intro b
    cases b
    swap
    · intros
      simp_all
    simp only [Bool.false_eq_true, false_implies, true_implies]

/-- C16: for every input `detectHashType` returns the same result as the
detector that applies the same pattern rules in the order of the
specification (structured, prefixed and delimited rules first, bare
fixed-length hex rules last, MD5 before NTLM), first match wins; the code's
own if-chain is the first match in the code's order; and apart from the
MD5/NTLM pair no string matches two rules. -/
theorem detect_order_independent :
    (∀ hash : Option String, detectHashType hash = detectSpecOrder hash) ∧
    (∀ hash : Option String, detectHashType hash = detectWith codeRules hash) ∧
    (∀ (T : List Char) (i j : Nat) (ri rj : Rule), i < j →
      codeRules.get? i = some ri → codeRules.get? j = some rj →
      ri.test T = true → rj.test T = true → i = 0 ∧ j = 6 ∧ ri.type = "MD5" ∧ rj.type = "NTLM") := by
  refine ⟨?_, detectHashType_eq_detectWith, ?_⟩
  · intro hash
    rw [detectHashType_eq_detectWith]
    cases hash with
    | none => rfl
    | some h =>
      unfold detectSpecOrder detectWith
      dsimp only
      split_ifs
      · rfl
      · exact (firstMatch_spec_eq_code _).symm
  · intro T i j ri rj hij hi hj hti htj
    have ki := codeRules_key T i ri hi hti
    have kj := codeRules_key T j rj hj htj
    have hj18 : j < 18 := by
      by_contra hc
      have : codeRules.length ≤ j := by
        have : codeRules.length = 18 := rfl
        omega
      rw [List.get?_eq_none.mpr this] at hj
      exact Option.noConfusion hj
    have key : ∀ j, j < 18 → ∀ i, i < j → ruleKeys.getD i 0 = ruleKeys.getD j 0 →
        i = 0 ∧ j = 6 := by decide
    obtain ⟨rfl, rfl⟩ := key j hj18 i hij (by rw [← ki, ← kj])
    simp only [codeRules, List.get?, Option.some.injEq] at hi hj
    subst hi hj
    exact ⟨rfl, rfl, rfl, rfl⟩

/-- The worker and the engine use the same alphabet. -/
theorem worker_chars_eq : Worker.chars = chars := rfl

/-- Every index below 64 yields the one character at that place of the
alphabet, which is in the declared alphabet. -/
theorem charAt_chars_eq : ∀ i, i < 64 →
    Worker.charAt chars i = [chars.toList.getD i 'A'] ∧
      chars.toList.getD i 'A' ∈ chars.toList ∧ inSaltAlphabet (chars.toList.getD i 'A') = true := by
  decide

/-- The characters of a salt: the alphabet symbol with index octet modulo 64
for each octet drawn. -/
theorem generateSalt_toList (rnd : Nat → Byte) (n : Nat) :
    (generateSalt rnd (some n)).toList =
      (List.range n).map fun i => chars.toList.getD ((rnd i).val % 64) 'A' := by
  have hc : chars.length = 64 := by decide
  have key : ∀ l : List Nat, (l.flatMap fun i =>
      Worker.charAt chars ((rnd i).val % chars.length)) =
      l.map fun i => chars.toList.getD ((rnd i).val % 64) 'A' := by
    intro l
    induction l with
    | nil => rfl
    | cons a l ih =>
      rw [List.flatMap_cons, ih, hc, (charAt_chars_eq _ (Nat.mod_lt _ (by decide))).1]
      rfl
  simpa [generateSalt] using key (List.range n)

/-- C22: for every length `n` and every content of the random octets,
`generateSalt(n)` returns a string of exactly `n` characters (also counted
in UTF-16 code units, as `length` counts), each of them one of `A-Z`, `a-z`,
`0-9`, `.` and `/`; without an argument the length is 16. -/
theorem generateSalt_length_alphabet (rnd : Nat → Byte) (n : Nat) :
    (generateSalt rnd (some n)).toList.length = n ∧
    (utf16 (generateSalt rnd (some n))).length = n ∧
    (∀ c ∈ (generateSalt rnd (some n)).toList, c ∈ chars.toList ∧ inSaltAlphabet c = true) ∧
    (generateSalt rnd none).toList.length = 16 := by
  have hmem : ∀ m, ∀ c ∈ (generateSalt rnd (some m)).toList,
      c ∈ chars.toList ∧ inSaltAlphabet c = true := by
    intro m c hc
    rw [generateSalt_toList, List.mem_map] at hc
    obtain ⟨i, -, rfl⟩ := hc
    exact (charAt_chars_eq _ (Nat.mod_lt _ (by decide))).2
  have hlen : ∀ m, (generateSalt rnd (some m)).toList.length = m := by
    intro m
    rw [generateSalt_toList, List.length_map, List.length_range]
  refine ⟨hlen n, ?_, hmem n, hlen 16⟩
  have hu : ∀ l : List Char, (∀ c ∈ l, inSaltAlphabet c = true) →
      (l.flatMap fun c => if c.toNat < 0x10000 then [c.toNat]
        else [0xD800 + (c.toNat - 0x10000) / 0x400, 0xDC00 + (c.toNat - 0x10000) % 0x400]).length
        = l.length := by
    intro l
    induction l with
    | nil => intro _; rfl
    | cons a l ih =>
      intro h
      have ha := h a (List.mem_cons_self _ _)
      have hlt : a.toNat < 0x10000 := by
        have e1 : 'Z'.toNat = 90 := rfl
        have e2 : 'z'.toNat = 122 := rfl
        have e3 : '9'.toNat = 57 := rfl
        simp only [inSaltAlphabet, rng, Bool.or_eq_true, Bool.and_eq_true, decide_eq_true_eq,
          beq_iff_eq, e1, e2, e3] at ha
        rcases ha with (((h1 | h1) | h1) | h1) | h1
        · omega
        · omega
        · omega
        · rw [h1]; decide
        · rw [h1]; decide
      rw [List.flatMap_cons, List.length_append, ih fun c hc => h c (List.mem_cons_of_mem _ hc)]
      simp [hlt, Nat.add_comm]
  have := hu (generateSalt rnd (some n)).toList fun c hc => (hmem n c hc).2
  rw [hlen n] at this
  exact this

/-- C23: the salt alphabet has exactly 64 pairwise distinct symbols, the
character `generateSalt` writes for an octet is the symbol with index octet
modulo 64, and exactly 4 of the 256 octet values are sent to each symbol;
the worker's `generateRandomSalt` uses the same alphabet and map. -/
theorem salt_map_unbiased :
    chars.length = 64 ∧ chars.toList.length = 64 ∧ chars.toList.Nodup ∧
    (∀ c ∈ chars.toList, (octetsOf chars c).length = 4) ∧
    (∀ (rnd : Nat → Byte) (n : Nat), (generateSalt rnd (some n)).toList =
      (List.range n).map fun i => chars.toList.getD ((rnd i).val % 64) 'A') ∧
    Worker.chars = chars ∧
    (∀ (rnd : Nat → Byte) (n : Nat), Worker.generateRandomSalt rnd n = generateSalt rnd (some n)) := by
  refine ⟨by decide, by decide, by decide, by decide, generateSalt_toList, rfl, ?_⟩
  intro rnd n
  rfl

/-- The worker's `generateHash` is its guard, the family formatting and the
output formatting, one after the other. -/
theorem generateHash_eq_format (C : CryptoJS) (rnd : Nat → Byte) (text algorithm : String)
    (options : HashOptions) :
    Worker.generateHash C rnd text algorithm options =
      if text = "" then ""
      else Worker.formatOutput (orStr options.outputFormat "hex") (options.uppercase.getD false)
        (Worker.familyResult C rnd text algorithm options) := rfl

/-- What the output formatting does to a result, by cases. -/
theorem formatOutput_cases (outputFormat : String) (uppercase : Bool) (r : String) :
    (includesDollar r = true → Worker.formatOutput outputFormat uppercase r = r) ∧
    (includesDollar r = false → outputFormat = "base64" →
      Worker.formatOutput outputFormat uppercase r = encBase64Stringify (encHexParse r)) ∧
    (includesDollar r = false → outputFormat = "hex" → uppercase = true →
      Worker.formatOutput outputFormat uppercase r = toUpperCase r) ∧
    (includesDollar r = false → outputFormat ≠ "base64" →
      (outputFormat ≠ "hex" ∨ uppercase = false) →
      Worker.formatOutput outputFormat uppercase r = r) := by
  refine ⟨?_, ?_, ?_, ?_⟩
  · intro h
    simp [Worker.formatOutput, h]
  · intro h hf
    subst hf
    simp [Worker.formatOutput, h]
  · intro h hf hu
    subst hf hu
    simp [Worker.formatOutput, h]
  · intro h hf hu
    rcases hu with hu | hu
    · simp [Worker.formatOutput, h, hf, hu]
    · simp [Worker.formatOutput, h, hf, hu]

/-- C21: for every algorithm, non-empty text and options, the worker's
`generateHash` returns the output formatting of the family-formatted
result.  A result that contains `$` is returned unchanged whatever
`outputFormat` and `uppercase` are.  A result without `$` is re-encoded with
Base64 exactly when `outputFormat` is 'base64', upper-cased exactly when
`uppercase` is set and `outputFormat` is 'hex', and returned unchanged
otherwise. -/
theorem output_post_processing (C : CryptoJS) (rnd : Nat → Byte) (text algorithm : String)
    (options : HashOptions) (ht : text ≠ "") :
    (includesDollar (Worker.familyResult C rnd text algorithm options) = true →
      Worker.generateHash C rnd text algorithm options =
        Worker.familyResult C rnd text algorithm options) ∧
    (includesDollar (Worker.familyResult C rnd text algorithm options) = false →
      orStr options.outputFormat "hex" = "base64" →
      Worker.generateHash C rnd text algorithm options =
        encBase64Stringify (encHexParse (Worker.familyResult C rnd text algorithm options))) ∧
    (includesDollar (Worker.familyResult C rnd text algorithm options) = false →
      orStr options.outputFormat "hex" = "hex" → options.uppercase.getD false = true →
      Worker.generateHash C rnd text algorithm options =
        toUpperCase (Worker.familyResult C rnd text algorithm options)) ∧
    (includesDollar (Worker.familyResult C rnd text algorithm options) = false →
      orStr options.outputFormat "hex" ≠ "base64" →
      (orStr options.outputFormat "hex" ≠ "hex" ∨ options.uppercase.getD false = false) →
      Worker.generateHash C rnd text algorithm options =
        Worker.familyResult C rnd text algorithm options) := by
  rw [generateHash_eq_format, if_neg ht]
  exact formatOutput_cases _ _ _

/-- Witness of `output_post_processing`: the MD5 of 'a' with the uppercase
flag is the upper-cased hex digest. -/
theorem output_post_processing_witness :
    "a" ≠ "" ∧
    Worker.generateHash zeroCrypto (fun _ => 0) "a" "md5" { uppercase := some true } =
      toUpperCase (Worker.familyResult zeroCrypto (fun _ => 0) "a" "md5"
        { uppercase := some true }) :=
  ⟨by decide,
    (output_post_processing zeroCrypto (fun _ => 0) "a" "md5" { uppercase := some true }
      (by decide)).2.2.1 (by decide) (by decide) (by decide)⟩

/-- A conditional bonus raises a bound on the score by the bonus. -/
theorem addIf_le (c : Bool) (v s b : ℚ) (hv : 0 ≤ v) (hs : s ≤ b) : addIf c v s ≤ b + v := by
  unfold addIf
  split_ifs <;> linarith

/-- A conditional penalty keeps a bound on the score. -/
theorem subIf_le (c : Bool) (v s b : ℚ) (hv : 0 ≤ v) (hs : s ≤ b) : subIf c v s ≤ b := by
  unfold subIf
  split_ifs <;> linarith

/-- C29 (the counterexample): for the empty string no rating is returned, so
the rating is neither 'Very Weak' nor 'Weak'. -/
theorem empty_password_no_rating :
    ¬ ((evaluatePasswordStrength "").rating = some "Very Weak" ∨
       (evaluatePasswordStrength "").rating = some "Weak") := by
  have h : (evaluatePasswordStrength "").rating = none := rfl
  rw [h]
  rintro (h | h) <;> exact Option.noConfusion h

/-- C29 (amended): for every password string the score is at most 32 (the
length gives at most 10 and the four character classes at most 5+5+5+7);
for every non-empty password the rating is 'Very Weak' or 'Weak', for the
empty string there is no rating, and the ratings 'Moderate', 'Strong' and
'Very Strong' are never returned. -/
theorem score_at_most_32 (password : String) :
    (evaluatePasswordStrength password).score ≤ 32 ∧
    (password ≠ "" → (evaluatePasswordStrength password).rating = some "Very Weak" ∨
      (evaluatePasswordStrength password).rating = some "Weak") ∧
    (password = "" → (evaluatePasswordStrength password).rating = none) ∧
    (evaluatePasswordStrength password).rating ≠ some "Moderate" ∧
    (evaluatePasswordStrength password).rating ≠ some "Strong" ∧
    (evaluatePasswordStrength password).rating ≠ some "Very Strong" := by
  by_cases h : password = ""
  · subst h
    have hs : (evaluatePasswordStrength "").score = 0 := rfl
    have hr : (evaluatePasswordStrength "").rating = none := rfl
    rw [hs, hr]
    refine ⟨by norm_num, fun h => absurd rfl h, fun _ => rfl, ?_, ?_, ?_⟩ <;>
      exact fun h => Option.noConfusion h
  · have hs : (evaluatePasswordStrength password).score ≤ 32 := by
      simp only [evaluatePasswordStrength, if_neg h]
      refine max_le (by norm_num) (le_trans (min_le_right _ _) ?_)
      refine subIf_le _ _ _ _ (by norm_num) ?_
      split_ifs
      · norm_num
      refine subIf_le _ _ _ _ (by norm_num) ?_
      refine subIf_le _ _ _ _ (by norm_num) ?_
      refine subIf_le _ _ _ _ (by norm_num) ?_
      have e32 : (32 : ℚ) = 10 + 5 + 5 + 5 + 7 := by norm_num
      rw [e32]
      refine addIf_le _ _ _ _ (by norm_num) ?_
      refine addIf_le _ _ _ _ (by norm_num) ?_
      refine addIf_le _ _ _ _ (by norm_num) ?_
      refine addIf_le _ _ _ _ (by norm_num) ?_
      unfold addIf
      split_ifs
      · rw [zero_add]
        exact min_le_right _ _
      · norm_num
    have hr : (evaluatePasswordStrength password).rating =
        some (if (evaluatePasswordStrength password).score < 20 then "Very Weak"
          else if (evaluatePasswordStrength password).score < 40 then "Weak"
          else if (evaluatePasswordStrength password).score < 60 then "Moderate"
          else if (evaluatePasswordStrength password).score < 80 then "Strong"
          else "Very Strong") := by
      simp only [evaluatePasswordStrength, if_neg h]
    have h40 : (evaluatePasswordStrength password).score < 40 := lt_of_le_of_lt hs (by norm_num)
    rw [hr]
    refine ⟨hs, fun _ => ?_, fun h0 => absurd h0 h, ?_, ?_, ?_⟩
    · by_cases h20 : (evaluatePasswordStrength password).score < 20
      · left
        rw [if_pos h20]
      · right
        rw [if_neg h20, if_pos h40]
    all_goals
      by_cases h20 : (evaluatePasswordStrength password).score < 20
      · rw [if_pos h20]
        decide
      · rw [if_neg h20, if_pos h40]
        decide

/-- The bound 32 is reached: a password of 21 code units with small and
capital letters, digits and a symbol scores 10 + 5 + 5 + 5 + 7 and is rated
'Weak'. -/
theorem score_32_reached :
    (evaluatePasswordStrength "Abcdefghij1234567890!").score = 32 ∧
    (evaluatePasswordStrength "Abcdefghij1234567890!").rating = some "Weak" := by
  have e : utf16 "Abcdefghij1234567890!" =
      [65, 98, 99, 100, 101, 102, 103, 104, 105, 106, 49, 50, 51, 52, 53, 54, 55, 56, 57, 48,
        33] := by decide
  have c : commonPasswords.contains (toLowerCase "Abcdefghij1234567890!") = false := by decide
  have n : ("Abcdefghij1234567890!" = "") = False := by decide
  constructor
  · simp only [evaluatePasswordStrength, n, if_false, e, c]
    norm_num [isLower, isUpper, isDigit, hasRepeat, onlyDigits, onlyLetters, onlyLettersI,
      isLineTerminator, addIf, subIf]
  · simp only [evaluatePasswordStrength, n, if_false, e, c]
    norm_num [isLower, isUpper, isDigit, hasRepeat, onlyDigits, onlyLetters, onlyLettersI,
      isLineTerminator, addIf, subIf]

/-- Settling a promise leaves the statistics alone. -/
theorem settle_stats (s : Engine) (p : Nat) (v : Settlement) :
    (settle s p v).lastUpdateTime = s.lastUpdateTime ∧
    (settle s p v).statsUpdates = s.statsUpdates ∧
    (settle s p v).hashesGenerated = s.hashesGenerated ∧
    (settle s p v).hashesPerSecond = s.hashesPerSecond := by
  unfold settle
  split_ifs <;> exact ⟨rfl, rfl, rfl, rfl⟩

/-- The callbacks leave the statistics alone. -/
theorem callbacks_stats (s : Engine) :
    (∀ (cb : HashCallback) hash id,
      (cb.call s hash id).lastUpdateTime = s.lastUpdateTime ∧
      (cb.call s hash id).statsUpdates = s.statsUpdates) ∧
    (∀ (cb : BulkCallback) results batchId,
      (cb.call s results batchId).lastUpdateTime = s.lastUpdateTime ∧
      (cb.call s results batchId).statsUpdates = s.statsUpdates) ∧
    (∀ (cb : ErrorCallback) error,
      (cb.call s error).lastUpdateTime = s.lastUpdateTime ∧
      (cb.call s error).statsUpdates = s.statsUpdates) := by
  refine ⟨?_, ?_, ?_⟩
  · intro cb hash id
    unfold HashCallback.call
    split_ifs
    · exact ⟨(settle_stats _ _ _).1, (settle_stats _ _ _).2.1⟩
    · exact ⟨rfl, rfl⟩
  · intro cb results batchId
    unfold BulkCallback.call
    dsimp only
    split_ifs
    · exact ⟨(settle_stats _ _ _).1, (settle_stats _ _ _).2.1⟩
    · exact ⟨rfl, rfl⟩
    · exact ⟨rfl, rfl⟩
  · intro cb error
    cases cb with
    | single id promise =>
      unfold ErrorCallback.call
      dsimp only
      split_ifs
      · exact ⟨(settle_stats _ _ _).1, (settle_stats _ _ _).2.1⟩
      · exact ⟨rfl, rfl⟩
    | bulk batchId promise =>
      unfold ErrorCallback.call
      dsimp only
      split_ifs
      · exact ⟨(settle_stats _ _ _).1, (settle_stats _ _ _).2.1⟩
      · exact ⟨rfl, rfl⟩

/-- One call of `updateHashRate`: the time of the last update does not go
back, and a notification sets it to `now`, at least 1000 ms after the
previous one. -/
theorem updateHashRate_time (s : Engine) (now : Int) :
    s.lastUpdateTime ≤ (updateHashRate s now).lastUpdateTime ∧
    (s.statsUpdates.length < (updateHashRate s now).statsUpdates.length →
      (updateHashRate s now).lastUpdateTime = now ∧ s.lastUpdateTime + 1000 ≤ now) := by
  unfold updateHashRate
  dsimp only
  split_ifs with h1 h2
  · exact ⟨by show s.lastUpdateTime ≤ now; omega, fun _ => ⟨rfl, by omega⟩⟩
  · exact ⟨by show s.lastUpdateTime ≤ now; omega, fun _ => ⟨rfl, by omega⟩⟩
  · exact ⟨le_refl _, fun h => absurd h (lt_irrefl _)⟩

/-- One call of `handleWorkerMessage`: the time of the last update does not
go back, and a notification sets it to the delivery time, at least 1000 ms
after the previous one. -/
theorem handleWorkerMessage_time (s : Engine) (now : Int) (data : WorkerMessage) :
    s.lastUpdateTime ≤ (handleWorkerMessage s now data).lastUpdateTime ∧
    (s.statsUpdates.length < (handleWorkerMessage s now data).statsUpdates.length →
      (handleWorkerMessage s now data).lastUpdateTime = now ∧ s.lastUpdateTime + 1000 ≤ now) := by
  cases data with
  | result hash id =>
    have h := updateHashRate_time { s with hashesGenerated := s.hashesGenerated + 1 } now
    unfold handleWorkerMessage
    dsimp only
    cases hcb : (updateHashRate { s with hashesGenerated := s.hashesGenerated + 1 } now).onHash with
    | none => exact h
    | some cb =>
      dsimp only
      obtain ⟨e1, e2⟩ := (callbacks_stats
        (updateHashRate { s with hashesGenerated := s.hashesGenerated + 1 } now)).1 cb hash id
      rw [e1, e2]
      exact h
  | bulk_result results batchId =>
    have h := updateHashRate_time
      { s with hashesGenerated := s.hashesGenerated + results.length } now
    unfold handleWorkerMessage
    dsimp only
    cases hcb : (updateHashRate
        { s with hashesGenerated := s.hashesGenerated + results.length } now).onBulkHash with
    | none => exact h
    | some cb =>
      dsimp only
      obtain ⟨e1, e2⟩ := (callbacks_stats (updateHashRate
        { s with hashesGenerated := s.hashesGenerated + results.length } now)).2.1 cb results
        batchId
      rw [e1, e2]
      exact h
  | error error id batchId =>
    unfold handleWorkerMessage
    dsimp only
    split
    · next cb _ =>
      rw [((callbacks_stats _).2.2 cb _).1, ((callbacks_stats _).2.2 cb _).2]
      exact ⟨le_refl _, fun h => absurd h (lt_irrefl _)⟩
    · exact ⟨le_refl _, fun h => absurd h (lt_irrefl _)⟩

/-- Along a sequence of deliveries every notification comes at least 1000 ms
after the last update before the sequence, and any two notifications are at
least 1000 ms apart. -/
theorem notifyTimes_spaced (msgs : List (Int × WorkerMessage)) : ∀ s : Engine,
    (∀ t ∈ notifyTimes s msgs, s.lastUpdateTime + 1000 ≤ t) ∧
    (notifyTimes s msgs).Pairwise (fun a b => a + 1000 ≤ b) := by
  induction msgs with
  | nil =>
    intro s
    exact ⟨fun t ht => by simp [notifyTimes] at ht, by simp [notifyTimes]⟩
  | cons m ms ih =>
    intro s
    obtain ⟨hmono, hnot⟩ := handleWorkerMessage_time s m.1 m.2
    obtain ⟨ih1, ih2⟩ := ih (handleWorkerMessage s m.1 m.2)
    have hrest : ∀ t ∈ notifyTimes (handleWorkerMessage s m.1 m.2) ms,
        s.lastUpdateTime + 1000 ≤ t := fun t ht => by
      have := ih1 t ht
      omega
    unfold notifyTimes
    split_ifs with hn
    · obtain ⟨e, h1000⟩ := hnot hn
      refine ⟨?_, ?_⟩
      · intro t ht
        simp only [List.singleton_append, List.mem_cons] at ht
        rcases ht with rfl | ht
        · exact h1000
        · exact hrest t ht
      · simp only [List.singleton_append, List.pairwise_cons]
        refine ⟨fun t ht => ?_, ih2⟩
        have := ih1 t ht
        rw [e] at this
        exact this
    · simp only [List.nil_append]
      exact ⟨hrest, ih2⟩

namespace Binary64

/-- With enough fuel the loop finds the leading bit. -/
theorem log2Loop_spec : ∀ (fuel n : Nat), n ≤ fuel → n ≠ 0 →
    2 ^ log2Loop fuel n ≤ n ∧ n < 2 ^ (log2Loop fuel n + 1)
  | 0, n, h, h0 => absurd (Nat.le_zero.mp h) h0
  | fuel + 1, n, h, h0 => by
    unfold log2Loop
    split_ifs with h2
    · simp only [pow_zero, zero_add, pow_one]
      omega
    · have ih := log2Loop_spec fuel (n / 2) (by omega) (by omega)
      rw [pow_succ] at ih
      rw [pow_succ, pow_succ, pow_succ]
      generalize 2 ^ log2Loop fuel (n / 2) = a at ih ⊢
      omega

/-- The leading bit of a positive number: `2 ^ log2 n ≤ n < 2 ^ (log2 n + 1)`. -/
theorem log2_spec (n : Nat) (hn : n ≠ 0) : 2 ^ log2 n ≤ n ∧ n < 2 ^ (log2 n + 1) :=
  log2Loop_spec n n le_rfl hn

/-- The rounded quotient is within one half of the quotient. -/
theorem roundHalfEven_near (N D : Nat) (hD : 0 < D) :
    2 * N ≤ 2 * (roundHalfEven N D * D) + D ∧ 2 * (roundHalfEven N D * D) ≤ 2 * N + D := by
  have e := Nat.div_add_mod N D
  have hr := Nat.mod_lt N hD
  unfold roundHalfEven
  generalize N / D = q at e ⊢
  generalize N % D = r at e hr ⊢
  have e1 : q * D = D * q := mul_comm _ _
  have e2 : (q + 1) * D = D * q + D := by ring
  generalize D * q = P at e e1 e2
  split_ifs <;> simp only [e1, e2] <;> omega

/-- A power of two with an integer exponent as a quotient of two powers. -/
theorem two_zpow (k : Int) : (2 : ℚ) ^ k = (2 : ℚ) ^ k.toNat / (2 : ℚ) ^ (-k).toNat := by
  cases k with
  | ofNat j =>
    simp only [Int.ofNat_eq_coe, Int.toNat_natCast, zpow_natCast, Int.toNat_neg_nat, pow_zero, div_one]
  | negSucc j =>
    simp only [Int.toNat_negSucc, pow_zero, Int.neg_negSucc, zpow_negSucc, one_div]
    rfl

/-- The scaled fraction times `2 ^ k` is the quotient `n / d`. -/
theorem scale_ratio (n d : Nat) (k : Int) (hd : d ≠ 0) :
    ((scale n d k).1 : ℚ) / ((scale n d k).2 : ℚ) * (2 : ℚ) ^ k = (n : ℚ) / (d : ℚ) := by
  have hd' : (d : ℚ) ≠ 0 := by exact_mod_cast hd
  have h1 : ((2 : ℚ) ^ k.toNat) ≠ 0 := pow_ne_zero _ (by norm_num)
  have h2 : ((2 : ℚ) ^ (-k).toNat) ≠ 0 := pow_ne_zero _ (by norm_num)
  rw [two_zpow k]
  simp only [scale, Nat.cast_mul, Nat.cast_pow, Nat.cast_ofNat]
  field_simp
  ring

/-- The scaled quotient is at least `2 ^ 52`. -/
theorem exponent_le (n d : Nat) (hn : n ≠ 0) (hd : d ≠ 0) :
    (2 : ℚ) ^ (exponent n d + 52) ≤ (n : ℚ) / (d : ℚ) := by
  have hd' : (0 : ℚ) < (d : ℚ) := by exact_mod_cast Nat.pos_of_ne_zero hd
  unfold exponent
  dsimp only
  split_ifs with h
  · have hs := scale_ratio n d ((log2 n : Int) - (log2 d : Int) - 53) hd
    have hD : (0 : ℚ) < (((scale n d ((log2 n : Int) - (log2 d : Int) - 53)).2 : Nat) : ℚ) := by
      have : 0 < (scale n d ((log2 n : Int) - (log2 d : Int) - 53)).2 := by
        simp only [scale]
        positivity
      exact_mod_cast this
    have hq : (2 : ℚ) ^ 53 * (((scale n d ((log2 n : Int) - (log2 d : Int) - 53)).2 : Nat) : ℚ) ≤
        (((scale n d ((log2 n : Int) - (log2 d : Int) - 53)).1 : Nat) : ℚ) := by exact_mod_cast h
    rw [← hs]
    generalize (log2 n : Int) - (log2 d : Int) - 53 = k at *
    generalize (((scale n d k).1 : Nat) : ℚ) = N at *
    generalize (((scale n d k).2 : Nat) : ℚ) = D at *
    have e : (2 : ℚ) ^ (k + 1 + 52) = 2 ^ 53 * (2 : ℚ) ^ k := by
      rw [show k + 1 + 52 = k + (53 : Nat) from by push_cast; ring, zpow_add₀ (by norm_num), zpow_natCast]
      ring
    rw [e]
    have hk : (0 : ℚ) < (2 : ℚ) ^ k := zpow_pos (by norm_num) _
    have : (2 : ℚ) ^ 53 ≤ N / D := by
      rw [le_div_iff₀ hD]
      exact hq
    exact mul_le_mul_of_nonneg_right this hk.le
  · obtain ⟨a1, _⟩ := log2_spec n hn
    obtain ⟨_, b2⟩ := log2_spec d hd
    have a1' : (2 : ℚ) ^ (log2 n) ≤ (n : ℚ) := by exact_mod_cast a1
    have b2' : (d : ℚ) < (2 : ℚ) ^ (log2 d + 1) := by exact_mod_cast b2
    have e : (2 : ℚ) ^ ((log2 n : Int) - (log2 d : Int) - 53 + 52) =
        (2 : ℚ) ^ (log2 n) / (2 : ℚ) ^ (log2 d + 1) := by
      rw [show (log2 n : Int) - (log2 d : Int) - 53 + 52 = (log2 n : Int) - ((log2 d + 1 : Nat) : Int) from by
        push_cast; ring, zpow_sub₀ (by norm_num), zpow_natCast, zpow_natCast]
    rw [e]
    have hp : (0 : ℚ) < (2 : ℚ) ^ (log2 d + 1) := pow_pos (by norm_num) _
    rw [div_le_div_iff₀ hp hd']
    have hn0 : (0 : ℚ) ≤ (n : ℚ) := Nat.cast_nonneg n
    have hp0 : (0 : ℚ) ≤ (2 : ℚ) ^ (log2 n) := (pow_pos (by norm_num) _).le
    nlinarith

/-- The quotient of two positive integers is rounded with a relative error
of at most `2 ^ (-53)`. -/
theorem divNat_near (n d : Nat) (hd : d ≠ 0) :
    |toRat (divNat n d) - (n : ℚ) / (d : ℚ)| ≤ (n : ℚ) / (d : ℚ) / 2 ^ 53 := by
  unfold divNat
  split_ifs with hn
  · subst hn
    simp [toRat]
  · have hs := scale_ratio n d (exponent n d) hd
    have he := exponent_le n d hn hd
    have hDpos : 0 < (scale n d (exponent n d)).2 := by
      simp only [scale]
      have := Nat.pos_of_ne_zero hd
      positivity
    have hr := roundHalfEven_near (scale n d (exponent n d)).1 (scale n d (exponent n d)).2 hDpos
    have hD : (0 : ℚ) < (((scale n d (exponent n d)).2 : Nat) : ℚ) := by exact_mod_cast hDpos
    have r1 : (2 * ((scale n d (exponent n d)).1 : ℚ)) ≤
        2 * ((roundHalfEven (scale n d (exponent n d)).1 (scale n d (exponent n d)).2 : ℚ) *
          ((scale n d (exponent n d)).2 : ℚ)) + ((scale n d (exponent n d)).2 : ℚ) := by
      exact_mod_cast hr.1
    have r2 : 2 * ((roundHalfEven (scale n d (exponent n d)).1 (scale n d (exponent n d)).2 : ℚ) *
          ((scale n d (exponent n d)).2 : ℚ)) ≤
        (2 * ((scale n d (exponent n d)).1 : ℚ)) + ((scale n d (exponent n d)).2 : ℚ) := by
      exact_mod_cast hr.2
    simp only [toRat]
    generalize ((roundHalfEven (scale n d (exponent n d)).1 (scale n d (exponent n d)).2 : Nat) : ℚ) = m at *
    generalize (((scale n d (exponent n d)).1 : Nat) : ℚ) = N at *
    generalize (((scale n d (exponent n d)).2 : Nat) : ℚ) = D at *
    generalize exponent n d = k at *
    have hk : (0 : ℚ) < (2 : ℚ) ^ k := zpow_pos (by norm_num) _
    have e52 : (2 : ℚ) ^ (k + 52) = (2 : ℚ) ^ k * 2 ^ 52 := by
      rw [show k + 52 = k + (52 : Nat) from by push_cast; ring, zpow_add₀ (by norm_num), zpow_natCast]
    rw [e52] at he
    rw [← hs] at he ⊢
    have hND : N = N / D * D := by field_simp
    generalize N / D = t at *
    subst hND
    have t1 : t ≤ m + 1 / 2 := by nlinarith
    have t2 : m ≤ t + 1 / 2 := by nlinarith
    have t3 : (2 : ℚ) ^ 52 ≤ t := by
      have h3 : (2 : ℚ) ^ 52 * 2 ^ k ≤ t * 2 ^ k := by
        rw [mul_comm]
        exact he
      exact le_of_mul_le_mul_right h3 hk
    rw [abs_le]
    constructor
    · have : (t - m) * 2 ^ k ≤ (1 / 2) * 2 ^ k := mul_le_mul_of_nonneg_right (by linarith) hk.le
      have : (1 / 2 : ℚ) * 2 ^ k ≤ t * 2 ^ k / 2 ^ 53 := by
        rw [le_div_iff₀ (by norm_num)]
        nlinarith
      linarith
    · have : (m - t) * 2 ^ k ≤ (1 / 2) * 2 ^ k := mul_le_mul_of_nonneg_right (by linarith) hk.le
      have : (1 / 2 : ℚ) * 2 ^ k ≤ t * 2 ^ k / 2 ^ 53 := by
        rw [le_div_iff₀ (by norm_num)]
        nlinarith
      linarith

/-- The quotient of two Numbers is rounded with a relative error of at most
`2 ^ (-53)`. -/
theorem div_near (x y : Binary64) (hy : y.mant ≠ 0) :
    |toRat (div x y) - toRat x / toRat y| ≤ toRat x / toRat y / 2 ^ 53 := by
  have h := divNat_near x.mant y.mant hy
  have hk : (0 : ℚ) < (2 : ℚ) ^ (x.exp - y.exp) := zpow_pos (by norm_num) _
  have e1 : toRat (div x y) = toRat (divNat x.mant y.mant) * (2 : ℚ) ^ (x.exp - y.exp) := by
    simp only [toRat, div]
    rw [show (divNat x.mant y.mant).exp + x.exp - y.exp =
      (divNat x.mant y.mant).exp + (x.exp - y.exp) from by ring, zpow_add₀ (by norm_num)]
    ring
  have e2 : toRat x / toRat y = (x.mant : ℚ) / (y.mant : ℚ) * (2 : ℚ) ^ (x.exp - y.exp) := by
    simp only [toRat]
    rw [zpow_sub₀ (by norm_num)]
    have : (2 : ℚ) ^ y.exp ≠ 0 := (zpow_pos (by norm_num) _).ne'
    have hy' : (y.mant : ℚ) ≠ 0 := by exact_mod_cast hy
    field_simp
  rw [e1, e2, ← sub_mul, abs_mul, abs_of_pos hk]
  calc |toRat (divNat x.mant y.mant) - (x.mant : ℚ) / (y.mant : ℚ)| * (2 : ℚ) ^ (x.exp - y.exp)
      ≤ (x.mant : ℚ) / (y.mant : ℚ) / 2 ^ 53 * (2 : ℚ) ^ (x.exp - y.exp) :=
        mul_le_mul_of_nonneg_right h hk.le
    _ = (x.mant : ℚ) / (y.mant : ℚ) * (2 : ℚ) ^ (x.exp - y.exp) / 2 ^ 53 := by ring

end Binary64

/-- The result of `Math.round` is the floor of the argument plus one half. -/
theorem Math.round_bounds (x : Binary64) :
    (Math.round x : ℚ) ≤ x.toRat + 1 / 2 ∧ x.toRat + 1 / 2 < (Math.round x : ℚ) + 1 := by
  have hB : 0 < 2 * 2 ^ (-x.exp).toNat := by positivity
  have h1 := Nat.div_mul_le_self (2 * x.mant * 2 ^ x.exp.toNat + 2 ^ (-x.exp).toNat)
    (2 * 2 ^ (-x.exp).toNat)
  have h2 := Nat.lt_div_mul_add (a := 2 * x.mant * 2 ^ x.exp.toNat + 2 ^ (-x.exp).toNat) hB
  have e : x.toRat + 1 / 2 =
      (2 * (x.mant : ℚ) * 2 ^ x.exp.toNat + 2 ^ (-x.exp).toNat) / (2 * 2 ^ (-x.exp).toNat) := by
    have : ((2 : ℚ) ^ (-x.exp).toNat) ≠ 0 := pow_ne_zero _ (by norm_num)
    simp only [Binary64.toRat]
    rw [Binary64.two_zpow x.exp]
    field_simp
    ring
  unfold Math.round
  generalize (2 * x.mant * 2 ^ x.exp.toNat + 2 ^ (-x.exp).toNat) / (2 * 2 ^ (-x.exp).toNat) = R at h1 h2 ⊢
  have c1 : (R : ℚ) * (2 * 2 ^ (-x.exp).toNat) ≤
      2 * (x.mant : ℚ) * 2 ^ x.exp.toNat + 2 ^ (-x.exp).toNat := by exact_mod_cast h1
  have c2 : 2 * (x.mant : ℚ) * 2 ^ x.exp.toNat + 2 ^ (-x.exp).toNat <
      (R : ℚ) * (2 * 2 ^ (-x.exp).toNat) + 2 * 2 ^ (-x.exp).toNat := by exact_mod_cast h2
  have hBq : (0 : ℚ) < 2 * 2 ^ (-x.exp).toNat := by positivity
  rw [e]
  constructor
  · rw [le_div_iff₀ hBq]
    exact c1
  · rw [div_lt_iff₀ hBq]
    linarith

/-- Rounding a value that is close to a quotient of integers: when `y` is
within `1 / (2 * d)` of `n / d`, an integer `R` with `R ≤ y + 1/2 < R + 1`
is a nearest integer to `n / d`. -/
theorem nearest_of_close (n d R : Nat) (hd : 0 < d) (y : ℚ)
    (hy : |y - (n : ℚ) / (d : ℚ)| < 1 / (2 * (d : ℚ)))
    (h1 : (R : ℚ) ≤ y + 1 / 2) (h2 : y + 1 / 2 < (R : ℚ) + 1) :
    |(R : ℚ) - (n : ℚ) / (d : ℚ)| ≤ 1 / 2 := by
  have hdq : (0 : ℚ) < (d : ℚ) := by exact_mod_cast hd
  rw [abs_lt] at hy
  obtain ⟨hy1, hy2⟩ := hy
  have e : (n : ℚ) / (d : ℚ) * (d : ℚ) = (n : ℚ) := by field_simp
  have ed : 1 / (2 * (d : ℚ)) * (2 * (d : ℚ)) = 1 := by field_simp
  rw [abs_le]
  constructor
  · -- n / d ≤ R + 1/2
    by_contra hc
    push_neg at hc
    -- R + 1/2 < n / d, so (2 R + 1) d < 2 n, so (2 R + 1) d + 1 ≤ 2 n
    have a1 : (2 * (R : ℚ) + 1) * (d : ℚ) < 2 * (n : ℚ) := by nlinarith
    have a2 : (2 * R + 1) * d < 2 * n := by exact_mod_cast a1
    have a3 : (2 * R + 1) * d + 1 ≤ 2 * n := a2
    have a4 : (2 * (R : ℚ) + 1) * (d : ℚ) + 1 ≤ 2 * (n : ℚ) := by exact_mod_cast a3
    -- y < R + 1/2 and n/d - y < 1/(2d)
    nlinarith
  · by_contra hc
    push_neg at hc
    -- n / d < R - 1/2, so 2 n < (2 R - 1) d, so 2 n + 1 + d ≤ 2 R d
    have a1 : 2 * (n : ℚ) + (d : ℚ) < 2 * (R : ℚ) * (d : ℚ) := by nlinarith
    have a2 : 2 * n + d < 2 * R * d := by exact_mod_cast a1
    have a3 : 2 * n + d + 1 ≤ 2 * R * d := a2
    have a4 : 2 * (n : ℚ) + (d : ℚ) + 1 ≤ 2 * (R : ℚ) * (d : ℚ) := by exact_mod_cast a3
    nlinarith

/-- The rate `Math.round(hashesGenerated / elapsed)` with `elapsed = d / 1000`,
computed in binary64 arithmetic, is an integer nearest to the exact quotient
when fewer than `2 ^ 41` hashes were counted. -/
theorem rate_near (h d : Nat) (hd : 1000 ≤ d) (hh : h < 2 ^ 41) :
    |(Math.round (Binary64.div (Binary64.ofNat h)
        (Binary64.div (Binary64.ofNat d) (Binary64.ofNat 1000))) : ℚ) -
      (h : ℚ) / ((d : ℚ) / 1000)| ≤ 1 / 2 := by
  have hdq : (1000 : ℚ) ≤ (d : ℚ) := by exact_mod_cast hd
  have hhq : (h : ℚ) ≤ 2 ^ 41 - 1 := by
    have : h + 1 ≤ 2 ^ 41 := hh
    have : ((h + 1 : Nat) : ℚ) ≤ ((2 ^ 41 : Nat) : ℚ) := by exact_mod_cast this
    push_cast at this
    linarith
  have hh0 : (0 : ℚ) ≤ (h : ℚ) := Nat.cast_nonneg h
  -- the elapsed seconds
  have hx := Binary64.div_near (Binary64.ofNat d) (Binary64.ofNat 1000) (by decide)
  have ex : (Binary64.ofNat d).toRat / (Binary64.ofNat 1000).toRat = (d : ℚ) / 1000 := by
    simp [Binary64.toRat, Binary64.ofNat]
  rw [ex] at hx
  rw [abs_le] at hx
  obtain ⟨hx1, hx2⟩ := hx
  have hxpos : 0 < (Binary64.div (Binary64.ofNat d) (Binary64.ofNat 1000)).toRat := by
    have : (d : ℚ) / 1000 / 2 ^ 53 < (d : ℚ) / 1000 := by
      rw [div_lt_iff₀ (by norm_num)]
      nlinarith
    linarith
  have hm : (Binary64.div (Binary64.ofNat d) (Binary64.ofNat 1000)).mant ≠ 0 := by
    intro h0
    simp only [Binary64.toRat, h0, Nat.cast_zero, zero_mul, lt_self_iff_false] at hxpos
  -- the quotient
  have hy := Binary64.div_near (Binary64.ofNat h)
    (Binary64.div (Binary64.ofNat d) (Binary64.ofNat 1000)) hm
  have ey : (Binary64.ofNat h).toRat = (h : ℚ) := by simp [Binary64.toRat, Binary64.ofNat]
  rw [ey] at hy
  have hr := Math.round_bounds (Binary64.div (Binary64.ofNat h)
    (Binary64.div (Binary64.ofNat d) (Binary64.ofNat 1000)))
  generalize (Binary64.div (Binary64.ofNat h)
    (Binary64.div (Binary64.ofNat d) (Binary64.ofNat 1000))).toRat = y at hy hr
  generalize Math.round (Binary64.div (Binary64.ofNat h)
    (Binary64.div (Binary64.ofNat d) (Binary64.ofNat 1000))) = R at hr ⊢
  generalize (Binary64.div (Binary64.ofNat d) (Binary64.ofNat 1000)).toRat = x at hx1 hx2 hxpos hy
  rw [abs_le] at hy
  obtain ⟨hy1, hy2⟩ := hy
  have e : (h : ℚ) / ((d : ℚ) / 1000) = ((1000 * h : Nat) : ℚ) / (d : ℚ) := by
    push_cast
    field_simp
    ring
  rw [e]
  refine nearest_of_close (1000 * h) d R (by omega) y ?_ hr.1 hr.2
  push_cast
  have hd0 : (0 : ℚ) < (d : ℚ) := by linarith
  -- with u = 2 ^ (-53): x is within d/1000 * (1 ± u), y within h/x * (1 ± u)
  have hq : (h : ℚ) / x * x = (h : ℚ) := by field_simp
  generalize (h : ℚ) / x = t at hy1 hy2 hq
  have ht0 : 0 ≤ t := by
    by_contra hc
    push_neg at hc
    have := mul_neg_of_neg_of_pos hc hxpos
    linarith
  have hq2 : 1000 * (h : ℚ) / (d : ℚ) * (d : ℚ) = 1000 * (h : ℚ) := by field_simp
  generalize 1000 * (h : ℚ) / (d : ℚ) = q at hq2 ⊢
  have e2 : 1 / (2 * (d : ℚ)) * (2 * (d : ℚ)) = 1 := by field_simp
  generalize 1 / (2 * (d : ℚ)) = w at e2 ⊢
  have ea : (d : ℚ) / 1000 * 1000 = (d : ℚ) := by field_simp
  generalize (d : ℚ) / 1000 = a at hx1 hx2 ea
  have hU : (4000 : ℚ) * (h : ℚ) + 1 < 2 ^ 53 := by
    have : (4000 : ℚ) * (2 ^ 41 - 1) + 1 < 2 ^ 53 := by norm_num
    linarith
  have eau : a / 2 ^ 53 * 2 ^ 53 = a := by field_simp
  have etu : t / 2 ^ 53 * 2 ^ 53 = t := by field_simp
  generalize (2 : ℚ) ^ 53 = U at hx1 hx2 hy1 hy2 hU eau etu
  generalize a / U = au at hx1 hx2 eau
  generalize t / U = tu at hy1 hy2 etu
  have hU0 : 0 < U := by linarith
  have hU1 : 0 < U - 1 := by linarith
  have ha0 : 0 < a := by linarith
  have i1 : a * (U - 1) ≤ x * U := by
    have := mul_le_mul_of_nonneg_right hx1 hU0.le
    linarith
  have i2 : x * U ≤ a * (U + 1) := by
    have := mul_le_mul_of_nonneg_right hx2 hU0.le
    linarith
  have i3 : t * (U - 1) ≤ y * U := by
    have := mul_le_mul_of_nonneg_right hy1 hU0.le
    linarith
  have i4 : y * U ≤ t * (U + 1) := by
    have := mul_le_mul_of_nonneg_right hy2 hU0.le
    linarith
  have i5 : t * (a * (U - 1)) ≤ t * (x * U) := mul_le_mul_of_nonneg_left i1 ht0
  have i6 : t * (x * U) ≤ t * (a * (U + 1)) := mul_le_mul_of_nonneg_left i2 ht0
  have i7 : t * (x * U) = (h : ℚ) * U := by rw [← hq]; ring
  have i8 : q * a = (h : ℚ) := by
    have : q * a * 1000 = (h : ℚ) * 1000 := by
      rw [mul_assoc, ea, hq2]
      ring
    linarith
  have i9 : t * (U - 1) ≤ q * U := by
    have : t * (U - 1) * a ≤ q * U * a := by
      have e1 : t * (U - 1) * a = t * (a * (U - 1)) := by ring
      have e2 : q * U * a = (h : ℚ) * U := by rw [← i8]; ring
      rw [e1, e2, ← i7]
      exact i5
    exact le_of_mul_le_mul_right this ha0
  have i10 : q * U ≤ t * (U + 1) := by
    have : q * U * a ≤ t * (U + 1) * a := by
      have e1 : t * (U + 1) * a = t * (a * (U + 1)) := by ring
      have e2 : q * U * a = (h : ℚ) * U := by rw [← i8]; ring
      rw [e1, e2, ← i7]
      exact i6
    exact le_of_mul_le_mul_right this ha0
  have hq0 : 0 ≤ q := by
    by_contra hc
    push_neg at hc
    have := mul_pos_of_neg_of_neg hc (by linarith : -a < 0)
    linarith
  have i11 : y * (U - 1) ≤ q * (U + 1) := by
    have : y * (U - 1) * U ≤ q * (U + 1) * U := by
      have s1 : y * U * (U - 1) ≤ t * (U + 1) * (U - 1) := mul_le_mul_of_nonneg_right i4 hU1.le
      have s2 : t * (U - 1) * (U + 1) ≤ q * U * (U + 1) :=
        mul_le_mul_of_nonneg_right i9 (by linarith)
      linarith
    exact le_of_mul_le_mul_right this hU0
  have i12 : q * (U - 1) ≤ y * (U + 1) := by
    have : q * (U - 1) * U ≤ y * (U + 1) * U := by
      have s1 : t * (U - 1) * (U + 1) ≤ y * U * (U + 1) :=
        mul_le_mul_of_nonneg_right i3 (by linarith)
      have s2 : q * U * (U - 1) ≤ t * (U + 1) * (U - 1) :=
        mul_le_mul_of_nonneg_right i10 hU1.le
      linarith
    exact le_of_mul_le_mul_right this hU0
  -- 2 q < w (U - 1)
  have i13 : 2 * q < w * (U - 1) := by
    have : 2 * q * (2 * (d : ℚ)) < w * (U - 1) * (2 * (d : ℚ)) := by
      have f1 : 2 * q * (2 * (d : ℚ)) = 4 * (q * (d : ℚ)) := by ring
      have f2 : w * (U - 1) * (2 * (d : ℚ)) = (U - 1) * (w * (2 * (d : ℚ))) := by ring
      rw [f1, f2, hq2, e2, mul_one]
      linarith
    exact lt_of_mul_lt_mul_right this (by linarith)
  rw [abs_lt]
  constructor
  · -- q - y < w
    have : (q - y) * (U + 1) < w * (U + 1) := by
      have := mul_nonneg hq0 (by norm_num : (0 : ℚ) ≤ 2)
      have hw : 0 < w := by
        by_contra hc
        push_neg at hc
        have := mul_nonpos_of_nonpos_of_nonneg hc (by linarith : (0 : ℚ) ≤ 2 * (d : ℚ))
        linarith
      linarith
    have := lt_of_mul_lt_mul_right this (by linarith : (0 : ℚ) ≤ U + 1)
    linarith
  · have : (y - q) * (U - 1) < w * (U - 1) := by linarith
    have := lt_of_mul_lt_mul_right this hU1.le
    linarith

/-- The rounded quotient is not below the integer quotient. -/
theorem roundHalfEven_ge (N D : Nat) : N / D ≤ Binary64.roundHalfEven N D := by
  unfold Binary64.roundHalfEven
  split_ifs <;> omega

/-- The test `elapsed >= 1` on the Number `elapsed = d / 1000` holds exactly
when `d >= 1000`. -/
theorem elapsed_ge_one (d : Nat) :
    1 ≤ (Binary64.div (Binary64.ofNat d) (Binary64.ofNat 1000)).toRat ↔ 1000 ≤ d := by
  have hx := Binary64.div_near (Binary64.ofNat d) (Binary64.ofNat 1000) (by decide)
  have ex : (Binary64.ofNat d).toRat / (Binary64.ofNat 1000).toRat = (d : ℚ) / 1000 := by
    simp [Binary64.toRat, Binary64.ofNat]
  rw [ex, abs_le] at hx
  constructor
  · intro h1
    by_contra hc
    have hd : d + 1 ≤ 1000 := by omega
    have hdq : (d : ℚ) + 1 ≤ 1000 := by exact_mod_cast hd
    have h0 : (0 : ℚ) ≤ (d : ℚ) := Nat.cast_nonneg d
    have e1 : (d : ℚ) / 1000 * 1000 = (d : ℚ) := by field_simp
    have e2 : (d : ℚ) / 1000 / 2 ^ 53 * 2 ^ 53 = (d : ℚ) / 1000 := by
      field_simp
      ring
    generalize (Binary64.div (Binary64.ofNat d) (Binary64.ofNat 1000)).toRat = x at hx h1
    generalize (d : ℚ) / 1000 / 2 ^ 53 = au at hx e2
    generalize (d : ℚ) / 1000 = a at hx e1 e2
    norm_num at e2
    linarith
  · intro hd
    have hd0 : d ≠ 0 := by omega
    have he := Binary64.exponent_le d 1000 hd0 (by decide)
    have e : (Binary64.div (Binary64.ofNat d) (Binary64.ofNat 1000)).toRat =
        (Binary64.roundHalfEven (Binary64.scale d 1000 (Binary64.exponent d 1000)).1
          (Binary64.scale d 1000 (Binary64.exponent d 1000)).2 : ℚ) *
          (2 : ℚ) ^ (Binary64.exponent d 1000) := by
      simp [Binary64.toRat, Binary64.div, Binary64.ofNat, Binary64.divNat, hd0]
    rw [e]
    have hge := roundHalfEven_ge (Binary64.scale d 1000 (Binary64.exponent d 1000)).1
      (Binary64.scale d 1000 (Binary64.exponent d 1000)).2
    generalize Binary64.roundHalfEven (Binary64.scale d 1000 (Binary64.exponent d 1000)).1
      (Binary64.scale d 1000 (Binary64.exponent d 1000)).2 = m at hge ⊢
    simp only [Binary64.scale] at hge
    push_cast at he
    generalize Binary64.exponent d 1000 = k at he hge ⊢
    cases k with
    | ofNat j =>
      simp only [Int.ofNat_eq_coe, Int.toNat_natCast, Int.toNat_neg_nat, pow_zero, mul_one,
        zpow_natCast] at he hge ⊢
      -- 2 ^ (j + 52) ≤ d / 1000, so 1000 * 2 ^ j ≤ d and m ≥ 1
      have h2 : (2 : ℚ) ^ ((j : Int) + 52) = 2 ^ j * 2 ^ 52 := by
        rw [show (j : Int) + 52 = ((j + 52 : Nat) : Int) from by push_cast; ring, zpow_natCast, pow_add]
      rw [h2] at he
      have hj : (1 : ℚ) ≤ 2 ^ j := one_le_pow₀ (by norm_num)
      have h3 : (1000 : ℚ) * 2 ^ j ≤ (d : ℚ) := by
        rw [le_div_iff₀ (by norm_num)] at he
        nlinarith
      have h4 : 1000 * 2 ^ j ≤ d := by exact_mod_cast h3
      have h5 : 1 ≤ d / (1000 * 2 ^ j) := (Nat.one_le_div_iff (by positivity)).mpr h4
      have h6 : (1 : ℚ) ≤ (m : ℚ) := by exact_mod_cast le_trans h5 hge
      nlinarith
    | negSucc j =>
      simp only [Int.toNat_negSucc, pow_zero, mul_one, Int.neg_negSucc, zpow_negSucc] at hge ⊢
      have h4 : 2 ^ (j + 1) ≤ d * 2 ^ (j + 1) / 1000 := by
        rw [Nat.le_div_iff_mul_le (by norm_num)]
        calc 2 ^ (j + 1) * 1000 = 1000 * 2 ^ (j + 1) := mul_comm _ _
          _ ≤ d * 2 ^ (j + 1) := Nat.mul_le_mul_right _ hd
      have h5 : 2 ^ (j + 1) ≤ m := by
        refine le_trans h4 ?_
        convert hge using 2
      have h6 : (2 : ℚ) ^ (j + 1) ≤ (m : ℚ) := by exact_mod_cast h5
      have hp : (0 : ℚ) < 2 ^ (j + 1) := by positivity
      rw [← div_eq_mul_inv, le_div_iff₀ hp]
      linarith

/-- C27: when at least 1000 ms have elapsed since `lastUpdateTime`,
`updateHashRate` sets `hashesPerSecond` to `Math.round` of the counter
divided by the elapsed seconds, both divisions in binary64 arithmetic as the
code computes them; this is an integer nearest to the exact quotient
whenever fewer than `2 ^ 41` hashes were counted.  It resets the counter to
0, sets `lastUpdateTime` to now and notifies the subscriber, if one is
registered.  The test `elapsed >= 1` of the code holds exactly when at least
1000 ms have elapsed.  When less than 1000 ms have elapsed the method
changes nothing and notifies nobody.  Along every sequence of deliveries any
two notifications are at least 1000 ms apart. -/
theorem updateHashRate_spec :
    (∀ (s : Engine) (now : Int), 1000 ≤ now - s.lastUpdateTime →
      (updateHashRate s now).hashesPerSecond =
        Math.round (Binary64.div (Binary64.ofNat s.hashesGenerated)
          (Binary64.div (Binary64.ofNat (now - s.lastUpdateTime).toNat) (Binary64.ofNat 1000))) ∧
      (s.hashesGenerated < 2 ^ 41 →
        |((updateHashRate s now).hashesPerSecond : ℚ) -
          (s.hashesGenerated : ℚ) / (((now - s.lastUpdateTime : Int) : ℚ) / 1000)| ≤ 1 / 2) ∧
      (updateHashRate s now).hashesGenerated = 0 ∧
      (updateHashRate s now).lastUpdateTime = now ∧
      (updateHashRate s now).statsUpdates =
        (if s.onStatsUpdate then
          s.statsUpdates ++
            [((updateHashRate s now).hashesPerSecond, s.uniqueAlgorithmsUsed.length)]
        else s.statsUpdates)) ∧
    (∀ d : Nat,
      1 ≤ (Binary64.div (Binary64.ofNat d) (Binary64.ofNat 1000)).toRat ↔ 1000 ≤ d) ∧
    (∀ (s : Engine) (now : Int), now - s.lastUpdateTime < 1000 → updateHashRate s now = s) ∧
    (∀ (s : Engine) (now : Int),
      s.statsUpdates.length < (updateHashRate s now).statsUpdates.length →
        1000 ≤ now - s.lastUpdateTime) ∧
    (∀ (s : Engine) (msgs : List (Int × WorkerMessage)),
      (notifyTimes s msgs).Pairwise (fun a b => a + 1000 ≤ b)) := by
  refine ⟨?_, elapsed_ge_one, ?_, ?_, fun s msgs => (notifyTimes_spaced msgs s).2⟩
  · intro s now h
    have hd : 1000 ≤ (now - s.lastUpdateTime).toNat := by omega
    have hcast : (((now - s.lastUpdateTime : Int) : ℚ)) = (((now - s.lastUpdateTime).toNat : Nat) : ℚ) := by
      have : ((now - s.lastUpdateTime).toNat : Int) = now - s.lastUpdateTime :=
        Int.toNat_of_nonneg (by omega)
      rw [show ((now - s.lastUpdateTime : Int) : ℚ) =
        (((now - s.lastUpdateTime).toNat : Int) : ℚ) from by rw [this]]
      exact Int.cast_natCast _
    have hr := rate_near s.hashesGenerated (now - s.lastUpdateTime).toNat hd
    rw [← hcast] at hr
    unfold updateHashRate
    dsimp only
    rw [if_pos h]
    split_ifs with h2
    · exact ⟨rfl, hr, rfl, rfl, rfl⟩
    · exact ⟨rfl, hr, rfl, rfl, rfl⟩
  · intro s now h
    unfold updateHashRate
    rw [if_neg (by omega)]
  · intro s now h
    have := (updateHashRate_time s now).2 h
    omega

/-- Evaluated rates.  67 hashes in 1072 ms: the exact quotient is 62.5, the
binary64 quotient is just below it and the rate is 62.  With 2776761772285
hashes in 2167 ms the rate is 1281385220252 although the exact quotient is
below 1281385220251.5: without a bound on the counter the rate can miss the
nearest integer by one. -/
theorem updateHashRate_rates :
    (updateHashRate { Engine.new 4 0 with hashesGenerated := 67 } 1072).hashesPerSecond = 62 ∧
    2 * (67 * 1000) = (2 * 62 + 1) * 1072 ∧
    (updateHashRate { Engine.new 4 0 with hashesGenerated := 2776761772285 } 2167).hashesPerSecond =
      1281385220252 ∧
    2 * (2776761772285 * 1000) < (2 * 1281385220252 - 1) * 2167 := by
  decide

/-- An evaluated run for C27: a subscriber is registered, 1500 hashes were
counted, and results are delivered 400, 1500 and 2100 ms after the last
update.  Only the second delivery notifies, with the rate 1001. -/
theorem updateHashRate_run :
    notifyTimes
      { Engine.new 4 0 with onStatsUpdate := true, hashesGenerated := 1500 }
      [(400, WorkerMessage.result "h" none), (1500, WorkerMessage.result "h" none),
       (2100, WorkerMessage.result "h" none)] = [1500] ∧
    (deliver { Engine.new 4 0 with onStatsUpdate := true, hashesGenerated := 1500 }
      [(400, WorkerMessage.result "h" none), (1500, WorkerMessage.result "h" none),
       (2100, WorkerMessage.result "h" none)]).statsUpdates = [(1001, 0)] := by
  decide

/-- Settling a promise leaves the state of every other promise alone. -/
theorem promiseState_settle_ne (s : Engine) (p q : Nat) (v : Settlement) (hpq : p ≠ q) :
    promiseState (settle s q v) p = promiseState s p := by
  unfold settle
  split_ifs
  · rfl
  · unfold promiseState
    dsimp only
    rw [List.find?_append]
    cases h : s.settlements.find? (fun e => e.1 == p) with
    | some e => rfl
    | none =>
      have : ((q, v).1 == p) = false := by
        simp only [beq_eq_false_iff_ne, ne_eq]
        exact fun h => hpq h.symm
      simp [List.find?, this]

/-- Changing the callbacks does not change the state of a promise. -/
theorem promiseState_congr (s t : Engine) (h : s.settlements = t.settlements) (p : Nat) :
    promiseState s p = promiseState t p := by
  unfold promiseState
  rw [h]

/-- The `callback` of `generateHash` ignores a result with another id, and
touches no promise but its own. -/
theorem hashCallback_frame (cb : HashCallback) (t : Engine) (hash : String) (id : Option String) :
    (id ≠ some cb.id → cb.call t hash id = t) ∧
    (∀ p, p ≠ cb.promise → promiseState (cb.call t hash id) p = promiseState t p) := by
  unfold HashCallback.call
  refine ⟨fun h => if_neg h, fun p hp => ?_⟩
  split_ifs
  · rw [promiseState_settle_ne _ _ _ _ hp]
    exact promiseState_congr _ _ rfl p
  · rfl

/-- The `callback` of `generateBulkHashes` ignores a result with another
batchId, and touches no promise but its own. -/
theorem bulkCallback_frame (cb : BulkCallback) (t : Engine) (results : List BulkResult)
    (batchId : Option String) :
    (batchId ≠ some cb.batchId → cb.call t results batchId = t) ∧
    (∀ p, p ≠ cb.promise → promiseState (cb.call t results batchId) p = promiseState t p) := by
  unfold BulkCallback.call
  dsimp only
  refine ⟨fun h => if_neg h, fun p hp => ?_⟩
  split_ifs
  · rw [promiseState_settle_ne _ _ _ _ hp]
    exact promiseState_congr _ _ rfl p
  · exact promiseState_congr _ _ rfl p
  · rfl

/-- An `errorCallback` ignores an error with another id or batchId, and
touches no promise but its own. -/
theorem errorCallback_frame (cb : ErrorCallback) (t : Engine) (error : ErrorInfo) :
    (∀ i q, cb = ErrorCallback.single i q → error.id ≠ some i → cb.call t error = t) ∧
    (∀ b q, cb = ErrorCallback.bulk b q → error.batchId ≠ some b → cb.call t error = t) ∧
    (∀ i q p, cb = ErrorCallback.single i q → p ≠ q →
      promiseState (cb.call t error) p = promiseState t p) ∧
    (∀ b q p, cb = ErrorCallback.bulk b q → p ≠ q →
      promiseState (cb.call t error) p = promiseState t p) := by
  refine ⟨?_, ?_, ?_, ?_⟩
  · rintro i q rfl h
    exact if_neg h
  · rintro b q rfl h
    exact if_neg h
  · rintro i q p rfl hp
    unfold ErrorCallback.call
    dsimp only
    split_ifs
    · rw [promiseState_settle_ne _ _ _ _ hp]
      exact promiseState_congr _ _ rfl p
    · rfl
  · rintro b q p rfl hp
    unfold ErrorCallback.call
    dsimp only
    split_ifs
    · rw [promiseState_settle_ne _ _ _ _ hp]
      exact promiseState_congr _ _ rfl p
    · rfl

/-- A message that is not tagged for a registered callback changes neither
the callbacks nor the promise log nor the posted messages. -/
theorem handle_untagged (s : Engine) (now : Int) (data : WorkerMessage)
    (h : taggedFor s data = none) :
    (handleWorkerMessage s now data).settlements = s.settlements ∧
    (handleWorkerMessage s now data).onHash = s.onHash ∧
    (handleWorkerMessage s now data).onBulkHash = s.onBulkHash ∧
    (handleWorkerMessage s now data).onError = s.onError ∧
    (handleWorkerMessage s now data).promises = s.promises ∧
    (handleWorkerMessage s now data).posted = s.posted := by
  cases data with
  | result hash id =>
    have e : handleWorkerMessage s now (WorkerMessage.result hash id) =
        match s.onHash with
        | some cb => cb.call (updateHashRate { s with hashesGenerated := s.hashesGenerated + 1 } now)
            hash id
        | none => updateHashRate { s with hashesGenerated := s.hashesGenerated + 1 } now := by
      simp only [handleWorkerMessage, updateHashRate_onHash]
    rw [e]
    cases hcb : s.onHash with
    | none => simp
    | some cb =>
      have hid : id ≠ some cb.id := by
        intro hid
        simp [taggedFor, hcb, hid] at h
      dsimp only
      rw [(hashCallback_frame cb _ hash id).1 hid]
      simp [hcb]
  | bulk_result results batchId =>
    have e : handleWorkerMessage s now (WorkerMessage.bulk_result results batchId) =
        match s.onBulkHash with
        | some cb => cb.call
            (updateHashRate { s with hashesGenerated := s.hashesGenerated + results.length } now)
            results batchId
        | none =>
          updateHashRate { s with hashesGenerated := s.hashesGenerated + results.length } now := by
      simp only [handleWorkerMessage, updateHashRate_onBulkHash]
    rw [e]
    cases hcb : s.onBulkHash with
    | none => simp
    | some cb =>
      have hid : batchId ≠ some cb.batchId := by
        intro hid
        simp [taggedFor, hcb, hid] at h
      dsimp only
      rw [(bulkCallback_frame cb _ results batchId).1 hid]
      simp [hcb]
  | error error id batchId =>
    have e : handleWorkerMessage s now (WorkerMessage.error error id batchId) =
        match s.onError with
        | some cb => cb.call
            { s with errorLog := s.errorLog ++ ["Hash generation error: " ++ error] }
            { error := error, id := id, batchId := none }
        | none => { s with errorLog := s.errorLog ++ ["Hash generation error: " ++ error] } := rfl
    rw [e]
    cases hcb : s.onError with
    | none => simp
    | some cb =>
      dsimp only
      cases cb with
      | single i q =>
        have hid : id ≠ some i := by
          intro hid
          simp [taggedFor, hcb, hid] at h
        rw [(errorCallback_frame (ErrorCallback.single i q) _ _).1 i q rfl hid]
        simp [hcb]
      | bulk b q =>
        rw [(errorCallback_frame (ErrorCallback.bulk b q) _ _).2.1 b q rfl
          (fun h => Option.noConfusion h)]
        simp [hcb]

/-- A message changes the state of no promise but the one it is tagged for. -/
theorem handle_other_promise (s : Engine) (now : Int) (data : WorkerMessage) (p : Nat)
    (h : taggedFor s data ≠ some p) :
    promiseState (handleWorkerMessage s now data) p = promiseState s p := by
  cases htag : taggedFor s data with
  | none => exact promiseState_congr _ _ (handle_untagged s now data htag).1 p
  | some q =>
    have hpq : p ≠ q := by
      rintro rfl
      exact h htag
    cases data with
    | result hash id =>
      have e : handleWorkerMessage s now (WorkerMessage.result hash id) =
          match s.onHash with
          | some cb => cb.call
              (updateHashRate { s with hashesGenerated := s.hashesGenerated + 1 } now) hash id
          | none => updateHashRate { s with hashesGenerated := s.hashesGenerated + 1 } now := by
        simp only [handleWorkerMessage, updateHashRate_onHash]
      rw [e]
      cases hcb : s.onHash with
      | none => simp [taggedFor, hcb] at htag
      | some cb =>
        have hq : cb.promise = q := by
          simp only [taggedFor, hcb] at htag
          split_ifs at htag
          exact Option.some.inj htag
        dsimp only
        rw [(hashCallback_frame cb _ hash id).2 p (hq ▸ hpq)]
        exact promiseState_congr _ _ (by simp) p
    | bulk_result results batchId =>
      have e : handleWorkerMessage s now (WorkerMessage.bulk_result results batchId) =
          match s.onBulkHash with
          | some cb => cb.call
              (updateHashRate { s with hashesGenerated := s.hashesGenerated + results.length } now)
              results batchId
          | none =>
            updateHashRate { s with hashesGenerated := s.hashesGenerated + results.length } now := by
        simp only [handleWorkerMessage, updateHashRate_onBulkHash]
      rw [e]
      cases hcb : s.onBulkHash with
      | none => simp [taggedFor, hcb] at htag
      | some cb =>
        have hq : cb.promise = q := by
          simp only [taggedFor, hcb] at htag
          split_ifs at htag
          exact Option.some.inj htag
        dsimp only
        rw [(bulkCallback_frame cb _ results batchId).2 p (hq ▸ hpq)]
        exact promiseState_congr _ _ (by simp) p
    | error error id batchId =>
      have e : handleWorkerMessage s now (WorkerMessage.error error id batchId) =
          match s.onError with
          | some cb => cb.call
              { s with errorLog := s.errorLog ++ ["Hash generation error: " ++ error] }
              { error := error, id := id, batchId := none }
          | none => { s with errorLog := s.errorLog ++ ["Hash generation error: " ++ error] } := rfl
      rw [e]
      cases hcb : s.onError with
      | none => simp [taggedFor, hcb] at htag
      | some cb =>
        dsimp only
        cases cb with
        | single i r =>
          have hq : r = q := by
            simp only [taggedFor, hcb] at htag
            split_ifs at htag
            exact Option.some.inj htag
          rw [(errorCallback_frame (ErrorCallback.single i r) _ _).2.2.1 i r p rfl (hq ▸ hpq)]
          exact promiseState_congr _ _ rfl p
        | bulk b r =>
          have hq : r = q := by
            simp only [taggedFor, hcb] at htag
            split_ifs at htag
            exact Option.some.inj htag
          rw [(errorCallback_frame (ErrorCallback.bulk b r) _ _).2.2.2 b r p rfl (hq ▸ hpq)]
          exact promiseState_congr _ _ rfl p

/-- C26: a `result`, `bulk_result` or `error` message whose id or batchId is
not the one of the registered request, or that finds no callback
registered, settles no promise and leaves the registered callbacks (and the
promise log and the posted messages) unchanged; `handleWorkerMessage` is a
total function, so no fault is raised.  Whenever a message changes the state
of a promise, the message is tagged with the id or batchId of the request
that promise belongs to. -/
theorem untagged_message_dropped :
    (∀ (s : Engine) (now : Int) (data : WorkerMessage), taggedFor s data = none →
      (handleWorkerMessage s now data).settlements = s.settlements ∧
      (handleWorkerMessage s now data).onHash = s.onHash ∧
      (handleWorkerMessage s now data).onBulkHash = s.onBulkHash ∧
      (handleWorkerMessage s now data).onError = s.onError ∧
      (handleWorkerMessage s now data).promises = s.promises ∧
      (handleWorkerMessage s now data).posted = s.posted) ∧
    (∀ (s : Engine) (now : Int) (data : WorkerMessage) (p : Nat),
      promiseState (handleWorkerMessage s now data) p ≠ promiseState s p →
      taggedFor s data = some p) := by
  refine ⟨handle_untagged, ?_⟩
  intro s now data p h
  by_contra hc
  exact h (handle_other_promise s now data p hc)

/-- The loop from round `j` on, with enough fuel: it pushes the slices of the
rounds `j`, `j + 1`, ... up to the last one that starts inside the list. -/
theorem splitLoop_from (items : List String) : ∀ (fuel j : Nat) (acc : List (List String)),
    (items.length + 999) / 1000 ≤ j + fuel →
    splitLoop items 1000 fuel (j * 1000) acc =
      acc ++ (List.range ((items.length + 999) / 1000 - j)).map fun k =>
        (items.drop ((j + k) * 1000)).take 1000 := by
  intro fuel
  induction fuel with
  | zero =>
    intro j acc h
    have : (items.length + 999) / 1000 - j = 0 := by omega
    simp [splitLoop, this]
  | succ fuel ih =>
    intro j acc h
    unfold splitLoop
    by_cases hlt : j * 1000 < items.length
    · rw [if_pos hlt]
      have e : j * 1000 + 1000 = (j + 1) * 1000 := by ring
      have hs : slice items (j * 1000) ((j + 1) * 1000) =
          (items.drop ((j + 0) * 1000)).take 1000 := by
        have e2 : (j + 1) * 1000 - j * 1000 = 1000 := by omega
        simp only [slice, e2, Nat.add_zero]
      rw [e, ih (j + 1) _ (by omega), hs]
      have hB : (items.length + 999) / 1000 - j = ((items.length + 999) / 1000 - (j + 1)) + 1 := by
        omega
      rw [hB, List.range_succ_eq_map, List.map_cons, List.map_map, List.append_assoc,
        List.singleton_append]
      have hf : ((fun k => (items.drop ((j + k) * 1000)).take 1000) ∘ Nat.succ) =
          fun k => (items.drop ((j + 1 + k) * 1000)).take 1000 := by
        funext k
        have e3 : (j + Nat.succ k) * 1000 = (j + 1 + k) * 1000 := by
          rw [Nat.succ_eq_add_one]
          ring
        simp only [Function.comp, e3]
      rw [hf]
    · rw [if_neg hlt]
      have : (items.length + 999) / 1000 - j = 0 := by omega
      simp [this]

/-- The loop that splits the items terminates within `items.length + 1`
rounds (and with any larger bound) with the batches of `splitBatches`. -/
theorem splitLoop_eq (items : List String) (fuel : Nat) (h : items.length < fuel) :
    splitLoop items 1000 fuel 0 [] = splitBatches items 1000 := by
  have := splitLoop_from items fuel 0 [] (by omega)
  simp only [Nat.zero_mul, List.nil_append, Nat.sub_zero, Nat.zero_add] at this
  rw [this]
  rfl

/-- A slice: its length, and its entries are the entries of the list from
`start` on. -/
theorem slice_spec (items : List String) (start stop : Nat) (h : start ≤ stop) :
    (slice items start stop).length = min stop items.length - start ∧
    ∀ j, j < (slice items start stop).length →
      (slice items start stop).get? j = items.get? (start + j) := by
  have hl : (slice items start stop).length = min stop items.length - start := by
    simp only [slice, List.length_take, List.length_drop]
    omega
  refine ⟨hl, ?_⟩
  intro j hj
  rw [hl] at hj
  simp only [slice, List.get?_eq_getElem?]
  rw [List.getElem?_take_of_lt (by omega), List.getElem?_drop]

/-- The messages `generateBulkHashes` posts: one per round of the split
loop, round `k` to the worker `k % numWorkers`. -/
theorem bulk_posted (s : Engine) (items : List String) (algorithm : String)
    (options : HashOptions) (batchId : String) (hi : items ≠ []) (ha : algorithm ≠ "")
    (hw : 0 < s.numWorkers) :
    (generateBulkHashes s (some items) (some algorithm) options batchId).1.posted =
      s.posted ++ (List.range ((items.length + 999) / 1000)).map fun k =>
        (k % s.numWorkers,
         Request.bulk_generate (itemsWithIds (slice items (1000 * k) (1000 * k + 1000)) k 1000)
           algorithm options batchId) := by
  rw [generateBulkHashes_state s items algorithm options batchId hi ha hw]
  simp only [splitBatches, enum_map_range, List.map_map]
  congr 1
  apply List.map_congr_left
  intro k _
  have e1 : 1000 * k + 1000 - 1000 * k = 1000 := by omega
  have e2 : k * 1000 = 1000 * k := by ring
  simp only [Function.comp, slice, e1, e2]

/-- C24: for every non-empty list of `n` items and every pool of `N ≥ 1`
workers, the split loop ends with the batches, and `generateBulkHashes` posts
exactly ceil(n/1000) `bulk_generate` messages with the same batchId; the
`k`-th carries the items `items[1000k .. min(1000(k+1), n))` in input order,
between 1 and 1000 of them and 1000 unless it is the last, and is sent to
the worker number `k mod N`. -/
theorem bulk_batches_posted (s : Engine) (items : List String) (algorithm : String)
    (options : HashOptions) (batchId : String) (hi : items ≠ []) (ha : algorithm ≠ "")
    (hw : 0 < s.numWorkers) :
    (∀ fuel, items.length < fuel → splitLoop items 1000 fuel 0 [] = splitBatches items 1000) ∧
    (1000 * ((items.length + 999) / 1000 - 1) < items.length ∧
      items.length ≤ 1000 * ((items.length + 999) / 1000)) ∧
    (generateBulkHashes s (some items) (some algorithm) options batchId).1.posted =
      s.posted ++ (List.range ((items.length + 999) / 1000)).map (fun k =>
        (k % s.numWorkers,
         Request.bulk_generate (itemsWithIds (slice items (1000 * k) (1000 * k + 1000)) k 1000)
           algorithm options batchId)) ∧
    ∀ k, k < (items.length + 999) / 1000 →
      (itemsWithIds (slice items (1000 * k) (1000 * k + 1000)) k 1000).map BulkItem.text =
        slice items (1000 * k) (1000 * k + 1000) ∧
      (slice items (1000 * k) (1000 * k + 1000)).length =
        min (1000 * k + 1000) items.length - 1000 * k ∧
      1 ≤ (slice items (1000 * k) (1000 * k + 1000)).length ∧
      (slice items (1000 * k) (1000 * k + 1000)).length ≤ 1000 ∧
      (k + 1 < (items.length + 999) / 1000 →
        (slice items (1000 * k) (1000 * k + 1000)).length = 1000) ∧
      ∀ j, j < (slice items (1000 * k) (1000 * k + 1000)).length →
        (slice items (1000 * k) (1000 * k + 1000)).get? j = items.get? (1000 * k + j) := by
  have hn : 0 < items.length := List.length_pos.mpr hi
  refine ⟨fun fuel h => splitLoop_eq items fuel h, ⟨by omega, by omega⟩,
    bulk_posted s items algorithm options batchId hi ha hw, ?_⟩
  intro k hk
  obtain ⟨hl, hg⟩ := slice_spec items (1000 * k) (1000 * k + 1000) (by omega)
  refine ⟨?_, hl, by omega, by omega, fun h => by omega, hg⟩
  simp only [itemsWithIds, List.map_map]
  exact List.enum_map_snd _

/-- Witness of `bulk_batches_posted`: 2500 items on a new engine with two
workers are posted as three batches, to the workers 0, 1 and 0. -/
theorem bulk_batches_posted_witness :
    (List.replicate 2500 "a" ≠ [] ∧ "md5" ≠ "" ∧ 0 < (Engine.new 2 0).numWorkers) ∧
    ((generateBulkHashes (Engine.new 2 0) (some (List.replicate 2500 "a")) (some "md5") {}
      "17abcde").1.posted.map Prod.fst) = [0, 1, 0] := by
  have hi : List.replicate 2500 "a" ≠ [] :=
    List.ne_nil_of_length_pos (by rw [List.length_replicate]; decide)
  refine ⟨⟨hi, by decide, by decide⟩, ?_⟩
  rw [(bulk_batches_posted (Engine.new 2 0) (List.replicate 2500 "a") "md5" {} "17abcde" hi
    (by decide) (by decide)).2.2.1]
  simp only [List.length_replicate, List.map_append, List.map_map]
  rfl

/-- Different numbers have different decimal strings. -/
theorem numToString_inj (a b : Nat) (h : numToString (a : Int) = numToString (b : Int)) :
    a = b := by
  have ha := jsParseInt_numToString a
  have hb := jsParseInt_numToString b
  rw [h, hb] at ha
  exact (Int.ofNat_inj.mp (Option.some.inj ha)).symm

/-- The items of the batch number `k`: its texts, numbered from `1000 k`. -/
theorem itemsWithIds_eq (batch : List String) (k : Nat) :
    itemsWithIds batch k 1000 =
      (batch.enumFrom (k * 1000)).map fun x =>
        ({ text := x.2, id := numToString ((x.1 : Nat) : Int) } : BulkItem) := by
  simp only [itemsWithIds]
  conv_rhs => rw [← List.map_fst_add_enum_eq_enumFrom batch (k * 1000)]
  simp only [List.enum, List.map_map]
  apply List.map_congr_left
  intro x _
  simp only [Function.comp, Prod.map, id]
  congr 2
  push_cast
  ring

/-- The items of all messages a bulk request posts, batch after batch: the
input items in input order, each with the decimal string of its position. -/
theorem bulk_items_flat (s : Engine) (items : List String) (algorithm : String)
    (options : HashOptions) (batchId : String) (hi : items ≠ []) (ha : algorithm ≠ "")
    (hw : 0 < s.numWorkers) :
    (postedSince s.posted.length
      (generateBulkHashes s (some items) (some algorithm) options batchId).1).flatMap itemsOf =
      items.enum.map fun x =>
        ({ text := x.2, id := numToString ((x.1 : Nat) : Int) } : BulkItem) := by
  rw [generateBulkHashes_state s items algorithm options batchId hi ha hw]
  simp only [postedSince, List.drop_left, splitBatches, enum_map_range, List.map_map,
    List.flatMap]
  have : (itemsOf ∘ Prod.snd ∘ (fun x : Nat × List String =>
        (x.1 % s.numWorkers,
          Request.bulk_generate (itemsWithIds x.2 x.1 1000) algorithm options batchId)) ∘
        fun k => (k, List.take 1000 (List.drop (k * 1000) items))) =
      fun k => ((items.enum.map fun x =>
        ({ text := x.2, id := numToString ((x.1 : Nat) : Int) } : BulkItem)).drop (k * 1000)).take
          1000 := by
    funext k
    simp only [Function.comp, itemsOf, itemsWithIds_eq, List.enum, ← List.map_drop,
      ← List.map_take, enumFrom_drop, enumFrom_take, Nat.zero_add]
  rw [this]
  have h := flatMap_chunks 1000 ((items.length + 1000 - 1) / 1000)
    (items.enum.map fun x => ({ text := x.2, id := numToString ((x.1 : Nat) : Int) } : BulkItem))
    (by simp only [List.length_map, List.enum_length]; omega)
  simpa only [List.flatMap] using h

/-- C25: across all batches of one bulk request over `n` items, the items
posted are the input items in input order with the decimal strings of
`0 .. n-1` as ids: the ids are pairwise distinct, and the item with the id
of `k` carries the text `items[k]`. -/
theorem bulk_item_ids (s : Engine) (items : List String) (algorithm : String)
    (options : HashOptions) (batchId : String) (hi : items ≠ []) (ha : algorithm ≠ "")
    (hw : 0 < s.numWorkers) :
    ((postedSince s.posted.length
      (generateBulkHashes s (some items) (some algorithm) options batchId).1).flatMap
        itemsOf).map BulkItem.id =
      (List.range items.length).map (fun k : Nat => numToString (k : Int)) ∧
    (((postedSince s.posted.length
      (generateBulkHashes s (some items) (some algorithm) options batchId).1).flatMap
        itemsOf).map BulkItem.id).Nodup ∧
    ((postedSince s.posted.length
      (generateBulkHashes s (some items) (some algorithm) options batchId).1).flatMap
        itemsOf).map BulkItem.text = items ∧
    ∀ it ∈ (postedSince s.posted.length
      (generateBulkHashes s (some items) (some algorithm) options batchId).1).flatMap itemsOf,
      ∀ k : Nat, it.id = numToString (k : Int) → items.get? k = some it.text := by
  rw [bulk_items_flat s items algorithm options batchId hi ha hw]
  have hid : (items.enum.map fun x =>
      ({ text := x.2, id := numToString ((x.1 : Nat) : Int) } : BulkItem)).map BulkItem.id =
      (List.range items.length).map (fun k : Nat => numToString (k : Int)) := by
    rw [List.map_map]
    have : (BulkItem.id ∘ fun x : Nat × String =>
        ({ text := x.2, id := numToString ((x.1 : Nat) : Int) } : BulkItem)) =
        (fun k : Nat => numToString (k : Int)) ∘ Prod.fst := rfl
    rw [this, ← List.map_map, List.enum_map_fst]
  refine ⟨hid, ?_, ?_, ?_⟩
  · rw [hid]
    exact List.Nodup.map (fun a b h => numToString_inj a b h) (List.nodup_range _)
  · rw [List.map_map]
    exact List.enum_map_snd _
  · intro it hit k hk
    obtain ⟨x, hx, rfl⟩ := List.mem_map.mp hit
    have hkx : x.1 = k := numToString_inj _ _ hk
    have := List.mem_enum_iff_getElem?.mp (show (x.1, x.2) ∈ items.enum from hx)
    rw [List.get?_eq_getElem?, ← hkx]
    exact this

/-- Witness of `bulk_item_ids`: three items on a new engine with four
workers get the ids '0', '1', '2'. -/
theorem bulk_item_ids_witness :
    (["a", "b", "c"] ≠ [] ∧ "md5" ≠ "" ∧ 0 < (Engine.new 4 0).numWorkers) ∧
    ((postedSince (Engine.new 4 0).posted.length
      (generateBulkHashes (Engine.new 4 0) (some ["a", "b", "c"]) (some "md5") {}
        "17abcde").1).flatMap itemsOf).map BulkItem.id = ["0", "1", "2"] := by
  refine ⟨⟨by decide, by decide, by decide⟩, ?_⟩
  rw [(bulk_item_ids (Engine.new 4 0) ["a", "b", "c"] "md5" {} "17abcde" (by decide)
    (by decide) (by decide)).1]
  decide

/-- Delivering in two parts. -/
theorem deliver_append (s : Engine) (a b : List (Int × WorkerMessage)) :
    deliver s (a ++ b) = deliver (deliver s a) b := by
  simp only [deliver, List.foldl_append]

/-- The `bulk_result` message that completes the registered request removes
the bulk callback. -/
theorem handle_bulk_last_cb (s : Engine) (now : Int) (results : List BulkResult)
    (cb : BulkCallback) (hcb : s.onBulkHash = some cb)
    (hn : cb.completedBatches + 1 = cb.batches) :
    (handleWorkerMessage s now (WorkerMessage.bulk_result results (some cb.batchId))).onBulkHash =
      none := by
  simp [handleWorkerMessage, hcb, BulkCallback.call, hn]

/-- Delivering fewer `bulk_result` messages of the registered request than
are outstanding: they are counted and their results accumulated, nothing is
settled. -/
theorem deliver_bulk_fewer (msgs : List (Int × WorkerMessage)) : ∀ (s : Engine)
    (cb : BulkCallback), s.onBulkHash = some cb →
    (∀ m ∈ msgs, ∃ rs, m.2 = WorkerMessage.bulk_result rs (some cb.batchId)) →
    cb.completedBatches + msgs.length < cb.batches →
    (deliver s msgs).onBulkHash =
      some { cb with results := cb.results ++ msgs.flatMap fun m => resultsOf m.2,
                     completedBatches := cb.completedBatches + msgs.length } ∧
    (deliver s msgs).settlements = s.settlements := by
  induction msgs with
  | nil =>
    intro s cb hcb _ _
    simp [deliver, hcb]
  | cons m rest ih =>
    intro s cb hcb hall hlen
    obtain ⟨rs, hm⟩ := hall m (List.mem_cons_self _ _)
    have hm' : m = (m.1, WorkerMessage.bulk_result rs (some cb.batchId)) := by
      rw [← hm]
    simp only [List.length_cons] at hlen
    obtain ⟨h1, h2⟩ := handle_bulk_partial s m.1 rs cb hcb (by omega)
    obtain ⟨i1, i2⟩ := ih (handleWorkerMessage s m.1 (WorkerMessage.bulk_result rs (some cb.batchId)))
      { cb with results := cb.results ++ rs, completedBatches := cb.completedBatches + 1 }
      h1 (fun x hx => hall x (List.mem_cons_of_mem _ hx)) (by simp only; omega)
    simp only [deliver, List.foldl_cons] at i1 i2 ⊢
    rw [hm']
    refine ⟨?_, by rw [i2, h2]⟩
    rw [i1]
    simp only [List.flatMap_cons, resultsOf, List.append_assoc, List.length_cons,
      Option.some.injEq, BulkCallback.mk.injEq, true_and]
    omega

/-- Delivering `bulk_result` messages while no bulk callback is registered
settles nothing and registers nothing. -/
theorem deliver_bulk_none (msgs : List (Int × WorkerMessage)) : ∀ s : Engine,
    s.onBulkHash = none →
    (∀ m ∈ msgs, ∃ rs b, m.2 = WorkerMessage.bulk_result rs b) →
    (deliver s msgs).onBulkHash = none ∧ (deliver s msgs).settlements = s.settlements := by
  induction msgs with
  | nil => intro s h _; exact ⟨h, rfl⟩
  | cons m rest ih =>
    intro s hcb hall
    obtain ⟨rs, b, hm⟩ := hall m (List.mem_cons_self _ _)
    have hm' : m = (m.1, WorkerMessage.bulk_result rs b) := by rw [← hm]
    have h1 : (handleWorkerMessage s m.1 (WorkerMessage.bulk_result rs b)).onBulkHash = none := by
      simp [handleWorkerMessage, hcb]
    have h2 : (handleWorkerMessage s m.1 (WorkerMessage.bulk_result rs b)).settlements =
        s.settlements := by
      simp [handleWorkerMessage, hcb]
    obtain ⟨i1, i2⟩ := ih _ h1 (fun x hx => hall x (List.mem_cons_of_mem _ hx))
    simp only [deliver, List.foldl_cons] at i1 i2 ⊢
    rw [hm']
    exact ⟨i1, by rw [i2, h2]⟩

/-- A bulk request and the `bulk_result` messages tagged with its batchId:
the promise is pending while fewer messages than batches were delivered, and
from the delivery that makes their number equal on it is resolved with the
hashes of the results delivered until then, sorted by id. -/
theorem bulk_count (s : Engine) (items : List String) (algorithm : String)
    (options : HashOptions) (batchId : String) (msgs : List (Int × WorkerMessage))
    (hi : items ≠ []) (ha : algorithm ≠ "") (hw : 0 < s.numWorkers) (hs : s.WF)
    (hall : ∀ m ∈ msgs, ∃ rs, m.2 = WorkerMessage.bulk_result rs (some batchId)) :
    (msgs.length < (items.length + 999) / 1000 →
      promiseState
        (deliver (generateBulkHashes s (some items) (some algorithm) options batchId).1 msgs)
        s.promises = none) ∧
    ((items.length + 999) / 1000 ≤ msgs.length →
      promiseState
        (deliver (generateBulkHashes s (some items) (some algorithm) options batchId).1 msgs)
        s.promises =
        some (Settlement.resolvedList
          ((((msgs.take ((items.length + 999) / 1000)).flatMap fun m =>
            resultsOf m.2).insertionSort idLe).map fun r => r.hash))) := by
  have e := generateBulkHashes_state s items algorithm options batchId hi ha hw
  have hB : (splitBatches items 1000).length = (items.length + 999) / 1000 := by
    simp [splitBatches]
  have hBpos : 0 < (items.length + 999) / 1000 := by
    have : 0 < items.length := List.length_pos.mpr hi
    omega
  rw [e]
  generalize hs1 : ({ s with
      uniqueAlgorithmsUsed := setAdd s.uniqueAlgorithmsUsed algorithm,
      promises := s.promises + 1,
      onBulkHash := some
        { batchId := batchId, batches := (splitBatches items 1000).length,
          promise := s.promises, results := [], completedBatches := 0 },
      onError := some (ErrorCallback.bulk batchId s.promises),
      posted := s.posted ++ (splitBatches items 1000).enum.map fun (index, batch) =>
        (index % s.numWorkers,
         Request.bulk_generate (itemsWithIds batch index 1000) algorithm options batchId) } :
      Engine) = s1
  have hcb : s1.onBulkHash = some
      { batchId := batchId, batches := (splitBatches items 1000).length,
        promise := s.promises, results := [], completedBatches := 0 } := by
    rw [← hs1]
  have hset : s1.settlements = s.settlements := by rw [← hs1]
  have hfresh : ∀ e ∈ s1.settlements, e.1 ≠ s.promises := by
    rw [hset]
    exact WF_fresh s hs
  dsimp only
  constructor
  · intro hlt
    obtain ⟨-, h2⟩ := deliver_bulk_fewer msgs s1 _ hcb hall (by simp only [hB]; omega)
    simp only [promiseState, h2]
    exact find_fresh _ _ hfresh
  · intro hle
    have hsplit : msgs = msgs.take ((items.length + 999) / 1000) ++
        msgs.drop ((items.length + 999) / 1000) := (List.take_append_drop _ _).symm
    have htl : (msgs.take ((items.length + 999) / 1000)).length = (items.length + 999) / 1000 := by
      rw [List.length_take]
      omega
    have hne : msgs.take ((items.length + 999) / 1000) ≠ [] := by
      intro h
      rw [h] at htl
      simp only [List.length_nil] at htl
      omega
    have hd := deliver_bulk (msgs.take ((items.length + 999) / 1000)) s1 _ hcb hfresh
      (fun m hm => hall m (List.mem_of_mem_take hm)) (by simp only [hB, htl]; omega) hne
    simp only [List.nil_append] at hd
    -- the last of these deliveries removed the callback
    have hnone : (deliver s1 (msgs.take ((items.length + 999) / 1000))).onBulkHash = none := by
      have hsp := List.dropLast_append_getLast hne
      rw [← hsp, deliver_append]
      obtain ⟨rs, hm⟩ := hall _ (List.mem_of_mem_take (List.getLast_mem hne))
      have hlast : [(msgs.take ((items.length + 999) / 1000)).getLast hne] =
          [(((msgs.take ((items.length + 999) / 1000)).getLast hne).1,
            WorkerMessage.bulk_result rs (some batchId))] := by
        rw [← hm]
      have hdl : (msgs.take ((items.length + 999) / 1000)).dropLast.length + 1 =
          (items.length + 999) / 1000 := by
        rw [List.length_dropLast, htl]
        omega
      obtain ⟨f1, -⟩ := deliver_bulk_fewer (msgs.take ((items.length + 999) / 1000)).dropLast s1 _
        hcb (fun m hm => hall m (List.mem_of_mem_take (List.mem_of_mem_dropLast hm)))
        (by simp only [hB]; omega)
      rw [hlast]
      simp only [deliver, List.foldl_cons, List.foldl_nil]
      exact handle_bulk_last_cb _ _ rs _ f1 (by simp only [hB]; omega)
    obtain ⟨-, hrest⟩ := deliver_bulk_none (msgs.drop ((items.length + 999) / 1000)) _ hnone
      (fun m hm => by
        obtain ⟨rs, h⟩ := hall m (List.mem_of_mem_drop hm)
        exact ⟨rs, _, h⟩)
    rw [hsplit, deliver_append]
    simp only [promiseState, hrest, hd]
    rw [← hsplit]
    exact find_append_fresh _ _ _ hfresh

/-- C28 (the counterexample): a bulk request over 1001 items is split into
two batches.  When the worker's reply to the first batch is delivered twice
and the second batch never reports, the promise is resolved all the same:
the callback counts deliveries, not batches. -/
theorem bulk_resolved_by_duplicate :
    (postedSince (Engine.new 4 0).posted.length
      (generateBulkHashes (Engine.new 4 0) (some (List.replicate 1001 "a")) (some "md5") {}
        "17abcde").1).length = 2 ∧
    (postedSince (Engine.new 4 0).posted.length
      (generateBulkHashes (Engine.new 4 0) (some (List.replicate 1001 "a")) (some "md5") {}
        "17abcde").1).head? =
      some (Request.bulk_generate (itemsWithIds (slice (List.replicate 1001 "a") 0 1000) 0 1000)
        "md5" {} "17abcde") ∧
    promiseState
      (deliver
        (generateBulkHashes (Engine.new 4 0) (some (List.replicate 1001 "a")) (some "md5") {}
          "17abcde").1
        [(1, Worker.onmessage zeroCrypto (fun _ _ => 0)
            (Request.bulk_generate (itemsWithIds (slice (List.replicate 1001 "a") 0 1000) 0 1000)
              "md5" {} "17abcde")),
         (2, Worker.onmessage zeroCrypto (fun _ _ => 0)
            (Request.bulk_generate (itemsWithIds (slice (List.replicate 1001 "a") 0 1000) 0 1000)
              "md5" {} "17abcde"))])
      (Engine.new 4 0).promises ≠ none := by
  have hi : List.replicate 1001 "a" ≠ [] :=
    List.ne_nil_of_length_pos (by rw [List.length_replicate]; decide)
  have hp := bulk_posted (Engine.new 4 0) (List.replicate 1001 "a") "md5" {} "17abcde" hi
    (by decide) (by decide)
  have hB : (List.replicate 1001 "a").length = 1001 := List.length_replicate _ _
  refine ⟨?_, ?_, ?_⟩
  · simp only [postedSince, hp, hB, List.length_map, List.length_drop, List.length_append,
      List.length_range]
    rfl
  · simp only [postedSince, hp, hB]
    rfl
  · have h := (bulk_count (Engine.new 4 0) (List.replicate 1001 "a") "md5" {} "17abcde"
      [(1, Worker.onmessage zeroCrypto (fun _ _ => 0)
          (Request.bulk_generate (itemsWithIds (slice (List.replicate 1001 "a") 0 1000) 0 1000)
            "md5" {} "17abcde")),
       (2, Worker.onmessage zeroCrypto (fun _ _ => 0)
          (Request.bulk_generate (itemsWithIds (slice (List.replicate 1001 "a") 0 1000) 0 1000)
            "md5" {} "17abcde"))]
      hi (by decide) (by decide) (fun e he => by cases he)
      (by
        intro m hm
        simp only [List.mem_cons, List.mem_singleton, List.not_mem_nil, or_false] at hm
        rcases hm with rfl | rfl <;> exact ⟨_, rfl⟩)).2
      (by rw [hB]; decide)
    rw [h]
    exact fun hc => Option.noConfusion hc

/-- C28 (amended): for a bulk request over a non-empty list, split into
ceil(n/1000) batches, and every sequence of `bulk_result` messages tagged
with its batchId, whichever batches they report: the promise is pending as
long as fewer messages than batches were delivered, and it is resolved by
the delivery that makes their number equal (with the hashes of the results
delivered until then, sorted by id) and stays so.  When every batch reports
once, that delivery is the report of the last outstanding batch. -/
theorem bulk_resolved_at_batch_count (s : Engine) (items : List String) (algorithm : String)
    (options : HashOptions) (batchId : String) (msgs : List (Int × WorkerMessage))
    (hi : items ≠ []) (ha : algorithm ≠ "") (hw : 0 < s.numWorkers) (hs : s.WF)
    (hall : ∀ m ∈ msgs, ∃ rs, m.2 = WorkerMessage.bulk_result rs (some batchId)) :
    (msgs.length < (items.length + 999) / 1000 →
      promiseState
        (deliver (generateBulkHashes s (some items) (some algorithm) options batchId).1 msgs)
        s.promises = none) ∧
    ((items.length + 999) / 1000 ≤ msgs.length →
      promiseState
        (deliver (generateBulkHashes s (some items) (some algorithm) options batchId).1 msgs)
        s.promises =
        some (Settlement.resolvedList
          ((((msgs.take ((items.length + 999) / 1000)).flatMap fun m =>
            resultsOf m.2).insertionSort idLe).map fun r => r.hash))) :=
  bulk_count s items algorithm options batchId msgs hi ha hw hs hall

/-- Witness of `bulk_resolved_at_batch_count`: a request over one item on a
new engine with four workers; before the one report the promise is pending,
with it the promise is resolved. -/
theorem bulk_resolved_at_batch_count_witness :
    (["a"] ≠ [] ∧ "md5" ≠ "" ∧ 0 < (Engine.new 4 0).numWorkers ∧ (Engine.new 4 0).WF ∧
      ∀ m ∈ [((5 : Int), WorkerMessage.bulk_result
          [{ text := "a", hash := "h", id := "0" }] (some "17abcde"))],
        ∃ rs, m.2 = WorkerMessage.bulk_result rs (some "17abcde")) ∧
    promiseState
      (deliver (generateBulkHashes (Engine.new 4 0) (some ["a"]) (some "md5") {} "17abcde").1
        [((5 : Int), WorkerMessage.bulk_result
          [{ text := "a", hash := "h", id := "0" }] (some "17abcde"))])
      (Engine.new 4 0).promises = some (Settlement.resolvedList ["h"]) :=
  ⟨⟨by decide, by decide, by decide, (fun e he => by cases he),
      fun m hm => by
        simp only [List.mem_singleton] at hm
        subst hm
        exact ⟨_, rfl⟩⟩,
    ((bulk_resolved_at_batch_count (Engine.new 4 0) ["a"] "md5" {} "17abcde"
      [((5 : Int), WorkerMessage.bulk_result
        [{ text := "a", hash := "h", id := "0" }] (some "17abcde"))]
      (by decide) (by decide) (by decide) (fun e he => by cases he)
      (fun m hm => by
        simp only [List.mem_singleton] at hm
        subst hm
        exact ⟨_, rfl⟩)).2 (by decide)).trans (by decide)⟩

/-- The loop of the bulk branch when no call throws: the entries of the
`try` block. -/
theorem bulkLoop_ok (C : CryptoJS) (rand : Nat → Nat → Byte) (algorithm : String)
    (options : HashOptions) (h1 : algorithm ≠ "ntlm") (h2 : algorithm ≠ "netntlmv2") :
    ∀ (items : List BulkItem) (j : Nat),
      Worker.bulkLoop C rand algorithm options j items =
        .returned ((items.enumFrom j).map fun (x : Nat × BulkItem) =>
          { text := x.2.text, hash := Worker.generateHash C (rand x.1) x.2.text algorithm options,
            id := x.2.id })
  | [], _ => rfl
  | item :: rest, j => by
    have hcall : Worker.generateHashCall C (rand j) item.text algorithm options =
        .returned (Worker.generateHash C (rand j) item.text algorithm options) := by
      unfold Worker.generateHashCall
      by_cases ht : item.text = ""
      · simp [ht, Worker.generateHash]
      · simp [ht, h1, h2]
    simp only [Worker.bulkLoop, hcall, bulkLoop_ok C rand algorithm options h1 h2 rest (j + 1),
      List.enumFrom_cons, List.map_cons]

/-- For every algorithm other than 'ntlm' and 'netntlmv2' no call of
`generateHash` throws, and the worker posts the message of its `try` block,
for a single request and for a batch. -/
theorem reply_eq_onmessage (C : CryptoJS) (rand : Nat → Nat → Byte) (algorithm : String)
    (options : HashOptions) (h1 : algorithm ≠ "ntlm") (h2 : algorithm ≠ "netntlmv2") :
    (∀ text id : String,
      Worker.reply C rand (.generate text algorithm options id) =
        Worker.onmessage C rand (.generate text algorithm options id)) ∧
    (∀ (items : List BulkItem) (batchId : String),
      Worker.reply C rand (.bulk_generate items algorithm options batchId) =
        Worker.onmessage C rand (.bulk_generate items algorithm options batchId)) := by
  constructor
  · intro text id
    unfold Worker.reply Worker.onmessage Worker.generateHashCall
    by_cases ht : text = ""
    · simp [ht, Worker.generateHash]
    · simp [ht, h1, h2]
  · intro items batchId
    unfold Worker.reply Worker.onmessage
    simp only [bulkLoop_ok C rand algorithm options h1 h2 items 0, List.enum]

/-- C7: for every algorithm id, every text and every options value with an
explicit non-empty salt, the outcome of the worker's `generateHash` does not
depend on the random source.  Two runs that differ only in the random octets
drawn have the same outcome and the worker posts the same message; for
'ntlm' and 'netntlmv2' with a non-empty text both runs throw the same
TypeError (the library has no `MD4`), for every other algorithm both runs
return, and return the same string. -/
theorem explicit_salt_outcome (C : CryptoJS) (rnd₁ rnd₂ : Nat → Byte)
    (rand₁ rand₂ : Nat → Nat → Byte) (text algorithm : String) (options : HashOptions)
    (salt id : String) (hs : options.salt = some salt) (hne : salt ≠ "") :
    Worker.generateHashCall C rnd₁ text algorithm options =
      Worker.generateHashCall C rnd₂ text algorithm options ∧
    Worker.reply C rand₁ (.generate text algorithm options id) =
      Worker.reply C rand₂ (.generate text algorithm options id) ∧
    (algorithm ≠ "ntlm" → algorithm ≠ "netntlmv2" →
      ∃ result : String,
        Worker.generateHashCall C rnd₁ text algorithm options = .returned result ∧
        Worker.generateHashCall C rnd₂ text algorithm options = .returned result) ∧
    (text ≠ "" → (algorithm = "ntlm" ∨ algorithm = "netntlmv2") →
      Worker.generateHashCall C rnd₁ text algorithm options = .thrown Worker.md4ErrorMessage ∧
      Worker.generateHashCall C rnd₂ text algorithm options = .thrown Worker.md4ErrorMessage) := by
  have key : ∀ r₁ r₂ : Nat → Byte,
      Worker.generateHashCall C r₁ text algorithm options =
        Worker.generateHashCall C r₂ text algorithm options := by
    intro r₁ r₂
    unfold Worker.generateHashCall
    by_cases ht : text = ""
    · simp [ht]
    · by_cases ha : algorithm = "ntlm" ∨ algorithm = "netntlmv2"
      · simp [ht, ha]
      · have h2 : algorithm ≠ "netntlmv2" := fun h => ha (Or.inr h)
        simp only [ht, ha, if_false]
        rw [explicit_salt_deterministic C r₁ r₂ text algorithm options salt hs hne h2]
  refine ⟨key rnd₁ rnd₂, ?_, ?_, ?_⟩
  · simp only [Worker.reply, key (rand₁ 0) (rand₂ 0)]
  · intro h1 h2
    refine ⟨Worker.generateHash C rnd₁ text algorithm options, ?_, ?_⟩
    · unfold Worker.generateHashCall
      by_cases ht : text = ""
      · simp [ht, Worker.generateHash]
      · simp [ht, h1, h2]
    · rw [← key rnd₁ rnd₂]
      unfold Worker.generateHashCall
      by_cases ht : text = ""
      · simp [ht, Worker.generateHash]
      · simp [ht, h1, h2]
  · intro ht ha
    unfold Worker.generateHashCall
    simp [ht, ha]

/-- Witness of `explicit_salt_outcome`: text 'a', salt 'secret', random
octets all 0 and all 1, algorithm 'netntlmv2'. -/
theorem explicit_salt_outcome_witness :
    ((some "secret" : Option String) = some "secret" ∧ "secret" ≠ "") ∧
    Worker.generateHashCall zeroCrypto (fun _ => 0) "a" "netntlmv2" { salt := some "secret" } =
      Worker.generateHashCall zeroCrypto (fun _ => 1) "a" "netntlmv2" { salt := some "secret" } :=
  ⟨⟨rfl, by decide⟩,
   (explicit_salt_outcome zeroCrypto (fun _ => 0) (fun _ => 1) (fun _ _ => 0) (fun _ _ => 1)
     "a" "netntlmv2" { salt := some "secret" } "secret" "17abcde" rfl (by decide)).1⟩

/-- Evaluated runs with the explicit salt 'NaCl' and random octets all 0 and
all 1: 'bcrypt' returns the same string in both, 'ntlm' throws in both. -/
theorem explicit_salt_runs :
    Worker.generateHashCall zeroCrypto (fun _ => 0) "a" "bcrypt" { salt := some "NaCl" } =
      Worker.generateHashCall zeroCrypto (fun _ => 1) "a" "bcrypt" { salt := some "NaCl" } ∧
    Worker.generateHashCall zeroCrypto (fun _ => 0) "a" "bcrypt" { salt := some "NaCl" } =
      .returned (Worker.generateHash zeroCrypto (fun _ => 0) "a" "bcrypt" { salt := some "NaCl" }) ∧
    Worker.generateHashCall zeroCrypto (fun _ => 0) "a" "ntlm" { salt := some "NaCl" } =
      .thrown "CryptoJS.MD4 is not a function" ∧
    Worker.generateHashCall zeroCrypto (fun _ => 1) "a" "ntlm" { salt := some "NaCl" } =
      .thrown "CryptoJS.MD4 is not a function" := by
  decide

/-- C30: for algorithm 'netntlmv2' and every non-empty text the worker's
`generateHash` returns no string: the branch calls `CryptoJS.MD4`, which the
imported crypto-js 4.1.1 does not define, and throws a TypeError, whatever
the text, the options and the random challenge are.  The worker posts an
`error` message with the request's id, and for a batch whose first item has
a non-empty text an `error` message with the batchId. -/
theorem netntlmv2_throws (C : CryptoJS) (rnd : Nat → Byte) (rand : Nat → Nat → Byte)
    (text : String) (options : HashOptions) (id : String) (ht : text ≠ "") :
    Worker.generateHashCall C rnd text "netntlmv2" options = .thrown Worker.md4ErrorMessage ∧
    Worker.reply C rand (.generate text "netntlmv2" options id) =
      .error Worker.md4ErrorMessage (some id) none ∧
    (∀ (rest : List BulkItem) (itemId batchId : String),
      Worker.reply C rand
          (.bulk_generate ({ text := text, id := itemId } :: rest) "netntlmv2" options batchId) =
        .error Worker.md4ErrorMessage none (some batchId)) := by
  have key : ∀ r : Nat → Byte,
      Worker.generateHashCall C r text "netntlmv2" options = .thrown Worker.md4ErrorMessage := by
    intro r
    unfold Worker.generateHashCall
    simp [ht]
  refine ⟨key rnd, ?_, ?_⟩
  · simp only [Worker.reply, key]
  · intro rest itemId batchId
    simp only [Worker.reply, Worker.bulkLoop, key]

/-- Witness of `netntlmv2_throws`: the text 'alice' with the salt 'secret'. -/
theorem netntlmv2_throws_witness :
    "alice" ≠ "" ∧
    Worker.generateHashCall zeroCrypto (fun _ => 0) "alice" "netntlmv2" { salt := some "secret" } =
      .thrown "CryptoJS.MD4 is not a function" :=
  ⟨by decide,
   (netntlmv2_throws zeroCrypto (fun _ => 0) (fun _ _ => 0) "alice" { salt := some "secret" }
     "17abcde" (by decide)).1⟩

/-- The request `generateHash('alice', 'netntlmv2', {salt: 'secret'})` on a
new engine: the worker's reply is the `error` message, and delivering it
rejects the promise with the message of the TypeError. -/
theorem netntlmv2_request_rejected :
    Worker.reply zeroCrypto (fun _ _ => 0)
        (Request.generate "alice" "netntlmv2" { salt := some "secret" } "17abcde") =
      WorkerMessage.error "CryptoJS.MD4 is not a function" (some "17abcde") none ∧
    promiseState
      (handleWorkerMessage
        (generateHash (Engine.new 4 0) (some "alice") (some "netntlmv2")
          { salt := some "secret" } "17abcde").1 5
        (Worker.reply zeroCrypto (fun _ _ => 0)
          (Request.generate "alice" "netntlmv2" { salt := some "secret" } "17abcde")))
      0 = some (Settlement.rejected "CryptoJS.MD4 is not a function") := by
  decide

end HashGenerator
